import Mathlib

/-!
Verification of the storage core of the scrath_sql_light repository
(a small single-file relational database written in TypeScript).

The development contains two shallow embeddings of the source:

* a byte-level model (`Buf`, `Pager`, the leaf-cell codec) in which a
  Node.js `Buffer` is a `List Nat` of byte values and the little-endian
  read/write helpers of the source are translated one for one; and
* a logical page-level model (`Page`, `PagerState`, the `BTree` insert
  path and the `Database` executor) in which a page holds the decoded
  content that the source reads and writes through its codec helpers
  (`readLeafCells` / `writeLeafCellsToBuffer` / `readInternalEntries` /
  `writeInternalNode`).  The byte-level round-trip of the codec is
  verified separately, which justifies the decoded view.

Machine integers are modelled as `Nat` / `Int` with explicit `% 2 ^ w`
where the source's binary writes truncate.  Fallible operations return
`Except String` results, mirroring the discriminated
`success / error` records of the source; operations that mutate the
pager thread the state explicitly, so writes performed before a failure
are kept, exactly as in the source.
-/

namespace SqlLight

/-! # Byte-level buffers

A Node.js `Buffer` is modelled as a `List Nat` whose entries are byte
values.  `List.set` is a no-op out of bounds, so every fact proved
about a write carries the bound under which the source's write would
not have thrown. -/

/-- A byte buffer: entry `i` is the byte at offset `i`. -/
abbrev Buf : Type := List Nat

/-- `Buffer.alloc(n, 0)`: a zero-filled buffer of length `n`. -/
def bufAlloc (n : Nat) : Buf := List.replicate n 0

/-- Length of a buffer. -/
def bufLen (b : Buf) : Nat := List.length b

/-- Read the byte at `off` (0 beyond the end, as reads of a
zero-initialized region). -/
def byteAt (b : Buf) (off : Nat) : Nat := List.getD b off 0

/-- `buf.writeUInt8(value, offset)`. -/
def writeUInt8 (b : Buf) (v off : Nat) : Buf := List.set b off (v % 256)

/-- `buf.writeUInt16LE(value, offset)`. -/
def writeUInt16LE (b : Buf) (v off : Nat) : Buf :=
  List.set (List.set b off (v % 256)) (off + 1) (v / 256 % 256)

/-- `buf.writeUInt32LE(value, offset)`. -/
def writeUInt32LE (b : Buf) (v off : Nat) : Buf :=
  List.set (List.set (List.set (List.set b off (v % 256))
    (off + 1) (v / 256 % 256)) (off + 2) (v / 65536 % 256))
    (off + 3) (v / 16777216 % 256)

/-- `buf.readUInt8(offset)`. -/
def readUInt8 (b : Buf) (off : Nat) : Nat := byteAt b off

/-- `buf.readUInt16LE(offset)`. -/
def readUInt16LE (b : Buf) (off : Nat) : Nat :=
  byteAt b off + 256 * byteAt b (off + 1)

/-- `buf.readUInt32LE(offset)`. -/
def readUInt32LE (b : Buf) (off : Nat) : Nat :=
  byteAt b off + 256 * byteAt b (off + 1) + 65536 * byteAt b (off + 2) +
    16777216 * byteAt b (off + 3)

/-- `buf.writeInt32LE(value, offset)`: the signed value is stored as its
two's-complement residue modulo `2 ^ 32`. -/
def writeInt32LE (b : Buf) (v : Int) (off : Nat) : Buf :=
  writeUInt32LE b (v % (2 ^ 32 : Int)).toNat off

/-- `buf.readInt32LE(offset)`: bytes are read little-endian and values
at or above `2 ^ 31` are interpreted as negative. -/
def readInt32LE (b : Buf) (off : Nat) : Int :=
  if readUInt32LE b off < 2 ^ 31 then (readUInt32LE b off : Int)
  else (readUInt32LE b off : Int) - 2 ^ 32

/-- Copy `data` into `file` starting at byte offset `off`
(`writeSync(fd, data, 0, data.length, off)`); a gap beyond the current
end of the file is filled with zeroes, as the OS does. -/
def writeBytesAt (file : Buf) (off : Nat) (data : Buf) : Buf :=
  List.map (fun i => byteAt file i) (List.range off) ++ data ++
    List.drop (off + bufLen data) file

/-- Read `len` bytes starting at `off`
(`readSync` into a zero-filled buffer: bytes beyond the end of the file
stay 0). -/
def readBytesAt (file : Buf) (off len : Nat) : Buf :=
  List.map (fun i => byteAt file (off + i)) (List.range len)

/-! # Pager (byte level)

Translation of `src/storage/pager.ts`.  File-system handles are not
modelled: the pager state carries the file contents directly. -/

/-- `PAGE_TYPE` constants of `pager.ts`. -/
def PAGE_TYPE_UNUSED : Nat := 0x00

def PAGE_TYPE_SCHEMA : Nat := 0x01

def PAGE_TYPE_LEAF_NODE : Nat := 0x02

def PAGE_TYPE_INTERNAL_NODE : Nat := 0x03

/-- `MAGIC_NUMBER = 0x53514C54` (the value reads `SQLT` big-endian). -/
def MAGIC_NUMBER : Nat := 0x53514C54

def DEFAULT_PAGE_SIZE : Nat := 4096

def HEADER_MAGIC_OFFSET : Nat := 0

def HEADER_PAGE_SIZE_OFFSET : Nat := 4

def HEADER_TOTAL_PAGES_OFFSET : Nat := 6

def HEADER_SCHEMA_PAGE_OFFSET : Nat := 10

def FILE_HEADER_SIZE : Nat := 14

/-- `FileHeader` of `pager.ts`. -/
structure FileHeader where
  magic : Nat
  pageSize : Nat
  totalPages : Nat
  schemaPage : Nat
deriving Repr, DecidableEq

/-- `writeFileHeader(buf, header)`. -/
def writeFileHeader (buf : Buf) (h : FileHeader) : Buf :=
  writeUInt32LE (writeUInt32LE (writeUInt16LE (writeUInt32LE buf
    h.magic HEADER_MAGIC_OFFSET) h.pageSize HEADER_PAGE_SIZE_OFFSET)
    h.totalPages HEADER_TOTAL_PAGES_OFFSET) h.schemaPage HEADER_SCHEMA_PAGE_OFFSET

/-- `readFileHeader(buf)`. -/
def readFileHeader (buf : Buf) : Except String FileHeader :=
  let magic := readUInt32LE buf HEADER_MAGIC_OFFSET
  if magic ≠ MAGIC_NUMBER then
    .error ("Invalid magic number: " ++ toString magic)
  else
    .ok { magic := magic
          pageSize := readUInt16LE buf HEADER_PAGE_SIZE_OFFSET
          totalPages := readUInt32LE buf HEADER_TOTAL_PAGES_OFFSET
          schemaPage := readUInt32LE buf HEADER_SCHEMA_PAGE_OFFSET }

/-- The `Pager` class: file contents plus the in-memory header.
`pageSize` is the constructor's copy of `header.pageSize`. -/
structure Pager where
  file : Buf
  header : FileHeader
  pageSize : Nat
deriving Repr, DecidableEq

namespace Pager

/-- `writePageRaw(pageNum, data)`: unvalidated write of one page at
offset `pageNum * pageSize`.  Every caller passes a buffer of exactly
`pageSize` bytes; `take` makes the definition total. -/
def writePageRaw (p : Pager) (pageNum : Nat) (data : Buf) : Pager :=
  { p with file := writeBytesAt p.file (pageNum * p.pageSize) (List.take p.pageSize data) }

/-- `flushHeader()`. -/
def flushHeader (p : Pager) : Pager :=
  writePageRaw p 0 (writeFileHeader (bufAlloc p.pageSize) p.header)

/-- `allocatePage()`: the new page number is the previous total, the
total is incremented, the fresh page is zeroed and the header is
flushed.  The source wraps the page number in a success result; the
operation never fails. -/
def allocatePage (p : Pager) : Pager × Nat :=
  let pageNum := p.header.totalPages
  let p1 : Pager := { p with header := { p.header with totalPages := pageNum + 1 } }
  let p2 := writePageRaw p1 pageNum (bufAlloc p.pageSize)
  (flushHeader p2, pageNum)

/-- `readPage(pageNum)`.  The argument is an `Int` because the source
checks `pageNum < 0`. -/
def readPage (p : Pager) (pageNum : Int) : Except String Buf :=
  if pageNum < 0 ∨ (p.header.totalPages : Int) ≤ pageNum then
    .error ("Page " ++ toString pageNum ++ " out of range (0.." ++
      toString (p.header.totalPages - 1) ++ ")")
  else
    .ok (readBytesAt p.file (pageNum.toNat * p.pageSize) p.pageSize)

/-- `writePage(pageNum, data)`: bounds check, then size check, then the
raw write.  On failure the file is untouched. -/
def writePage (p : Pager) (pageNum : Int) (data : Buf) : Pager × Except String Unit :=
  if pageNum < 0 ∨ (p.header.totalPages : Int) ≤ pageNum then
    (p, .error ("Page " ++ toString pageNum ++ " out of range (0.." ++
      toString (p.header.totalPages - 1) ++ ")"))
  else if bufLen data ≠ p.pageSize then
    (p, .error ("Buffer size " ++ toString (bufLen data) ++
      " does not match page size " ++ toString p.pageSize))
  else
    (writePageRaw p pageNum.toNat data, .ok ())

/-- The `isNew` branch of `Pager.open`: create a fresh database file.
Page 0 receives the serialized header (`totalPages = 2`,
`schemaPage = 1`), page 1 an empty schema page. -/
def openFresh (pageSize : Nat) : Pager :=
  let header : FileHeader :=
    { magic := MAGIC_NUMBER, pageSize := pageSize, totalPages := 2, schemaPage := 1 }
  let p : Pager := { file := [], header := header, pageSize := pageSize }
  let headerPage := writeFileHeader (bufAlloc pageSize) header
  let p1 := writePageRaw p 0 headerPage
  let schemaPage := writeUInt16LE (writeUInt8 (bufAlloc pageSize) PAGE_TYPE_SCHEMA 0) 0 1
  writePageRaw p1 1 schemaPage

end Pager

/-! # JavaScript numeric conversion

`database.ts` calls `Number(raw)` on string literals and
`Number.isInteger` on the result.  The model below implements the
ECMAScript string-to-number grammar with exact rational values: trimmed
empty strings convert to 0, `0x`/`0o`/`0b` prefixes select a base,
`Infinity` and sign prefixes are honoured, and decimal literals may
carry a fraction and an exponent.  Rounding to binary64 is not
modelled, so the model agrees with JavaScript exactly in two regimes:
(a) strings the grammar refuses, which give `NaN` in both independently
of any rounding, and (b) strings whose mathematical value is exactly
representable as a double, in particular every integer of magnitude at
most `2 ^ 53` (hence every radix-prefixed or decimal integer literal in
that range) and short binary-exact literals such as `1.5` (= 3/2) and
the literal `Infinity`.  Outside these regimes the model diverges from
JavaScript (it neither rounds `9007199254740993` down, nor rounds
`0.99999999999999999` up to 1, nor overflows `1e999` to infinity), so
every theorem below quantifies only over regime (a) or (b): the general
acceptance clause is restricted to decimal integer numerals of
magnitude at most `2 ^ 53`, the general rejection clause to the
grammar-failure case, and all other behaviours are stated at concrete
exactly-representable literals. -/

/-- A JavaScript number as classified by the code under test:
`NaN`, an infinity, or a finite value (kept exact as a rational). -/
inductive JSNum where
  | nan
  | inf (neg : Bool)
  | val (q : ℚ)
deriving Repr, DecidableEq

/-- The ECMAScript `StrWhiteSpaceChar` set (space characters, line
terminators, NBSP, BOM and the Unicode space separators). -/
def jsWhite (ch : Char) : Bool :=
  ch.toNat ∈ [9, 10, 11, 12, 13, 32, 0xA0, 0x1680, 0x2000, 0x2001, 0x2002,
    0x2003, 0x2004, 0x2005, 0x2006, 0x2007, 0x2008, 0x2009, 0x200A,
    0x2028, 0x2029, 0x202F, 0x205F, 0x3000, 0xFEFF]

/-- Strip leading and trailing `StrWhiteSpaceChar`s. -/
def trimWhite (l : List Char) : List Char :=
  ((l.dropWhile jsWhite).reverse.dropWhile jsWhite).reverse

def isDecDigit (ch : Char) : Bool := 48 ≤ ch.toNat ∧ ch.toNat ≤ 57

def isBinDigit (ch : Char) : Bool := ch = '0' ∨ ch = '1'

def isOctDigit (ch : Char) : Bool := 48 ≤ ch.toNat ∧ ch.toNat ≤ 55

def isHexDigit (ch : Char) : Bool :=
  (48 ≤ ch.toNat ∧ ch.toNat ≤ 57) ∨ (97 ≤ ch.toNat ∧ ch.toNat ≤ 102) ∨
    (65 ≤ ch.toNat ∧ ch.toNat ≤ 70)

/-- Numeric value of one digit (any base up to 16);
48, 97 and 65 are the codes of `0`, `a` and `A`. -/
def digitVal (ch : Char) : Nat :=
  if 48 ≤ ch.toNat ∧ ch.toNat ≤ 57 then ch.toNat - 48
  else if 97 ≤ ch.toNat ∧ ch.toNat ≤ 102 then ch.toNat - 87
  else if 65 ≤ ch.toNat ∧ ch.toNat ≤ 70 then ch.toNat - 55
  else 0

/-- Value of a digit string in the given base. -/
def digitsVal (base : Nat) (ds : List Char) : Nat :=
  ds.foldl (fun acc ch => acc * base + digitVal ch) 0

/-- Split a character list at the first `e` or `E`
(the exponent marker of a decimal literal). -/
def splitAtExpMark (l : List Char) : List Char × Option (List Char) :=
  match l with
  | [] => ([], none)
  | ch :: rest =>
    if ch = 'e' ∨ ch = 'E' then ([], some rest)
    else
      let (a, b) := splitAtExpMark rest
      (ch :: a, b)

/-- Split a character list at the first decimal point. -/
def splitAtDot (l : List Char) : List Char × Option (List Char) :=
  match l with
  | [] => ([], none)
  | ch :: rest =>
    if ch = '.' then ([], some rest)
    else
      let (a, b) := splitAtDot rest
      (ch :: a, b)

/-- Parse a signed decimal exponent (`SignedInteger`). -/
def parseSignedExp (l : List Char) : Option Int :=
  match l with
  | '+' :: ds => if ds ≠ [] ∧ ds.all isDecDigit then some (digitsVal 10 ds) else none
  | '-' :: ds => if ds ≠ [] ∧ ds.all isDecDigit then some (-(digitsVal 10 ds : Int)) else none
  | ds => if ds ≠ [] ∧ ds.all isDecDigit then some (digitsVal 10 ds) else none

/-- Parse an unsigned `StrUnsignedDecimalLiteral`
(`digits [. digits] [e signed-digits]`, at least one mantissa digit),
returning its exact value. -/
def parseUnsignedDec (l : List Char) : Option ℚ :=
  let (mant, expPart) := splitAtExpMark l
  let expOpt : Option Int :=
    match expPart with
    | none => some 0
    | some es => parseSignedExp es
  match expOpt with
  | none => none
  | some ex =>
    let (ip, fpOpt) := splitAtDot mant
    let fp := fpOpt.getD []
    if (fpOpt.isSome → (splitAtDot fp).2 = none) ∧
        ip.all isDecDigit ∧ fp.all isDecDigit ∧ (ip ≠ [] ∨ fp ≠ []) then
      some (((digitsVal 10 ip : ℚ) +
        (digitsVal 10 fp : ℚ) / (10 : ℚ) ^ fp.length) * (10 : ℚ) ^ ex)
    else none

/-- Parse a trimmed, non-empty numeric string body: radix-prefixed
integers (no sign allowed), else an optional sign, `Infinity`, or an
unsigned decimal literal. -/
def jsParseTrimmed (t : List Char) : JSNum :=
  if t = [] then .val 0
  else if t.take 2 = ['0', 'x'] ∨ t.take 2 = ['0', 'X'] then
    (if t.drop 2 ≠ [] ∧ (t.drop 2).all isHexDigit then
      .val (digitsVal 16 (t.drop 2)) else .nan)
  else if t.take 2 = ['0', 'o'] ∨ t.take 2 = ['0', 'O'] then
    (if t.drop 2 ≠ [] ∧ (t.drop 2).all isOctDigit then
      .val (digitsVal 8 (t.drop 2)) else .nan)
  else if t.take 2 = ['0', 'b'] ∨ t.take 2 = ['0', 'B'] then
    (if t.drop 2 ≠ [] ∧ (t.drop 2).all isBinDigit then
      .val (digitsVal 2 (t.drop 2)) else .nan)
  else
    let neg : Bool := t.head? = some '-'
    let u := if t.head? = some '-' ∨ t.head? = some '+' then t.tail else t
    if u = "Infinity".data then .inf neg
    else
      match parseUnsignedDec u with
      | some q => .val (if neg then -q else q)
      | none => .nan

/-- ECMAScript `StringToNumber`, with exact rational values. -/
def jsStringToNumber (s : String) : JSNum :=
  jsParseTrimmed (trimWhite s.data)

/-- JavaScript `String(n)` on an integral number, for the magnitudes the
executor produces (below `10 ^ 21`, where JS prints plain decimal). -/
def jsIntToString (n : Int) : String := toString n

/-! # SQL statement surface (parser.ts types) -/

inductive ColumnType where
  | INTEGER
  | TEXT
deriving Repr, DecidableEq

inductive ColumnConstraint where
  | PRIMARY_KEY
  | NOT_NULL
  | UNIQUE
deriving Repr, DecidableEq

/-- `ColumnDef` of `parser.ts`. -/
structure ColumnDef where
  name : String
  type : ColumnType
  constraints : List ColumnConstraint
deriving Repr, DecidableEq

/-- A literal carried by a statement: `string | number`.  The parser
only produces integral numbers (`parseValue` checks
`Number.isInteger`). -/
inductive Lit where
  | num (n : Int)
  | str (s : String)
deriving Repr, DecidableEq

/-- A column value stored in a row: `number | string | null`. -/
inductive ColumnValue where
  | nullV
  | intV (n : Int)
  | textV (s : String)
deriving Repr, DecidableEq

/-- `convertValue(colDef, raw)` of `database.ts`: an INTEGER column
takes a number directly and converts a string with `Number`, rejecting
`NaN` and non-integral results; a TEXT column coerces any literal with
`String(...)`.  (Diagnostics omit the quote characters of the source
messages.) -/
def convertValue (colDef : ColumnDef) (raw : Lit) : Except String ColumnValue :=
  if colDef.type = .INTEGER then
    match raw with
    | .num n => .ok (.intV n)
    | .str s =>
      match jsStringToNumber s with
      | .val q =>
        if q.den = 1 then .ok (.intV q.num)
        else .error ("Invalid INTEGER value for column " ++ colDef.name ++ ": " ++ s)
      | _ => .error ("Invalid INTEGER value for column " ++ colDef.name ++ ": " ++ s)
  else
    .ok (.textV (match raw with | .num n => jsIntToString n | .str s => s))

/-! # Leaf cell codec (byte level)

Translation of `BTree.readLeafCells` / `BTree.writeLeafCellsToBuffer`.
A TEXT value is represented by its UTF-8 byte sequence:
`Buffer.from(s, "utf-8")` and `buf.toString("utf-8")` are mutually
inverse on JavaScript strings, so the byte sequence is a faithful
stand-in for the string. -/

def NODE_HEADER_SIZE : Nat := 7

def INTERNAL_ENTRY_SIZE : Nat := 8

/-- A column value as the codec sees it: the type-tag union
(`0x00` NULL, `0x01` INTEGER, `0x02` TEXT). -/
inductive CellValue where
  | nullB
  | intB (n : Int)
  | textB (bytes : List Nat)
deriving Repr, DecidableEq

/-- A record as serialized into a leaf cell. -/
structure CellRecord where
  key : Nat
  values : List CellValue
deriving Repr, DecidableEq

/-- `strBuf.copy(page, offset)`: copy raw bytes into the page. -/
def writeBytesInto (b : Buf) (off : Nat) : List Nat → Buf
  | [] => b
  | x :: rest => writeBytesInto (List.set b off x) (off + 1) rest

/-- Write one tagged value at `offset` (tag byte, then payload). -/
def writeValueAt (page : Buf) (offset : Nat) : CellValue → Buf
  | .nullB => writeUInt8 page 0x00 offset
  | .intB n => writeInt32LE (writeUInt8 page 0x01 offset) n (offset + 1)
  | .textB bytes =>
    writeBytesInto (writeUInt16LE (writeUInt8 page 0x02 offset)
      bytes.length (offset + 1)) (offset + 3) bytes

/-- Encoded size of one tagged value. -/
def encodedValueSize : CellValue → Nat
  | .nullB => 1
  | .intB _ => 5
  | .textB bytes => 3 + bytes.length

/-- Encoded size of a value list. -/
def encodedValuesSize (values : List CellValue) : Nat :=
  (values.map encodedValueSize).sum

/-- The value loop of `writeLeafCellsToBuffer`, returning the buffer
and the offset after the last value. -/
def writeCellValues (page : Buf) (offset : Nat) : List CellValue → Buf × Nat
  | [] => (page, offset)
  | v :: rest => writeCellValues (writeValueAt page offset v) (offset + encodedValueSize v) rest

/-- Encoded size of one cell: key (4) + value count (2) + values. -/
def encodedCellSize (cell : CellRecord) : Nat :=
  6 + encodedValuesSize cell.values

/-- Encoded size of a cell list. -/
def encodedCellsSize (cells : List CellRecord) : Nat :=
  (cells.map encodedCellSize).sum

/-- Write one cell at `offset`: u32 key, u16 value count, values. -/
def writeCell (page : Buf) (offset : Nat) (cell : CellRecord) : Buf × Nat :=
  writeCellValues
    (writeUInt16LE (writeUInt32LE page cell.key offset) cell.values.length (offset + 4))
    (offset + 6) cell.values

/-- The cell loop of `writeLeafCellsToBuffer`. -/
def writeCells (page : Buf) (offset : Nat) : List CellRecord → Buf
  | [] => page
  | cell :: rest =>
    match writeCell page offset cell with
    | (p1, off1) => writeCells p1 off1 rest

/-- `writeLeafCellsToBuffer(page, cells)`: u16 cell count at offset 1,
then the cells packed from offset 7. -/
def writeLeafCellsToBuffer (page : Buf) (cells : List CellRecord) : Buf :=
  writeCells (writeUInt16LE page cells.length 1) NODE_HEADER_SIZE cells

/-- The value loop of `readLeafCells`: read `valueCount` tagged values
from `offset`.  An unknown tag appends nothing and advances only past
the tag byte, exactly as the source's if-chain without an else. -/
def readCellValues (page : Buf) (offset : Nat) : Nat → List CellValue × Nat
  | 0 => ([], offset)
  | vc + 1 =>
    if readUInt8 page offset = 0x00 then
      match readCellValues page (offset + 1) vc with
      | (vs, off2) => (.nullB :: vs, off2)
    else if readUInt8 page offset = 0x01 then
      match readCellValues page (offset + 5) vc with
      | (vs, off2) => (.intB (readInt32LE page (offset + 1)) :: vs, off2)
    else if readUInt8 page offset = 0x02 then
      match readCellValues page (offset + 3 + readUInt16LE page (offset + 1)) vc with
      | (vs, off2) =>
        (.textB (readBytesAt page (offset + 3) (readUInt16LE page (offset + 1))) :: vs, off2)
    else
      match readCellValues page (offset + 1) vc with
      | (vs, off2) => (vs, off2)

/-- Read one cell at `offset`: u32 key, u16 value count, values. -/
def readCell (page : Buf) (offset : Nat) : CellRecord × Nat :=
  match readCellValues page (offset + 6) (readUInt16LE page (offset + 4)) with
  | (values, off2) => (⟨readUInt32LE page offset, values⟩, off2)

/-- The cell loop of `readLeafCells`. -/
def readCellsFrom (page : Buf) (offset : Nat) : Nat → List CellRecord
  | 0 => []
  | n + 1 =>
    match readCell page offset with
    | (cell, off2) => cell :: readCellsFrom page off2 n

/-- `readLeafCells(page, cellCount)`: cells packed from offset 7. -/
def readLeafCells (page : Buf) (cellCount : Nat) : List CellRecord :=
  readCellsFrom page NODE_HEADER_SIZE cellCount

/-- Constraints under which a value serializes without truncation:
INTEGER fits in a signed 32-bit word, TEXT length fits in 16 bits and
its entries are bytes. -/
def ValueOK : CellValue → Prop
  | .nullB => True
  | .intB n => -(2 ^ 31) ≤ n ∧ n < 2 ^ 31
  | .textB bytes => bytes.length < 2 ^ 16 ∧ ∀ b ∈ bytes, b < 256

/-- Constraints for a whole cell: u32 key, u16 value count, values. -/
def CellOK (cell : CellRecord) : Prop :=
  cell.key < 2 ^ 32 ∧ cell.values.length < 2 ^ 16 ∧ ∀ v ∈ cell.values, ValueOK v

/-! # Logical page model

`btree.ts` and `database.ts` interact with pages only through their
codec helpers, so a page is modelled by its decoded content.  Pages the
B+Tree code would misparse (reading a header, schema or zeroed page as
if it were a node) are modelled as errors; such reads cannot occur in
the well-formed states the theorems quantify over.  Page capacity is
not modelled: a leaf holds its cell list directly.  The pager state
keeps the page list (`totalPages` is its length, matching the invariant
that the file holds exactly `totalPages` pages) and the header's
catalog page number. -/

/-- `BTreeRecord` of `btree.ts`.  Keys are JavaScript numbers compared
with `<`; the model uses `Int`. -/
structure BTreeRecord where
  key : Int
  values : List ColumnValue
deriving Repr, DecidableEq

/-- One `(key, childPageNum)` entry of an internal node. -/
structure InternalEntry where
  key : Int
  childPageNum : Nat
deriving Repr, DecidableEq

/-- `TableSchema` of `database.ts` (an entry of the schema page). -/
structure TableSchema where
  name : String
  columns : List ColumnDef
  rootPageNum : Nat
deriving Repr, DecidableEq

/-- A page, by its decoded content.  `unused` is a zero-initialized
page (type byte `0x00`), `headerP` is page 0. -/
inductive Page where
  | unused
  | headerP
  | schemaP (tables : List TableSchema)
  | leaf (rightSibling : Nat) (cells : List BTreeRecord)
  | internal (leftmostChild : Nat) (entries : List InternalEntry)
deriving Repr, DecidableEq

/-- Pager state for the logical model. -/
structure PagerState where
  pages : List Page
  schemaPage : Nat
deriving Repr, DecidableEq

namespace PagerState

/-- `header.totalPages`; the model keeps it equal to the page count. -/
def totalPages (s : PagerState) : Nat := s.pages.length

/-- `readPage`: bounds check, then the page content. -/
def readPage (s : PagerState) (n : Nat) : Except String Page :=
  if h : n < s.pages.length then .ok (s.pages.get ⟨n, h⟩)
  else .error ("Page " ++ toString n ++ " out of range (0.." ++
    toString (s.pages.length - 1) ++ ")")

/-- `writePage`: bounds check, then replace the page.  The size check
of the byte level cannot fail here because pages are whole values. -/
def writePage (s : PagerState) (n : Nat) (p : Page) : PagerState × Except String Unit :=
  if n < s.pages.length then ({ s with pages := s.pages.set n p }, .ok ())
  else (s, .error ("Page " ++ toString n ++ " out of range (0.." ++
    toString (s.pages.length - 1) ++ ")"))

/-- `allocatePage`: append a zeroed page; the new page number is the
previous total.  (The header flush only rewrites page 0, which the
model keeps as `headerP`.) -/
def allocatePage (s : PagerState) : PagerState × Nat :=
  ({ s with pages := s.pages ++ [Page.unused] }, s.pages.length)

end PagerState

/-- `this.maxLeafCells = 4`. -/
def maxLeafCells : Nat := 4

/-- `this.maxInternalKeys = 4`. -/
def maxInternalKeys : Nat := 4

namespace BTree

/-- The loop of `findChildPage`: `prevChild` is the child left of the
current entry (initially the leftmost child).  When the key list is
exhausted the last child is returned; on an empty entry list the
source's read at offset `7 - 8 + 4 = 3` lands on the leftmost-child
field, which this translation returns directly. -/
def findChildPageAux (prevChild : Nat) (entries : List InternalEntry) (key : Int) : Nat :=
  match entries with
  | [] => prevChild
  | e :: rest => if key < e.key then prevChild else findChildPageAux e.childPageNum rest key

/-- `findChildPage(page, key)` on a decoded internal node. -/
def findChildPage (leftmostChild : Nat) (entries : List InternalEntry) (key : Int) : Nat :=
  findChildPageAux leftmostChild entries key

/-- `findLeafPage`: descend from a page to the leaf responsible for
`key`, recording internal pages in `path`.  The source recursion is
bounded by the tree height; the model uses fuel (one unit per visited
page) and every caller passes more fuel than there are pages, so fuel
can run out only on a cyclic page graph, where the source would not
terminate either. -/
def findLeafPage (s : PagerState) : Nat → Nat → Int → List Nat →
    Except String (Nat × List Nat)
  | 0, _, _, _ => .error "page cycle"
  | fuel + 1, pageNum, key, path =>
    match s.readPage pageNum with
    | .error e => .error e
    | .ok (.leaf _ _) => .ok (pageNum, path)
    | .ok (.internal lm entries) =>
      findLeafPage s fuel (findChildPage lm entries key) key (path ++ [pageNum])
    | .ok _ => .error "not a B+Tree page"

/-- `cells.splice(insertPos, 0, record)` after the
`while (cells[insertPos].key < record.key) insertPos++` scan. -/
def insertSorted (record : BTreeRecord) : List BTreeRecord → List BTreeRecord
  | [] => [record]
  | cell :: rest =>
    if cell.key < record.key then cell :: insertSorted record rest
    else record :: cell :: rest

/-- The same sorted splice for internal entries (`propagateSplit`). -/
def insertEntrySorted (entry : InternalEntry) : List InternalEntry → List InternalEntry
  | [] => [entry]
  | e :: rest =>
    if e.key < entry.key then e :: insertEntrySorted entry rest
    else entry :: e :: rest

/-- The u32 at byte offset 3 of a page, whatever its type: the
right-sibling of a leaf and the leftmost-child of an internal node
share that offset. -/
def pageSiblingField : Page → Nat
  | .leaf sib _ => sib
  | .internal lm _ => lm
  | _ => 0

/-- `splitLeafNode(pageNum, cells)`: re-read the page for its sibling,
split at `Math.ceil(cells.length / 2)`, allocate the right page with
the inherited sibling, then re-link the left page to the new page.  An
empty right half would make the source throw on `rightCells[0]`; the
model returns an error (unreachable, the caller always passes five
cells). -/
def splitLeafNode (s : PagerState) (pageNum : Nat) (cells : List BTreeRecord) :
    PagerState × Except String (Int × Nat) :=
  match s.readPage pageNum with
  | .error e => (s, .error e)
  | .ok page =>
    let oldSiblingPageNum := pageSiblingField page
    let splitPoint := (cells.length + 1) / 2
    let leftCells := cells.take splitPoint
    let rightCells := cells.drop splitPoint
    match rightCells with
    | [] => (s, .error "empty right half")
    | r0 :: _ =>
      let promotedKey := r0.key
      let (s1, newPageNum) := s.allocatePage
      match s1.writePage newPageNum (.leaf oldSiblingPageNum rightCells) with
      | (s2, .error e) => (s2, .error e)
      | (s2, .ok _) =>
        match s2.writePage pageNum (.leaf newPageNum leftCells) with
        | (s3, .error e) => (s3, .error e)
        | (s3, .ok _) => (s3, .ok (promotedKey, newPageNum))

/-- `splitInternalNode(pageNum)`: split at
`Math.floor(entries.length / 2)`; the entry at the split point is
promoted (moved), its child becomes the right node's leftmost child. -/
def splitInternalNode (s : PagerState) (pageNum : Nat) :
    PagerState × Except String (Int × Nat) :=
  match s.readPage pageNum with
  | .error e => (s, .error e)
  | .ok (.internal leftmostChild entries) =>
    let splitPoint := entries.length / 2
    match entries.get? splitPoint with
    | none => (s, .error "empty internal node split")
    | some pe =>
      let leftEntries := entries.take splitPoint
      let rightEntries := entries.drop (splitPoint + 1)
      let rightLeftmostChild := pe.childPageNum
      let (s1, newPageNum) := s.allocatePage
      match s1.writePage newPageNum (.internal rightLeftmostChild rightEntries) with
      | (s2, .error e) => (s2, .error e)
      | (s2, .ok _) =>
        match s2.writePage pageNum (.internal leftmostChild leftEntries) with
        | (s3, .error e) => (s3, .error e)
        | (s3, .ok _) => (s3, .ok (pe.key, newPageNum))
  | .ok _ => (s, .error "not an internal page")

/-- `createNewRoot(leftPageNum, key, rightPageNum)`: allocate a page,
write an internal node with one entry, return the new root number
(the source assigns it to `this.rootPageNum`). -/
def createNewRoot (s : PagerState) (leftPageNum : Nat) (key : Int) (rightPageNum : Nat) :
    PagerState × Except String Nat :=
  let (s1, newRootPageNum) := s.allocatePage
  match s1.writePage newRootPageNum
      (.internal leftPageNum [⟨key, rightPageNum⟩]) with
  | (s2, .error e) => (s2, .error e)
  | (s2, .ok _) => (s2, .ok newRootPageNum)

/-- `propagateSplit(path, promotedKey, newChildPageNum)`: `path.pop()`
takes the deepest recorded parent; an empty path promotes a new root.
Returns the (possibly new) root page number. -/
def propagateSplit (s : PagerState) (rootPageNum : Nat) (path : List Nat)
    (promotedKey : Int) (newChildPageNum : Nat) : PagerState × Except String Nat :=
  match hlast : path.getLast? with
  | none => createNewRoot s rootPageNum promotedKey newChildPageNum
  | some parentPageNum =>
    match s.readPage parentPageNum with
    | .error e => (s, .error e)
    | .ok (.internal leftmostChild entries) =>
      let newEntries := insertEntrySorted ⟨promotedKey, newChildPageNum⟩ entries
      match s.writePage parentPageNum (.internal leftmostChild newEntries) with
      | (s1, .error e) => (s1, .error e)
      | (s1, .ok _) =>
        if newEntries.length ≤ maxInternalKeys then (s1, .ok rootPageNum)
        else
          match splitInternalNode s1 parentPageNum with
          | (s2, .error e) => (s2, .error e)
          | (s2, .ok (pk, np)) => propagateSplit s2 rootPageNum path.dropLast pk np
    | .ok _ => (s, .error "not an internal page")
termination_by path.length
decreasing_by
  cases path with
  | nil => simp at hlast
  | cons a l => simp [List.length_dropLast]

/-- `BTree.insert(record)`: find the leaf, reject duplicates, splice at
the sorted position, write back (preserving the sibling), split and
propagate when the leaf exceeds `maxLeafCells`.  Returns the root page
number, which changes exactly on root promotion. -/
def insert (s : PagerState) (rootPageNum : Nat) (record : BTreeRecord) :
    PagerState × Except String Nat :=
  match findLeafPage s (s.totalPages + 1) rootPageNum record.key [] with
  | .error e => (s, .error e)
  | .ok (leafPageNum, path) =>
    match s.readPage leafPageNum with
    | .error e => (s, .error e)
    | .ok (.leaf sib cells) =>
      if cells.any (fun cell => cell.key == record.key) then
        (s, .error ("Duplicate key: " ++ toString record.key))
      else
        let newCells := insertSorted record cells
        match s.writePage leafPageNum (.leaf sib newCells) with
        | (s1, .error e) => (s1, .error e)
        | (s1, .ok _) =>
          if newCells.length ≤ maxLeafCells then (s1, .ok rootPageNum)
          else
            match splitLeafNode s1 leafPageNum newCells with
            | (s2, .error e) => (s2, .error e)
            | (s2, .ok (pk, np)) => propagateSplit s2 rootPageNum path pk np
    | .ok _ => (s, .error "not a leaf page")

/-- `BTree.create(pager)`: allocate a page, write an empty leaf. -/
def create (s : PagerState) : PagerState × Except String Nat :=
  let (s1, rootPageNum) := s.allocatePage
  match s1.writePage rootPageNum (.leaf 0 []) with
  | (s2, .error e) => (s2, .error e)
  | (s2, .ok _) => (s2, .ok rootPageNum)

/-- `searchInNode`, with fuel as in `findLeafPage`. -/
def searchInNode (s : PagerState) : Nat → Nat → Int → Except String (Option BTreeRecord)
  | 0, _, _ => .error "page cycle"
  | fuel + 1, pageNum, key =>
    match s.readPage pageNum with
    | .error e => .error e
    | .ok (.leaf _ cells) => .ok (cells.find? (fun cell => cell.key == key))
    | .ok (.internal lm entries) => searchInNode s fuel (findChildPage lm entries key) key
    | .ok _ => .error "not a B+Tree page"

/-- `BTree.search(key)`. -/
def search (s : PagerState) (rootPageNum : Nat) (key : Int) :
    Except String (Option BTreeRecord) :=
  searchInNode s (s.totalPages + 1) rootPageNum key

/-- `findLeftmostLeaf`. -/
def findLeftmostLeaf (s : PagerState) : Nat → Nat → Except String Nat
  | 0, _ => .error "page cycle"
  | fuel + 1, pageNum =>
    match s.readPage pageNum with
    | .error e => .error e
    | .ok (.leaf _ _) => .ok pageNum
    | .ok (.internal lm _) => findLeftmostLeaf s fuel lm
    | .ok _ => .error "not a B+Tree page"

/-- The `while` loop of `scan`: follow right-sibling pointers until 0,
concatenating the cells of each leaf. -/
def scanChain (s : PagerState) : Nat → Nat → Except String (List BTreeRecord)
  | 0, _ => .error "page cycle"
  | fuel + 1, currentPageNum =>
    if currentPageNum = 0 then .ok []
    else
      match s.readPage currentPageNum with
      | .error e => .error e
      | .ok (.leaf sib cells) =>
        match scanChain s fuel sib with
        | .error e => .error e
        | .ok rest => .ok (cells ++ rest)
      | .ok _ => .error "not a leaf page"

/-- `BTree.scan()`. -/
def scan (s : PagerState) (rootPageNum : Nat) : Except String (List BTreeRecord) :=
  match findLeftmostLeaf s (s.totalPages + 1) rootPageNum with
  | .error e => .error e
  | .ok leftmost => scanChain s (s.totalPages + 1) leftmost

end BTree

/-- Database states reachable by `BTree.create` on an arbitrary pager
followed by any sequence of successful `BTree.insert` operations. -/
inductive Reachable : PagerState → Nat → Prop
  | created (s0 s1 : PagerState) (root : Nat) :
      BTree.create s0 = (s1, .ok root) → Reachable s1 root
  | inserted (s s' : PagerState) (root root' : Nat) (record : BTreeRecord) :
      Reachable s root → BTree.insert s root record = (s', .ok root') →
      Reachable s' root'

/-! ## Tree invariants

The routing and leaf-ordering invariants of the B+Tree, as properties
of a pager state.  `keyInBounds lo hi k` is membership in the
half-open interval with optional endpoints. -/

/-- `lo ≤ k < hi`, each bound optional. -/
def keyInBounds (lo hi : Option Int) (k : Int) : Prop :=
  (∀ l, lo = some l → l ≤ k) ∧ (∀ h, hi = some h → k < h)

/-- Upper key bound of the leftmost child of an internal node: the
first routing key, or the node's own upper bound when there is none. -/
def lmHi (entries : List InternalEntry) (hi : Option Int) : Option Int :=
  match entries.head? with
  | some e => some e.key
  | none => hi

/-- Upper key bound of the child behind entry `i`: the next routing
key, or the node's own upper bound for the last entry. -/
def hiOf (entries : List InternalEntry) (i : Nat) (hi : Option Int) : Option Int :=
  match entries.get? (i + 1) with
  | some e => some e.key
  | none => hi

/-- Well-formed subtree rooted at `pageNum`, of height at most `ht`,
all keys within `[lo, hi)`: a leaf holds strictly increasing keys in
bounds; an internal node holds strictly increasing routing keys in
bounds, its leftmost child covering `[lo, k₁)` and the child behind
entry `i` covering `[kᵢ, kᵢ₊₁)` (`[kₙ, hi)` for the last). -/
inductive SubWF (s : PagerState) : Nat → Nat → Option Int → Option Int → Prop where
  | leafWF (ht pageNum sib : Nat) (cells : List BTreeRecord)
      (lo hi : Option Int) :
      s.readPage pageNum = .ok (.leaf sib cells) →
      cells.Chain' (fun a b => a.key < b.key) →
      (∀ c ∈ cells, keyInBounds lo hi c.key) →
      SubWF s ht pageNum lo hi
  | internalWF (ht pageNum lm : Nat) (entries : List InternalEntry)
      (lo hi : Option Int) :
      s.readPage pageNum = .ok (.internal lm entries) →
      entries.Chain' (fun a b => a.key < b.key) →
      (∀ e ∈ entries, keyInBounds lo hi e.key) →
      SubWF s ht lm lo (lmHi entries hi) →
      (∀ i (h : i < entries.length),
        SubWF s ht (entries.get ⟨i, h⟩).childPageNum
          (some (entries.get ⟨i, h⟩).key) (hiOf entries i hi)) →
      SubWF s (ht + 1) pageNum lo hi

/-- The key `k` is present somewhere in the tree hanging from a page:
in the page itself when it is a leaf, or in some child's subtree. -/
inductive KeyIn (s : PagerState) (k : Int) : Nat → Prop where
  | inLeaf (pageNum sib : Nat) (cells : List BTreeRecord) :
      s.readPage pageNum = .ok (.leaf sib cells) →
      (∃ c ∈ cells, c.key = k) →
      KeyIn s k pageNum
  | inChild (pageNum lm : Nat) (entries : List InternalEntry) (child : Nat) :
      s.readPage pageNum = .ok (.internal lm entries) →
      (child = lm ∨ ∃ e ∈ entries, e.childPageNum = child) →
      KeyIn s k child →
      KeyIn s k pageNum

/-! ### Full tree shape: fringe-carrying well-formedness

For the global invariants (leaf ordering, cross-tree key uniqueness
and the sibling chain) the subtree predicate additionally collects
`nodes`, the pages of the subtree in preorder, and `fringe`, its
leaves in left-to-right order as `(page, rightSibling, cells)`
triples. -/

/-- One leaf of the fringe: page number, right-sibling field, cells. -/
abbrev FringeLeaf := Nat × Nat × List BTreeRecord

/-- Well-formed subtree collecting its pages and its leaf fringe.
The children of an internal node are indexed by functions so the
relation stays a single (non-mutual) inductive. -/
inductive SubT (s : PagerState) :
    Nat → Nat → Option Int → Option Int → List Nat → List FringeLeaf → Prop where
  | leafT (ht pageNum sib : Nat) (cells : List BTreeRecord)
      (lo hi : Option Int) :
      s.readPage pageNum = .ok (.leaf sib cells) →
      cells.Chain' (fun a b => a.key < b.key) →
      (∀ c ∈ cells, keyInBounds lo hi c.key) →
      SubT s ht pageNum lo hi [pageNum] [(pageNum, sib, cells)]
  | internalT (ht pageNum lm : Nat) (entries : List InternalEntry)
      (lo hi : Option Int) (nodesL : List Nat) (fringeL : List FringeLeaf)
      (nodesF : Nat → List Nat) (fringeF : Nat → List FringeLeaf) :
      s.readPage pageNum = .ok (.internal lm entries) →
      entries.Chain' (fun a b => a.key < b.key) →
      (∀ e ∈ entries, keyInBounds lo hi e.key) →
      SubT s ht lm lo (lmHi entries hi) nodesL fringeL →
      (∀ i (h : i < entries.length),
        SubT s ht (entries.get ⟨i, h⟩).childPageNum
          (some (entries.get ⟨i, h⟩).key) (hiOf entries i hi)
          (nodesF i) (fringeF i)) →
      SubT s (ht + 1) pageNum lo hi
        (pageNum :: (nodesL ++ ((List.range entries.length).map nodesF).flatten))
        (fringeL ++ ((List.range entries.length).map fringeF).flatten)

/-- The fringe forms the sibling chain: each leaf's right-sibling
field names the next leaf, and the last leaf's is `0`. -/
def linked : List FringeLeaf → Prop
  | [] => True
  | (_, sib, _) :: [] => sib = 0
  | (_, sib, _) :: y :: rest => sib = y.1 ∧ linked (y :: rest)

/-- Global invariant of a tree rooted at `root`. -/
def TreeWF (s : PagerState) (root : Nat) : Prop :=
  ∃ ht nodes fringe, SubT s ht root none none nodes fringe ∧
    nodes.Nodup ∧ linked fringe

/-- All keys of a fringe, in fringe order. -/
def fringeKeys (fringe : List FringeLeaf) : List Int :=
  (fringe.map (fun x => x.2.2.map (fun c => c.key))).flatten

/-- The page `q` is a leaf reachable from `p` through child pointers. -/
inductive LeafReach (s : PagerState) : Nat → Nat → Prop where
  | here (p sib : Nat) (cells : List BTreeRecord) :
      s.readPage p = .ok (.leaf sib cells) → LeafReach s p p
  | step (p lm : Nat) (entries : List InternalEntry) (child q : Nat) :
      s.readPage p = .ok (.internal lm entries) →
      (child = lm ∨ ∃ e ∈ entries, e.childPageNum = child) →
      LeafReach s child q → LeafReach s p q

/-! ### Descent frames (a zipper over `SubT`)

`findLeafPage` records the internal ancestors of the target leaf; a
`TFrame` captures one such ancestor together with the subtrees of all
the children *not* descended into, so the tree can be rebuilt after
the slot's subtree is replaced. -/

structure TFrame where
  page : Nat
  lm : Nat
  entries : List InternalEntry
  lo : Option Int
  hi : Option Int
  /-- `none`: descended into the leftmost child; `some i`: into the
  child behind entry `i`. -/
  slotIdx : Option Nat
  nodesL : List Nat
  fringeL : List FringeLeaf
  nodesF : Nat → List Nat
  fringeF : Nat → List FringeLeaf

/-- Pages of the parts of a frame flanking its slot. -/
def TFrame.flankNodes (f : TFrame) : List Nat :=
  match f.slotIdx with
  | none => ((List.range f.entries.length).map f.nodesF).flatten
  | some i => f.nodesL ++ ((List.range f.entries.length).map
      (fun j => if j = i then [] else f.nodesF j)).flatten

/-- Fringe of the parts of a frame left of its slot. -/
def TFrame.leftFringe (f : TFrame) : List FringeLeaf :=
  match f.slotIdx with
  | none => []
  | some i => f.fringeL ++ ((List.range i).map f.fringeF).flatten

/-- Fringe of the parts of a frame right of its slot. -/
def TFrame.rightFringe (f : TFrame) : List FringeLeaf :=
  match f.slotIdx with
  | none => ((List.range f.entries.length).map f.fringeF).flatten
  | some i => ((List.range f.entries.length).map
      (fun j => if i < j then f.fringeF j else [])).flatten

/-- All context pages of a frame stack (outer to inner). -/
def ctxNodes : List TFrame → List Nat
  | [] => []
  | f :: rest => f.page :: (f.flankNodes ++ ctxNodes rest)

/-- Context fringe left of the slot, outer to inner. -/
def ctxPre : List TFrame → List FringeLeaf
  | [] => []
  | f :: rest => f.leftFringe ++ ctxPre rest

/-- Context fringe right of the slot, inner to outer. -/
def ctxSuf : List TFrame → List FringeLeaf
  | [] => []
  | f :: rest => ctxSuf rest ++ f.rightFringe

/-- `FramesOK s frames p lo hi c clo chi`: the frame stack descends
from page `p` (bounds `[lo, hi)`) to the slot holding child `c`
(bounds `[clo, chi)`); every flanking subtree is well-formed in `s`. -/
def FramesOK (s : PagerState) :
    List TFrame → Nat → Option Int → Option Int → Nat → Option Int →
      Option Int → Prop
  | [], p, lo, hi, c, clo, chi => p = c ∧ lo = clo ∧ hi = chi
  | f :: rest, p, lo, hi, c, clo, chi =>
      f.page = p ∧ f.lo = lo ∧ f.hi = hi ∧
      s.readPage p = .ok (.internal f.lm f.entries) ∧
      f.entries.Chain' (fun a b => a.key < b.key) ∧
      (∀ e ∈ f.entries, keyInBounds lo hi e.key) ∧
      (match f.slotIdx with
       | none =>
           (∀ i (h : i < f.entries.length),
             ∃ ht, SubT s ht (f.entries.get ⟨i, h⟩).childPageNum
               (some (f.entries.get ⟨i, h⟩).key) (hiOf f.entries i hi)
               (f.nodesF i) (f.fringeF i)) ∧
           FramesOK s rest f.lm lo (lmHi f.entries hi) c clo chi
       | some i =>
           ∃ h : i < f.entries.length,
             (∃ ht, SubT s ht f.lm lo (lmHi f.entries hi)
               f.nodesL f.fringeL) ∧
             (∀ j (hj : j < f.entries.length), j ≠ i →
               ∃ ht, SubT s ht (f.entries.get ⟨j, hj⟩).childPageNum
                 (some (f.entries.get ⟨j, hj⟩).key) (hiOf f.entries j hi)
                 (f.nodesF j) (f.fringeF j)) ∧
             FramesOK s rest (f.entries.get ⟨i, h⟩).childPageNum
               (some (f.entries.get ⟨i, h⟩).key) (hiOf f.entries i hi)
               c clo chi)

/-- Drop a single leading sign character. -/
def stripSign (l : List Char) : List Char :=
  if l.head? = some '-' ∨ l.head? = some '+' then l.tail else l

/-- Stated from the spec sentence of C8, for comparison with the code:
a *whole integer in decimal notation* is an optional sign followed by
at least one decimal digit. -/
def isDecimalIntegerString (s : String) : Bool :=
  stripSign s.data ≠ [] ∧ (stripSign s.data).all isDecDigit

/-- Exact integer value of a decimal integer string (sign and digits). -/
def decimalIntegerValue (s : String) : Int :=
  if s.data.head? = some '-' then -(digitsVal 10 (stripSign s.data) : Int)
  else (digitsVal 10 (stripSign s.data) : Int)

/-! # Database executor (database.ts)

The executor is modelled at the logical page level.  A JavaScript
`Map` keyed by the lowercased table name becomes an association list
in insertion order (`Map.get` and a first-match scan agree because the
executor never stores two entries under the same key).  A row object
`Record` keyed by column names becomes an association list in column
order (faithful whenever a schema has no duplicate column names, which
none of the code paths under study produce). -/

/-- `toLowerCase` on the ASCII identifiers the code handles
(`String.map` of core recurses on byte positions and does not reduce
definitionally; this byte-list version does). -/
def lowerStr (s : String) : String := String.mk (s.data.map Char.toLower)

/-- A WHERE comparison operator
(the string union of `parser.ts`; an operator outside the
union would take the `default: return false` branch, which the parser
never produces). -/
inductive CmpOp where
  | eq
  | neq
  | gt
  | lt
  | ge
  | le
deriving Repr, DecidableEq

/-- `WhereCondition` of `parser.ts`. -/
structure WhereCondition where
  operator : CmpOp
  value : Lit
deriving Repr, DecidableEq

/-- `SelectStatement`: the `where` record becomes an association list
of its entries in insertion order (`Object.entries` order). -/
structure SelectStatement where
  tableName : String
  columns : List String
  whereClauses : List (String × WhereCondition)
deriving Repr, DecidableEq

/-- `InsertStatement` of `parser.ts`. -/
structure InsertStatement where
  tableName : String
  columns : List String
  values : List Lit
deriving Repr, DecidableEq

/-- A result row: the object keyed by column names, in column order. -/
abbrev RowRecord := List (String × ColumnValue)

/-- `QueryResult` of `database.ts`, split by its `success` flag. -/
inductive QueryResult where
  | ok (message : String) (columns : Option (List String))
      (records : Option (List RowRecord))
  | err (e : String)
deriving Repr, DecidableEq

/-- `Database` state: the pager, `this.tables`, and the root page
number held by each `BTree` object of `this.btrees` (the only mutable
state of a `BTree`). -/
structure Database where
  pager : PagerState
  tables : List (String × TableSchema)
  btreeRoots : List (String × Nat)
deriving Repr, DecidableEq

/-- `record[col] ?? null` on a row object.  (The one lookup without
`?? null`, in the WHERE filter, always hits a present key, where the
two agree.) -/
def rowGet (record : RowRecord) (col : String) : ColumnValue :=
  match record.find? (fun kv => kv.1 == col) with
  | some kv => kv.2
  | none => .nullV

/-- An operand of `matchesCondition` after the numeric-coercion step:
a finite number (kept exact as a rational), an infinity, or a string.
`NaN` never appears: the code replaces a string by its `Number`
conversion only when that conversion is not `NaN`. -/
inductive JVal where
  | jnum (q : ℚ)
  | jinf (neg : Bool)
  | jstr (s : String)
deriving Repr, DecidableEq

/-- JavaScript `===` on the operands (a number never strictly equals a
string, and a finite number never equals an infinity). -/
def jvalEq : JVal → JVal → Bool
  | .jnum a, .jnum b => a == b
  | .jinf a, .jinf b => a == b
  | .jstr a, .jstr b => a == b
  | _, _ => false

/-- JavaScript `<`: numeric comparison (with infinities) when both
sides are numbers, code-unit lexicographic comparison when both are
strings, and `false` on a mixed pair (its `ToNumber` yields `NaN`;
the mixed pair arises exactly when the string side failed numeric
coercion).  Lean's `String` order compares code points where JS
compares UTF-16 units; they agree on the Basic Multilingual Plane. -/
def jvalLt : JVal → JVal → Bool
  | .jnum a, .jnum b => a < b
  | .jnum _, .jinf neg => !neg
  | .jinf neg, .jnum _ => neg
  | .jinf a, .jinf b => a && !b
  | .jstr a, .jstr b => decide (a < b)
  | _, _ => false

/-- JavaScript `>=` (false whenever `NaN` is involved, hence on every
mixed number/string pair). -/
def jvalGe : JVal → JVal → Bool
  | .jnum a, .jnum b => decide (b ≤ a)
  | .jnum _, .jinf neg => neg
  | .jinf neg, .jnum _ => !neg
  | .jinf a, .jinf b => !a || b
  | .jstr a, .jstr b => !(decide (a < b))
  | _, _ => false

/-- JavaScript `>` is `<` flipped (no `NaN` asymmetry arises here). -/
def jvalGt (a b : JVal) : Bool := jvalLt b a

/-- JavaScript `<=` is `>=` flipped. -/
def jvalLe (a b : JVal) : Bool := jvalGe b a

/-- The operand pair of `matchesCondition` after its two coercion
`if`s: a string on one side is replaced by its `Number` conversion
when the other side is a number and the conversion is not `NaN`.
(The `nullV` rows are unreachable: the caller returns `false` on a
null record value first.) -/
def cmpOperands (recordValue : ColumnValue) (conditionValue : Lit) : JVal × JVal :=
  match recordValue, conditionValue with
  | .intV n, .num m => (.jnum (n : ℚ), .jnum (m : ℚ))
  | .intV n, .str s =>
    (.jnum (n : ℚ),
      match jsStringToNumber s with
      | .val q => .jnum q
      | .inf neg => .jinf neg
      | .nan => .jstr s)
  | .textV a, .num m =>
    ((match jsStringToNumber a with
      | .val q => .jnum q
      | .inf neg => .jinf neg
      | .nan => .jstr a),
      .jnum (m : ℚ))
  | .textV a, .str s => (.jstr a, .jstr s)
  | .nullV, .num m => (.jstr "", .jnum (m : ℚ))
  | .nullV, .str s => (.jstr "", .jstr s)

/-- `matchesCondition(recordValue, operator, conditionValue)`. -/
def matchesCondition (recordValue : ColumnValue) (operator : CmpOp)
    (conditionValue : Lit) : Bool :=
  if recordValue = .nullV then false
  else
    match cmpOperands recordValue conditionValue with
    | (a, b) =>
      match operator with
      | .eq => jvalEq a b
      | .neq => !jvalEq a b
      | .gt => jvalGt a b
      | .lt => jvalLt a b
      | .ge => jvalGe a b
      | .le => jvalLe a b

/-- Case-insensitive column resolution:
`allColumnNames.find((c) => c.toLowerCase() === col.toLowerCase())`. -/
def findColumn (allColumnNames : List String) (col : String) : Option String :=
  allColumnNames.find? (fun d => lowerStr d == lowerStr col)

/-- `selectedColumns` of `executeSelect`
(`isSelectAll` is `columns.length === 1 && columns[0] === "*"`). -/
def selectedColumnsFor (allColumnNames : List String) (cols : List String) :
    List String :=
  if cols = ["*"] then allColumnNames
  else cols.map (fun col => (findColumn allColumnNames col).getD col)

/-- The first selected column that resolves to no table column (the
`for` loop of the projection check returns on the first offender). -/
def firstBadColumn (allColumnNames : List String) (cols : List String) :
    Option String :=
  cols.find? (fun col => (findColumn allColumnNames col).isNone)

/-- Row-object construction from a B+Tree record:
`record[allColumnNames[i]] = btreeRecord.values[i] ?? null`. -/
def buildRow (allColumnNames : List String) (values : List ColumnValue) :
    RowRecord :=
  allColumnNames.enum.map (fun iv => (iv.2, values.getD iv.1 .nullV))

/-- The WHERE filter predicate on one row (the inner `for` loop: a
column name resolving to no table column makes the predicate false). -/
def whereMatch (allColumnNames : List String)
    (conds : List (String × WhereCondition)) (record : RowRecord) : Bool :=
  match conds with
  | [] => true
  | (col, condition) :: rest =>
    match findColumn allColumnNames col with
    | none => false
    | some actualCol =>
      if matchesCondition (rowGet record actualCol) condition.operator
          condition.value then
        whereMatch allColumnNames rest record
      else false

/-- Rows surviving the WHERE filter (all rows when the `where` record
is empty), before projection. -/
def filteredRows (schema : TableSchema) (stmt : SelectStatement)
    (scanData : List BTreeRecord) : List RowRecord :=
  if stmt.whereClauses ≠ [] then
    (scanData.map (fun r =>
      buildRow (schema.columns.map (fun d => d.name)) r.values)).filter
        (fun record =>
          whereMatch (schema.columns.map (fun d => d.name))
            stmt.whereClauses record)
  else scanData.map (fun r =>
    buildRow (schema.columns.map (fun d => d.name)) r.values)

/-- Projection to the selected columns (`projected[col] = record[col] ?? null`). -/
def projectRows (schema : TableSchema) (stmt : SelectStatement)
    (scanData : List BTreeRecord) : List RowRecord :=
  (filteredRows schema stmt scanData).map (fun record =>
    (selectedColumnsFor (schema.columns.map (fun d => d.name))
      stmt.columns).map (fun col => (col, rowGet record col)))

/-- `executeSelect(stmt)` (read-only: it issues no page writes).
Diagnostics omit the quote characters of the source messages. -/
def executeSelect (db : Database) (stmt : SelectStatement) : QueryResult :=
  match db.tables.lookup (lowerStr stmt.tableName) with
  | none => .err ("Table " ++ stmt.tableName ++ " does not exist")
  | some schema =>
    match db.btreeRoots.lookup (lowerStr stmt.tableName) with
    | none => .err ("B+Tree not found for table " ++ stmt.tableName)
    | some root =>
      match BTree.scan db.pager root with
      | .error e => .err e
      | .ok scanData =>
        match (if stmt.columns = ["*"] then none
               else firstBadColumn (schema.columns.map (fun d => d.name))
                 (selectedColumnsFor (schema.columns.map (fun d => d.name))
                   stmt.columns)) with
        | some col =>
          .err ("Column " ++ col ++ " does not exist in table " ++
            stmt.tableName)
        | none =>
          .ok (toString (projectRows schema stmt scanData).length ++
              " row(s) found")
            (some (selectedColumnsFor (schema.columns.map (fun d => d.name))
              stmt.columns))
            (some (projectRows schema stmt scanData))

/-- `saveSchema()`: serialize `this.tables` (in map order) to the
schema page and write it through the pager; at the logical level the
page becomes `schemaP` of the schema list.  A write failure
propagates as the error result. -/
def saveSchema (db : Database) : Database × Except String String :=
  match db.pager.writePage db.pager.schemaPage
      (Page.schemaP (db.tables.map (fun kv => kv.2))) with
  | (p, .error e) => (Database.mk p db.tables db.btreeRoots, .error e)
  | (p, .ok _) => (Database.mk p db.tables db.btreeRoots, .ok "Schema saved")

/-- The column-validation and value-assembly loop of `executeInsert`:
`values` starts as one `null` per schema column; each `(column, raw)`
pair resolves its schema index case-insensitively (`columnMap` is keyed
by the lowercased name, which on schemas without duplicate column names
is the first-match scan used here), converts the value, and a
PRIMARY KEY column supplies the key (after an INTEGER check). -/
def buildValues (tableName : String) (schema : TableSchema)
    (values : List ColumnValue) (keyValue : Option Int) :
    List (String × Lit) → Except String (List ColumnValue × Option Int)
  | [] => .ok (values, keyValue)
  | (colName, rawValue) :: rest =>
    match schema.columns.findIdx? (fun d => lowerStr d.name == lowerStr colName) with
    | none => .error ("Column " ++ colName ++ " does not exist in table " ++
        tableName)
    | some colIdx =>
      match convertValue (schema.columns.getD colIdx ⟨"", .TEXT, []⟩) rawValue with
      | .error e => .error e
      | .ok converted =>
        if (schema.columns.getD colIdx ⟨"", .TEXT, []⟩).constraints.contains
            .PRIMARY_KEY then
          match converted with
          | .intV n =>
            buildValues tableName schema (values.set colIdx converted) (some n) rest
          | _ => .error ("PRIMARY KEY column " ++
              (schema.columns.getD colIdx ⟨"", .TEXT, []⟩).name ++
              " must be INTEGER")
        else buildValues tableName schema (values.set colIdx converted) keyValue rest

/-- The NOT NULL check loop: the first column whose constraint is
violated, walking schema columns and assembled values in step. -/
def notNullViolation : List ColumnDef → List ColumnValue → Option String
  | colDef :: cols, v :: vs =>
    if colDef.constraints.contains .NOT_NULL ∧ v = .nullV then some colDef.name
    else notNullViolation cols vs
  | _, _ => none

/-- Key resolution: an explicit PRIMARY KEY value, else
`Math.max(...keys) + 1` over a full scan (`1` on an empty table). -/
def resolveKey (db : Database) (root : Nat) : Option Int → Except String Int
  | some k => .ok k
  | none =>
    match BTree.scan db.pager root with
    | .error e => .error e
    | .ok scanData =>
      match scanData with
      | [] => .ok 1
      | r :: rest => .ok (rest.foldl (fun acc d => max acc d.key) r.key + 1)

/-- Character-list version of `String.startsWith` (pattern first). -/
def charsStartWith : List Char → List Char → Bool
  | [], _ => true
  | _ :: _, [] => false
  | x :: xs, y :: ys => x == y && charsStartWith xs ys

/-- Pattern occurs somewhere in the list. -/
def charsContain (pat : List Char) : List Char → Bool
  | [] => pat.isEmpty
  | x :: xs => charsStartWith pat (x :: xs) || charsContain pat xs

/-- JavaScript `s.includes(pat)`. -/
def strIncludes (s pat : String) : Bool := charsContain pat.data s.data

/-- The `BTree` object's root tracking: replace the root recorded for
`key` (the object mutates itself during `insert`). -/
def setRoot (m : List (String × Nat)) (key : String) (newRoot : Nat) :
    List (String × Nat) :=
  m.map (fun kv => if kv.1 == key then (kv.1, newRoot) else kv)

/-- The in-place mutation `currentSchema.rootPageNum = tree.getRootPageNum()`. -/
def setSchemaRoot (m : List (String × TableSchema)) (key : String)
    (newRoot : Nat) : List (String × TableSchema) :=
  m.map (fun kv =>
    if kv.1 == key then (kv.1, TableSchema.mk kv.2.name kv.2.columns newRoot)
    else kv)

/-- `executeInsert(stmt)`.  The `BTree` object updates its own root
page number on every successful insert; the schema map entry and the
schema page are rewritten only when the root changed, and the result
of that `saveSchema()` call is discarded. -/
def executeInsert (db : Database) (stmt : InsertStatement) :
    Database × QueryResult :=
  match db.tables.lookup (lowerStr stmt.tableName) with
  | none => (db, .err ("Table " ++ stmt.tableName ++ " does not exist"))
  | some schema =>
    match db.btreeRoots.lookup (lowerStr stmt.tableName) with
    | none => (db, .err ("B+Tree not found for table " ++ stmt.tableName))
    | some root =>
      if stmt.columns.length ≠ stmt.values.length then
        (db, .err ("Column count (" ++ toString stmt.columns.length ++
          ") does not match value count (" ++ toString stmt.values.length ++ ")"))
      else
        match buildValues stmt.tableName schema
            (List.replicate schema.columns.length .nullV) none
            (stmt.columns.zip stmt.values) with
        | .error e => (db, .err e)
        | .ok (values, keyOpt) =>
          match notNullViolation schema.columns values with
          | some colName => (db, .err ("Column " ++ colName ++ " cannot be null"))
          | none =>
            match resolveKey db root keyOpt with
            | .error e => (db, .err e)
            | .ok keyValue =>
              match BTree.insert db.pager root ⟨keyValue, values⟩ with
              | (p, .error e) =>
                if strIncludes e "Duplicate key" then
                  (Database.mk p db.tables db.btreeRoots,
                    .err ("Duplicate PRIMARY KEY value: " ++ toString keyValue))
                else (Database.mk p db.tables db.btreeRoots, .err e)
              | (p, .ok newRoot) =>
                if schema.rootPageNum ≠ newRoot then
                  ((saveSchema (Database.mk p
                      (setSchemaRoot db.tables (lowerStr stmt.tableName) newRoot)
                      (setRoot db.btreeRoots (lowerStr stmt.tableName) newRoot))).1,
                    .ok "1 row inserted" none none)
                else
                  (Database.mk p db.tables
                      (setRoot db.btreeRoots (lowerStr stmt.tableName) newRoot),
                    .ok "1 row inserted" none none)

/-! # Theorems -/

/-! ## Basic buffer lemmas -/

theorem byteAt_eq_getElem (b : Buf) (i : Nat) : byteAt b i = (b[i]?).getD 0 := by
  simp [byteAt, List.getD]

theorem byteAt_set_self (b : Buf) (i v : Nat) (h : i < bufLen b) :
    byteAt (List.set b i v) i = v := by
  simp [byteAt_eq_getElem, List.getElem?_set_self (h := h)]

theorem byteAt_set_ne (b : Buf) (i j v : Nat) (h : i ≠ j) :
    byteAt (List.set b i v) j = byteAt b j := by
  simp [byteAt_eq_getElem, List.getElem?_set_ne h]

theorem bufLen_set (b : Buf) (i v : Nat) :
    bufLen (List.set b i v) = bufLen b := by
  simp [bufLen]

theorem byteAt_bufAlloc (n i : Nat) : byteAt (bufAlloc n) i = 0 := by
  rcases Nat.lt_or_ge i n with h | h
  · simp [byteAt_eq_getElem, bufAlloc, List.getElem?_replicate, h]
  · have hn : (bufAlloc n)[i]? = none :=
      List.getElem?_eq_none (by simpa [bufAlloc] using h)
    simp [byteAt_eq_getElem, hn]

theorem bufLen_bufAlloc (n : Nat) : bufLen (bufAlloc n) = n := by
  simp [bufLen, bufAlloc]

theorem byteAt_append_left (a d : Buf) (i : Nat) (h : i < bufLen a) :
    byteAt (a ++ d) i = byteAt a i := by
  simp [byteAt_eq_getElem, List.getElem?_append_left (by simpa [bufLen] using h)]

theorem byteAt_append_right (a d : Buf) (i : Nat) (h : bufLen a ≤ i) :
    byteAt (a ++ d) i = byteAt d (i - bufLen a) := by
  simp [byteAt_eq_getElem, List.getElem?_append_right (by simpa [bufLen] using h), bufLen]

theorem bufLen_writeBytesAt (file : Buf) (off : Nat) (data : Buf) :
    bufLen (writeBytesAt file off data) =
      max (off + bufLen data) (bufLen file) := by
  simp [writeBytesAt, bufLen]
  omega

theorem byteAt_map_range (f : Nat → Nat) (n i : Nat) (h : i < n) :
    byteAt (List.map f (List.range n)) i = f i := by
  rw [byteAt_eq_getElem, List.getElem?_map, List.getElem?_range h]
  rfl

theorem byteAt_drop (file : Buf) (n i : Nat) :
    byteAt (List.drop n file) i = byteAt file (n + i) := by
  simp [byteAt_eq_getElem, List.getElem?_drop]

theorem byteAt_writeBytesAt (file : Buf) (off : Nat) (data : Buf) (i : Nat) :
    byteAt (writeBytesAt file off data) i =
      if i < off then byteAt file i
      else if i < off + bufLen data then byteAt data (i - off)
      else byteAt file i := by
  unfold writeBytesAt
  have hm : bufLen (List.map (fun j => byteAt file j) (List.range off)) = off := by
    simp [bufLen]
  split_ifs with h1 h2
  · rw [byteAt_append_left _ _ _ (by simp only [bufLen, List.length_append] at hm ⊢; omega),
      byteAt_append_left _ _ _ (by rw [hm]; exact h1)]
    exact byteAt_map_range _ _ _ h1
  · rw [List.append_assoc, byteAt_append_right _ _ _ (by rw [hm]; omega),
      byteAt_append_left _ _ _ (by rw [hm]; omega)]
    rw [hm]
  · rw [List.append_assoc, byteAt_append_right _ _ _ (by rw [hm]; omega),
      byteAt_append_right _ _ _ (by rw [hm]; omega), byteAt_drop, hm]
    congr 1
    omega

theorem byteAt_writeBytesAt_lt (file : Buf) (off : Nat) (data : Buf)
    (i : Nat) (h : i < off) :
    byteAt (writeBytesAt file off data) i = byteAt file i := by
  simp [byteAt_writeBytesAt, h]

theorem byteAt_writeBytesAt_mid (file : Buf) (off : Nat) (data : Buf)
    (i : Nat) (h : i < bufLen data) :
    byteAt (writeBytesAt file off data) (off + i) = byteAt data i := by
  simp [byteAt_writeBytesAt, h]

theorem byteAt_writeBytesAt_ge (file : Buf) (off : Nat) (data : Buf)
    (i : Nat) (h : off + bufLen data ≤ i) :
    byteAt (writeBytesAt file off data) i = byteAt file i := by
  have h1 : ¬ i < off := by omega
  have h2 : ¬ i < off + bufLen data := by omega
  simp [byteAt_writeBytesAt, h1, h2]

theorem byteAt_readBytesAt (file : Buf) (off len i : Nat) (h : i < len) :
    byteAt (readBytesAt file off len) i = byteAt file (off + i) := by
  unfold readBytesAt
  exact byteAt_map_range _ _ _ h

theorem bufLen_readBytesAt (file : Buf) (off len : Nat) :
    bufLen (readBytesAt file off len) = len := by
  simp [readBytesAt, bufLen]

/-! ## Reads after little-endian writes -/

theorem bufLen_writeUInt8 (b : Buf) (v off : Nat) :
    bufLen (writeUInt8 b v off) = bufLen b := by
  simp [writeUInt8, bufLen]

theorem bufLen_writeUInt16LE (b : Buf) (v off : Nat) :
    bufLen (writeUInt16LE b v off) = bufLen b := by
  simp [writeUInt16LE, bufLen]

theorem bufLen_writeUInt32LE (b : Buf) (v off : Nat) :
    bufLen (writeUInt32LE b v off) = bufLen b := by
  simp [writeUInt32LE, bufLen]

theorem byteAt_writeUInt8_out (b : Buf) (v off i : Nat) (h : i ≠ off) :
    byteAt (writeUInt8 b v off) i = byteAt b i := by
  unfold writeUInt8
  rw [byteAt_set_ne _ _ _ _ (by omega)]

theorem byteAt_writeUInt16LE_out (b : Buf) (v off i : Nat)
    (h : i < off ∨ off + 2 ≤ i) :
    byteAt (writeUInt16LE b v off) i = byteAt b i := by
  unfold writeUInt16LE
  rw [byteAt_set_ne _ _ _ _ (by omega), byteAt_set_ne _ _ _ _ (by omega)]

theorem byteAt_writeUInt32LE_out (b : Buf) (v off i : Nat)
    (h : i < off ∨ off + 4 ≤ i) :
    byteAt (writeUInt32LE b v off) i = byteAt b i := by
  unfold writeUInt32LE
  rw [byteAt_set_ne _ _ _ _ (by omega), byteAt_set_ne _ _ _ _ (by omega),
    byteAt_set_ne _ _ _ _ (by omega), byteAt_set_ne _ _ _ _ (by omega)]

theorem byteAt_writeUInt32LE_b0 (b : Buf) (v off : Nat) (h : off < bufLen b) :
    byteAt (writeUInt32LE b v off) off = v % 256 := by
  unfold writeUInt32LE
  rw [byteAt_set_ne _ _ _ _ (by omega), byteAt_set_ne _ _ _ _ (by omega),
    byteAt_set_ne _ _ _ _ (by omega),
    byteAt_set_self _ _ _ (by simpa [bufLen] using h)]

theorem byteAt_writeUInt32LE_b1 (b : Buf) (v off : Nat) (h : off + 1 < bufLen b) :
    byteAt (writeUInt32LE b v off) (off + 1) = v / 256 % 256 := by
  unfold writeUInt32LE
  rw [byteAt_set_ne _ _ _ _ (by omega), byteAt_set_ne _ _ _ _ (by omega),
    byteAt_set_self _ _ _ (by simpa [bufLen] using h)]

theorem byteAt_writeUInt32LE_b2 (b : Buf) (v off : Nat) (h : off + 2 < bufLen b) :
    byteAt (writeUInt32LE b v off) (off + 2) = v / 65536 % 256 := by
  unfold writeUInt32LE
  rw [byteAt_set_ne _ _ _ _ (by omega),
    byteAt_set_self _ _ _ (by simp only [bufLen, List.length_set] at h ⊢; omega)]

theorem byteAt_writeUInt32LE_b3 (b : Buf) (v off : Nat) (h : off + 3 < bufLen b) :
    byteAt (writeUInt32LE b v off) (off + 3) = v / 16777216 % 256 := by
  unfold writeUInt32LE
  rw [byteAt_set_self _ _ _ (by simp only [bufLen, List.length_set] at h ⊢; omega)]

theorem readUInt32LE_writeUInt32LE (b : Buf) (v off : Nat)
    (h : off + 4 ≤ bufLen b) :
    readUInt32LE (writeUInt32LE b v off) off = v % 2 ^ 32 := by
  unfold readUInt32LE
  rw [byteAt_writeUInt32LE_b0 _ _ _ (by omega), byteAt_writeUInt32LE_b1 _ _ _ (by omega),
    byteAt_writeUInt32LE_b2 _ _ _ (by omega), byteAt_writeUInt32LE_b3 _ _ _ (by omega)]
  omega

theorem readUInt16LE_writeUInt16LE (b : Buf) (v off : Nat)
    (h : off + 2 ≤ bufLen b) :
    readUInt16LE (writeUInt16LE b v off) off = v % 2 ^ 16 := by
  unfold readUInt16LE writeUInt16LE
  rw [byteAt_set_ne _ _ _ _ (by omega),
    byteAt_set_self _ _ _ (by simp only [bufLen, List.length_set] at h ⊢; omega),
    byteAt_set_self _ _ _ (by simp only [bufLen, List.length_set] at h ⊢; omega)]
  omega

theorem readUInt16LE_congr (b1 b2 : Buf) (off : Nat)
    (h0 : byteAt b1 off = byteAt b2 off)
    (h1 : byteAt b1 (off + 1) = byteAt b2 (off + 1)) :
    readUInt16LE b1 off = readUInt16LE b2 off := by
  unfold readUInt16LE
  rw [h0, h1]

theorem readUInt32LE_congr (b1 b2 : Buf) (off : Nat)
    (h0 : byteAt b1 off = byteAt b2 off)
    (h1 : byteAt b1 (off + 1) = byteAt b2 (off + 1))
    (h2 : byteAt b1 (off + 2) = byteAt b2 (off + 2))
    (h3 : byteAt b1 (off + 3) = byteAt b2 (off + 3)) :
    readUInt32LE b1 off = readUInt32LE b2 off := by
  unfold readUInt32LE
  rw [h0, h1, h2, h3]

/-! ## C5: pager read and write validation -/

/-- C5.  For every pager with header total page count `totalPages` and
page size `pageSize`: `readPage n` fails with an out-of-range error
exactly when `n < 0` or `n ≥ totalPages` and otherwise returns a buffer
of exactly `pageSize` bytes read at offset `n * pageSize`;
`writePage n buf` fails with the out-of-range error under the same
condition, fails with the size-mismatch error when
`buf.length ≠ pageSize`, and otherwise writes `buf` to the file at
offset `n * pageSize`. -/
theorem pager_readPage_writePage_spec (p : Pager) (n : Int) (data : Buf) :
    ((∃ e, p.readPage n = .error e) ↔ (n < 0 ∨ (p.header.totalPages : Int) ≤ n)) ∧
    (¬ (n < 0 ∨ (p.header.totalPages : Int) ≤ n) →
      p.readPage n = .ok (readBytesAt p.file (n.toNat * p.pageSize) p.pageSize) ∧
      bufLen (readBytesAt p.file (n.toNat * p.pageSize) p.pageSize) = p.pageSize) ∧
    ((∃ e, (p.writePage n data).2 = .error e) ↔
      ((n < 0 ∨ (p.header.totalPages : Int) ≤ n) ∨ bufLen data ≠ p.pageSize)) ∧
    ((n < 0 ∨ (p.header.totalPages : Int) ≤ n) →
      p.writePage n data = (p, .error ("Page " ++ toString n ++ " out of range (0.." ++
        toString (p.header.totalPages - 1) ++ ")"))) ∧
    (¬ (n < 0 ∨ (p.header.totalPages : Int) ≤ n) → bufLen data ≠ p.pageSize →
      p.writePage n data = (p, .error ("Buffer size " ++ toString (bufLen data) ++
        " does not match page size " ++ toString p.pageSize))) ∧
    (¬ (n < 0 ∨ (p.header.totalPages : Int) ≤ n) → bufLen data = p.pageSize →
      p.writePage n data =
        ({ p with file := writeBytesAt p.file (n.toNat * p.pageSize) data }, .ok ())) := by
  refine ⟨?_, ?_, ?_, ?_, ?_, ?_⟩
  · unfold Pager.readPage
    split_ifs with h
    · exact iff_of_true ⟨_, rfl⟩ h
    · refine iff_of_false ?_ h
      rintro ⟨e, he⟩
      cases he
  · intro h
    unfold Pager.readPage
    rw [if_neg h]
    exact ⟨rfl, bufLen_readBytesAt _ _ _⟩
  · unfold Pager.writePage
    split_ifs with h1 h2
    · exact iff_of_true ⟨_, rfl⟩ (Or.inl h1)
    · exact iff_of_true ⟨_, rfl⟩ (Or.inr h2)
    · refine iff_of_false ?_ ?_
      · rintro ⟨e, he⟩
        cases he
      · rintro (hc | hc)
        · exact h1 hc
        · exact h2 hc
  · intro h
    unfold Pager.writePage
    rw [if_pos h]
  · intro h1 h2
    unfold Pager.writePage
    rw [if_neg h1, if_pos h2]
  · intro h1 h2
    unfold Pager.writePage
    rw [if_neg h1, if_neg (by rw [h2]; exact fun hc => hc rfl)]
    unfold Pager.writePageRaw
    rw [List.take_of_length_le (le_of_eq h2)]

/-- Witness for C5: on the fresh 16-byte-page database (2 pages),
writing page 2 is out of range and leaves the pager unchanged. -/
theorem pager_readPage_writePage_spec_witness :
    (Pager.openFresh 16).writePage 2 [] =
      (Pager.openFresh 16, .error ("Page " ++ toString (2 : Int) ++
        " out of range (0.." ++
        toString ((Pager.openFresh 16).header.totalPages - 1) ++ ")")) :=
  (pager_readPage_writePage_spec (Pager.openFresh 16) 2 []).2.2.2.1 (by decide)

/-! ## C6: the header page written for a fresh database -/

theorem writeBytesAt_nil_zero (data : Buf) : writeBytesAt [] 0 data = data := by
  simp [writeBytesAt, bufLen]

theorem bufLen_writeFileHeader (buf : Buf) (h : FileHeader) :
    bufLen (writeFileHeader buf h) = bufLen buf := by
  simp [writeFileHeader, bufLen_writeUInt32LE, bufLen_writeUInt16LE]

/-- Serializing a header into a fresh page does not change its length. -/
theorem length_writeFileHeader_bufAlloc (psz : Nat) (hdr : FileHeader) :
    List.length (writeFileHeader (bufAlloc psz) hdr) = psz := by
  have h1 := bufLen_writeFileHeader (bufAlloc psz) hdr
  rw [bufLen_bufAlloc] at h1
  exact h1

/-- Bytes of a fresh database file below `pageSize` come from the
serialized header page. -/
theorem openFresh_file_byte (psz i : Nat) (hi : i < psz) :
    byteAt (Pager.openFresh psz).file i =
      byteAt (writeFileHeader (bufAlloc psz)
        { magic := MAGIC_NUMBER, pageSize := psz, totalPages := 2, schemaPage := 1 }) i := by
  unfold Pager.openFresh Pager.writePageRaw
  simp only [Nat.zero_mul, Nat.one_mul]
  rw [List.take_of_length_le (le_of_eq (length_writeFileHeader_bufAlloc psz _))]
  rw [writeBytesAt_nil_zero]
  rw [byteAt_writeBytesAt_lt _ _ _ _ (by omega)]

/-- Byte-level content of a serialized file header, for any buffer of at
least the 14 header bytes. -/
theorem writeFileHeader_bytes (psz m ps tp sp : Nat) (h14 : 14 ≤ psz) :
    byteAt (writeFileHeader (bufAlloc psz) ⟨m, ps, tp, sp⟩) 0 = m % 256 ∧
    byteAt (writeFileHeader (bufAlloc psz) ⟨m, ps, tp, sp⟩) 1 = m / 256 % 256 ∧
    byteAt (writeFileHeader (bufAlloc psz) ⟨m, ps, tp, sp⟩) 2 = m / 65536 % 256 ∧
    byteAt (writeFileHeader (bufAlloc psz) ⟨m, ps, tp, sp⟩) 3 = m / 16777216 % 256 ∧
    readUInt16LE (writeFileHeader (bufAlloc psz) ⟨m, ps, tp, sp⟩) 4 = ps % 2 ^ 16 ∧
    readUInt32LE (writeFileHeader (bufAlloc psz) ⟨m, ps, tp, sp⟩) 6 = tp % 2 ^ 32 ∧
    readUInt32LE (writeFileHeader (bufAlloc psz) ⟨m, ps, tp, sp⟩) 10 = sp % 2 ^ 32 ∧
    ∀ i, 14 ≤ i → byteAt (writeFileHeader (bufAlloc psz) ⟨m, ps, tp, sp⟩) i = 0 := by
  have hC : ∀ k, k < 4 →
      byteAt (writeFileHeader (bufAlloc psz) ⟨m, ps, tp, sp⟩) k =
        byteAt (writeUInt32LE (bufAlloc psz) m 0) k := by
    intro k hk
    unfold writeFileHeader HEADER_MAGIC_OFFSET HEADER_PAGE_SIZE_OFFSET
      HEADER_TOTAL_PAGES_OFFSET HEADER_SCHEMA_PAGE_OFFSET
    rw [byteAt_writeUInt32LE_out _ _ _ _ (by omega),
      byteAt_writeUInt32LE_out _ _ _ _ (by omega),
      byteAt_writeUInt16LE_out _ _ _ _ (by omega)]
  have hlen : bufLen (bufAlloc psz) = psz := bufLen_bufAlloc psz
  refine ⟨?_, ?_, ?_, ?_, ?_, ?_, ?_, ?_⟩
  · rw [hC 0 (by omega)]
    have := byteAt_writeUInt32LE_b0 (bufAlloc psz) m 0 (by omega)
    simpa using this
  · rw [hC 1 (by omega)]
    have := byteAt_writeUInt32LE_b1 (bufAlloc psz) m 0 (by omega)
    simpa using this
  · rw [hC 2 (by omega)]
    have := byteAt_writeUInt32LE_b2 (bufAlloc psz) m 0 (by omega)
    simpa using this
  · rw [hC 3 (by omega)]
    have := byteAt_writeUInt32LE_b3 (bufAlloc psz) m 0 (by omega)
    simpa using this
  · unfold writeFileHeader HEADER_MAGIC_OFFSET HEADER_PAGE_SIZE_OFFSET
      HEADER_TOTAL_PAGES_OFFSET HEADER_SCHEMA_PAGE_OFFSET
    rw [readUInt16LE_congr _
        (writeUInt16LE (writeUInt32LE (bufAlloc psz) m 0) ps 4) 4
        (by rw [byteAt_writeUInt32LE_out _ _ _ _ (by omega),
              byteAt_writeUInt32LE_out _ _ _ _ (by omega)])
        (by rw [byteAt_writeUInt32LE_out _ _ _ _ (by omega),
              byteAt_writeUInt32LE_out _ _ _ _ (by omega)])]
    exact readUInt16LE_writeUInt16LE _ _ _
      (by rw [bufLen_writeUInt32LE, hlen]; omega)
  · unfold writeFileHeader HEADER_MAGIC_OFFSET HEADER_PAGE_SIZE_OFFSET
      HEADER_TOTAL_PAGES_OFFSET HEADER_SCHEMA_PAGE_OFFSET
    rw [readUInt32LE_congr _
        (writeUInt32LE (writeUInt16LE (writeUInt32LE (bufAlloc psz) m 0)
          ps 4) tp 6) 6
        (by rw [byteAt_writeUInt32LE_out _ _ _ _ (by omega)])
        (by rw [byteAt_writeUInt32LE_out _ _ _ _ (by omega)])
        (by rw [byteAt_writeUInt32LE_out _ _ _ _ (by omega)])
        (by rw [byteAt_writeUInt32LE_out _ _ _ _ (by omega)])]
    exact readUInt32LE_writeUInt32LE _ _ _
      (by rw [bufLen_writeUInt16LE, bufLen_writeUInt32LE, hlen]; omega)
  · unfold writeFileHeader HEADER_MAGIC_OFFSET HEADER_PAGE_SIZE_OFFSET
      HEADER_TOTAL_PAGES_OFFSET HEADER_SCHEMA_PAGE_OFFSET
    exact readUInt32LE_writeUInt32LE _ _ _
      (by rw [bufLen_writeUInt32LE, bufLen_writeUInt16LE, bufLen_writeUInt32LE, hlen]; omega)
  · intro i hi
    unfold writeFileHeader HEADER_MAGIC_OFFSET HEADER_PAGE_SIZE_OFFSET
      HEADER_TOTAL_PAGES_OFFSET HEADER_SCHEMA_PAGE_OFFSET
    rw [byteAt_writeUInt32LE_out _ _ _ _ (by omega),
      byteAt_writeUInt32LE_out _ _ _ _ (by omega),
      byteAt_writeUInt16LE_out _ _ _ _ (by omega),
      byteAt_writeUInt32LE_out _ _ _ _ (by omega)]
    exact byteAt_bufAlloc psz i

/-- Counterexample to C6 as stated: the first four bytes of page 0 are
`54 4C 51 53` (the little-endian encoding of `0x53514C54`), not
`53 4C 51 54` as the claim lists them. -/
theorem openFresh_magic_bytes_counterexample :
    readBytesAt (Pager.openFresh DEFAULT_PAGE_SIZE).file 0 4 = [0x54, 0x4C, 0x51, 0x53] ∧
    readBytesAt (Pager.openFresh DEFAULT_PAGE_SIZE).file 0 4 ≠ [0x53, 0x4C, 0x51, 0x54] := by
  obtain ⟨h0, h1, h2, h3, -⟩ :=
    writeFileHeader_bytes DEFAULT_PAGE_SIZE MAGIC_NUMBER DEFAULT_PAGE_SIZE 2 1 (by decide)
  have key : readBytesAt (Pager.openFresh DEFAULT_PAGE_SIZE).file 0 4 =
      [0x54, 0x4C, 0x51, 0x53] := by
    have hb : ∀ k, k < 4 → byteAt (Pager.openFresh DEFAULT_PAGE_SIZE).file (0 + k) =
        byteAt (writeFileHeader (bufAlloc DEFAULT_PAGE_SIZE)
          { magic := MAGIC_NUMBER, pageSize := DEFAULT_PAGE_SIZE,
            totalPages := 2, schemaPage := 1 }) k := by
      intro k hk
      rw [Nat.zero_add]
      exact openFresh_file_byte DEFAULT_PAGE_SIZE k (by unfold DEFAULT_PAGE_SIZE; omega)
    show List.map _ (List.range 4) = _
    rw [show List.range 4 = [0, 1, 2, 3] from rfl]
    simp only [List.map]
    rw [hb 0 (by omega), hb 1 (by omega), hb 2 (by omega), hb 3 (by omega),
      h0, h1, h2, h3]
    decide
  exact ⟨key, by rw [key]; decide⟩

/-- C6 (amended).  The header page of a freshly created database holds
the bytes `54 4C 51 53` at `[0..4)` (the little-endian encoding of the
magic value `0x53514C54`), the 16-bit page size at `[4..6)`, the 32-bit
total page count `2` at `[6..10)`, the 32-bit catalog page number `1`
at `[10..14)`, and zeroes in the remaining bytes of the page. -/
theorem openFresh_header_page_layout (psz : Nat) (h14 : 14 ≤ psz) :
    readBytesAt (Pager.openFresh psz).file 0 4 = [0x54, 0x4C, 0x51, 0x53] ∧
    readUInt16LE (Pager.openFresh psz).file 4 = psz % 2 ^ 16 ∧
    readUInt32LE (Pager.openFresh psz).file 6 = 2 ∧
    readUInt32LE (Pager.openFresh psz).file 10 = 1 ∧
    (∀ i, 14 ≤ i → i < psz → byteAt (Pager.openFresh psz).file i = 0) := by
  obtain ⟨h0, h1, h2, h3, h16, h32a, h32b, hrest⟩ :=
    writeFileHeader_bytes psz MAGIC_NUMBER psz 2 1 h14
  have hb : ∀ k, k < psz → byteAt (Pager.openFresh psz).file k =
      byteAt (writeFileHeader (bufAlloc psz)
        { magic := MAGIC_NUMBER, pageSize := psz, totalPages := 2, schemaPage := 1 }) k :=
    fun k hk => openFresh_file_byte psz k hk
  refine ⟨?_, ?_, ?_, ?_, ?_⟩
  · show List.map _ (List.range 4) = _
    rw [show List.range 4 = [0, 1, 2, 3] from rfl]
    simp only [List.map, Nat.zero_add]
    rw [hb 0 (by omega), hb 1 (by omega), hb 2 (by omega), hb 3 (by omega),
      h0, h1, h2, h3]
    decide
  · rw [readUInt16LE_congr _ _ 4 (hb 4 (by omega)) (hb 5 (by omega)), h16]
  · rw [readUInt32LE_congr _ _ 6 (hb 6 (by omega)) (hb 7 (by omega))
      (hb 8 (by omega)) (hb 9 (by omega)), h32a]
    norm_num
  · rw [readUInt32LE_congr _ _ 10 (hb 10 (by omega)) (hb 11 (by omega))
      (hb 12 (by omega)) (hb 13 (by omega)), h32b]
    norm_num
  · intro i hi hlt
    rw [hb i hlt]
    exact hrest i hi

/-- Witness for the amended C6 at the default page size. -/
theorem openFresh_header_page_layout_witness :
    14 ≤ DEFAULT_PAGE_SIZE ∧
    readBytesAt (Pager.openFresh DEFAULT_PAGE_SIZE).file 0 4 = [0x54, 0x4C, 0x51, 0x53] :=
  ⟨by decide, (openFresh_header_page_layout DEFAULT_PAGE_SIZE (by decide)).1⟩

/-! ## C8: value conversion for INTEGER and TEXT columns -/

theorem dropWhile_eq_self_of_none (p : Char → Bool) (l : List Char)
    (h : ∀ ch ∈ l, p ch = false) : l.dropWhile p = l := by
  cases l with
  | nil => rfl
  | cons a l => simp [List.dropWhile_cons, h a (List.mem_cons_self a l)]

theorem trimWhite_eq_self (l : List Char) (h : ∀ ch ∈ l, jsWhite ch = false) :
    trimWhite l = l := by
  unfold trimWhite
  rw [dropWhile_eq_self_of_none _ _ h,
    dropWhile_eq_self_of_none _ _ (fun ch hch => h ch (List.mem_reverse.mp hch)),
    List.reverse_reverse]

theorem isDecDigit_not_white (ch : Char) (h : isDecDigit ch = true) :
    jsWhite ch = false := by
  have hb : 48 ≤ ch.toNat ∧ ch.toNat ≤ 57 := by simpa [isDecDigit] using h
  simp only [jsWhite, List.mem_cons, List.not_mem_nil, or_false,
    decide_eq_false_iff_not]
  push_neg
  omega

theorem isDecDigit_ne_exp (ch : Char) (h : isDecDigit ch = true) :
    ¬ (ch = 'e' ∨ ch = 'E') := by
  rintro (rfl | rfl) <;> revert h <;> decide

theorem isDecDigit_ne_dot (ch : Char) (h : isDecDigit ch = true) :
    ¬ ch = '.' := by
  rintro rfl
  revert h
  decide

theorem splitAtExpMark_of_digits (l : List Char) (h : l.all isDecDigit = true) :
    splitAtExpMark l = (l, none) := by
  induction l with
  | nil => rfl
  | cons a l ih =>
    rw [List.all_cons, Bool.and_eq_true] at h
    unfold splitAtExpMark
    rw [if_neg (isDecDigit_ne_exp a h.1), ih h.2]

theorem splitAtDot_of_digits (l : List Char) (h : l.all isDecDigit = true) :
    splitAtDot l = (l, none) := by
  induction l with
  | nil => rfl
  | cons a l ih =>
    rw [List.all_cons, Bool.and_eq_true] at h
    unfold splitAtDot
    rw [if_neg (isDecDigit_ne_dot a h.1), ih h.2]

theorem parseUnsignedDec_digits (l : List Char) (hne : l ≠ [])
    (h : l.all isDecDigit = true) :
    parseUnsignedDec l = some ((digitsVal 10 l : ℚ)) := by
  unfold parseUnsignedDec
  rw [splitAtExpMark_of_digits l h]
  simp only
  rw [splitAtDot_of_digits l h]
  simp only [Option.getD_none]
  rw [if_pos ⟨fun hs => absurd hs (by decide), h, by decide, Or.inl hne⟩]
  rw [show digitsVal 10 ([] : List Char) = 0 from rfl]
  norm_num

theorem all_digits_ne_infinity (u : List Char) (h : u.all isDecDigit = true) :
    u ≠ "Infinity".data := by
  intro heq
  subst heq
  revert h
  decide

theorem take2_ne_of_all_digits (u : List Char) (h : u.all isDecDigit = true)
    (a b : Char) (hb : isDecDigit b = false) : u.take 2 ≠ [a, b] := by
  intro heq
  have hmem : b ∈ u.take 2 := by rw [heq]; simp
  have hbu : b ∈ u := List.mem_of_mem_take hmem
  have := (List.all_eq_true.mp h) b hbu
  simp [hb] at this

theorem take2_ne_of_head (c : Char) (cs : List Char) (a b : Char) (hca : c ≠ a) :
    (c :: cs).take 2 ≠ [a, b] := by
  intro heq
  rw [List.take_succ_cons] at heq
  injection heq with h1 _
  exact hca h1

/-- A decimal integer string converts to its exact integer value. -/
theorem jsStringToNumber_decimal (s : String) (h : isDecimalIntegerString s = true) :
    jsStringToNumber s = .val ((decimalIntegerValue s : ℚ)) := by
  simp only [isDecimalIntegerString, decide_eq_true_eq] at h
  obtain ⟨hne, hdig⟩ := h
  rcases hd : s.data with _ | ⟨c, cs⟩
  · rw [hd] at hne
    simp [stripSign] at hne
  · rw [hd] at hne hdig
    by_cases hsig : c = '-' ∨ c = '+'
    · have hstrip : stripSign (c :: cs) = cs := by
        unfold stripSign
        rw [if_pos (by rcases hsig with rfl | rfl <;> simp)]
        rfl
      rw [hstrip] at hne hdig
      have hwhite : ∀ ch ∈ c :: cs, jsWhite ch = false := by
        intro ch hch
        rcases List.mem_cons.mp hch with rfl | hch
        · rcases hsig with rfl | rfl <;> decide
        · exact isDecDigit_not_white ch ((List.all_eq_true.mp hdig) ch hch)
      rw [jsStringToNumber, hd, trimWhite_eq_self _ hwhite]
      unfold jsParseTrimmed
      rw [if_neg (by simp)]
      rw [if_neg (by
        rintro (h1 | h1) <;>
          exact take2_ne_of_head c cs _ _ (by rcases hsig with rfl | rfl <;> decide) h1)]
      rw [if_neg (by
        rintro (h1 | h1) <;>
          exact take2_ne_of_head c cs _ _ (by rcases hsig with rfl | rfl <;> decide) h1)]
      rw [if_neg (by
        rintro (h1 | h1) <;>
          exact take2_ne_of_head c cs _ _ (by rcases hsig with rfl | rfl <;> decide) h1)]
      rw [decimalIntegerValue, hd, hstrip]
      rcases hsig with rfl | rfl <;>
        simp [all_digits_ne_infinity cs hdig, parseUnsignedDec_digits cs hne hdig]
    · push_neg at hsig
      have hstrip : stripSign (c :: cs) = c :: cs := by
        unfold stripSign
        rw [if_neg (by
          rintro (h1 | h1) <;> simp only [List.head?_cons, Option.some.injEq] at h1
          · exact hsig.1 h1
          · exact hsig.2 h1)]
      rw [hstrip] at hne hdig
      have hwhite : ∀ ch ∈ c :: cs, jsWhite ch = false :=
        fun ch hch => isDecDigit_not_white ch ((List.all_eq_true.mp hdig) ch hch)
      rw [jsStringToNumber, hd, trimWhite_eq_self _ hwhite]
      unfold jsParseTrimmed
      rw [if_neg (by simp)]
      rw [if_neg (by
        rintro (h1 | h1) <;> exact take2_ne_of_all_digits _ hdig _ _ (by decide) h1)]
      rw [if_neg (by
        rintro (h1 | h1) <;> exact take2_ne_of_all_digits _ hdig _ _ (by decide) h1)]
      rw [if_neg (by
        rintro (h1 | h1) <;> exact take2_ne_of_all_digits _ hdig _ _ (by decide) h1)]
      rw [decimalIntegerValue, hd, hstrip]
      simp [all_digits_ne_infinity _ hdig, parseUnsignedDec_digits _ hne hdig,
        hsig.1, hsig.2]

/-- Counterexample to C8 as stated: the empty string is not a decimal
whole-integer numeral, yet `Number("")` is `0` and the conversion for
an INTEGER column accepts it. -/
theorem convertValue_empty_string_counterexample :
    convertValue ⟨"n", .INTEGER, []⟩ (.str "") = .ok (.intV 0) ∧
    convertValue ⟨"n", .INTEGER, []⟩ (.str "0x1A") = .ok (.intV 26) ∧
    isDecimalIntegerString "" = false ∧
    isDecimalIntegerString "0x1A" = false :=
  ⟨rfl, rfl, rfl, rfl⟩

/-- C8 (amended).  For an INTEGER column an integer literal is accepted
as-is; a string literal that is a whole integer in decimal notation of
magnitude at most `2 ^ 53` (the range in which the JavaScript number is
exact) is accepted with its exact value — but not only decimal
numerals: the empty string is accepted as 0 and hexadecimal notation
such as `0x1A` as 26 (see the counterexample).  A string that the
ECMAScript numeric grammar refuses (`Number` gives `NaN`, independently
of binary64 rounding) is rejected with a conversion error, as are the
literal `Infinity` and the binary-exact non-integral literal `1.5`.
For a TEXT column every literal is accepted after coercion to its
string form. -/
theorem convertValue_conversion_rules (colI colT : ColumnDef) (n : Int)
    (s : String) (raw : Lit)
    (hI : colI.type = .INTEGER) (hT : colT.type = .TEXT) :
    (convertValue colI (.num n) = .ok (.intV n)) ∧
    (isDecimalIntegerString s = true →
      (decimalIntegerValue s).natAbs ≤ 2 ^ 53 →
      convertValue colI (.str s) = .ok (.intV (decimalIntegerValue s))) ∧
    (jsStringToNumber s = .nan →
      convertValue colI (.str s) =
        .error ("Invalid INTEGER value for column " ++ colI.name ++ ": " ++ s)) ∧
    (convertValue ⟨"c", .INTEGER, []⟩ (.str "Infinity") =
      .error "Invalid INTEGER value for column c: Infinity") ∧
    (convertValue ⟨"c", .INTEGER, []⟩ (.str "1.5") =
      .error "Invalid INTEGER value for column c: 1.5") ∧
    (convertValue colT raw =
      .ok (.textV (match raw with | .num m => jsIntToString m | .str t => t))) := by
  refine ⟨?_, ?_, ?_, ?_, ?_, ?_⟩
  · simp [convertValue, hI]
  · intro hdec _
    simp [convertValue, hI, jsStringToNumber_decimal s hdec,
      Rat.den_intCast, Rat.num_intCast]
  · intro hnan
    simp [convertValue, hI, hnan]
  · rfl
  · have hstep15 : jsStringToNumber "1.5" = JSNum.val
        (((digitsVal 10 ['1'] : ℚ) +
          (digitsVal 10 ['5'] : ℚ) / (10 : ℚ) ^ (['5'] : List Char).length) *
          (10 : ℚ) ^ (0 : Int)) := rfl
    have hd1 : digitsVal 10 ['1'] = 1 := rfl
    have hd5 : digitsVal 10 ['5'] = 5 := rfl
    have h15val : jsStringToNumber "1.5" = JSNum.val ((3 : ℚ) / 2) := by
      rw [hstep15, hd1, hd5]
      norm_num
    show (match jsStringToNumber "1.5" with
      | .val q =>
        if q.den = 1 then Except.ok (ColumnValue.intV q.num)
        else Except.error ("Invalid INTEGER value for column " ++
          (⟨"c", .INTEGER, []⟩ : ColumnDef).name ++ ": " ++ "1.5")
      | _ => Except.error ("Invalid INTEGER value for column " ++
          (⟨"c", .INTEGER, []⟩ : ColumnDef).name ++ ": " ++ "1.5")) =
      Except.error "Invalid INTEGER value for column c: 1.5"
    rw [h15val]
    have hden : ((3 : ℚ) / 2).den ≠ 1 := by norm_num
    show (if ((3 : ℚ) / 2).den = 1 then
        Except.ok (ColumnValue.intV ((3 : ℚ) / 2).num)
      else Except.error ("Invalid INTEGER value for column " ++
        (⟨"c", .INTEGER, []⟩ : ColumnDef).name ++ ": " ++ "1.5")) =
      Except.error "Invalid INTEGER value for column c: 1.5"
    rw [if_neg hden]
    rfl
  · simp [convertValue, hT]

/-- Witness for the amended C8 on concrete inputs. -/
theorem convertValue_conversion_rules_witness :
    convertValue ⟨"k", .INTEGER, []⟩ (.str "-42") = .ok (.intV (-42)) :=
  (convertValue_conversion_rules ⟨"k", .INTEGER, []⟩ ⟨"t", .TEXT, []⟩ 7 "-42"
    (.str "x") rfl rfl).2.1 (by decide) (by decide)

/-! ## C9: leaf cell serialization round-trip -/

theorem bufLen_writeBytesInto (data : List Nat) (b : Buf) (off : Nat) :
    bufLen (writeBytesInto b off data) = bufLen b := by
  induction data generalizing b off with
  | nil => rfl
  | cons x rest ih => rw [writeBytesInto, ih, bufLen_set]

theorem byteAt_writeBytesInto_lt (data : List Nat) (b : Buf) (off i : Nat)
    (h : i < off) :
    byteAt (writeBytesInto b off data) i = byteAt b i := by
  induction data generalizing b off with
  | nil => rfl
  | cons x rest ih =>
    rw [writeBytesInto, ih _ _ (by omega), byteAt_set_ne _ _ _ _ (by omega)]

theorem byteAt_writeBytesInto_at (data : List Nat) (b : Buf) (off : Nat)
    (hb : off + data.length ≤ bufLen b) (j : Nat) (hj : j < data.length) :
    byteAt (writeBytesInto b off data) (off + j) = data.getD j 0 := by
  induction data generalizing b off j with
  | nil => cases hj
  | cons x rest ih =>
    cases j with
    | zero =>
      rw [writeBytesInto]
      rw [byteAt_writeBytesInto_lt rest _ _ _ (by omega)]
      rw [show off + 0 = off from rfl]
      rw [byteAt_set_self b off x (by simp at hb ⊢; omega)]
      rfl
    | succ j =>
      have harith : off + (j + 1) = (off + 1) + j := by omega
      rw [writeBytesInto, harith,
        ih _ (off + 1) (by rw [bufLen_set]; simp at hb ⊢; omega) j
          (by simp at hj; omega)]
      rfl

theorem readBytesAt_writeBytesInto (data : List Nat) (b : Buf) (off : Nat)
    (hb : off + data.length ≤ bufLen b) :
    readBytesAt (writeBytesInto b off data) off data.length = data := by
  apply List.ext_getElem (bufLen_readBytesAt _ _ _)
  intro i h1 h2
  rw [← List.getD_eq_getElem _ 0 h1, ← List.getD_eq_getElem _ 0 h2]
  rw [show List.getD (readBytesAt (writeBytesInto b off data) off data.length) i 0 =
      byteAt (readBytesAt (writeBytesInto b off data) off data.length) i from rfl]
  rw [byteAt_readBytesAt _ _ _ _ h2]
  exact byteAt_writeBytesInto_at data b off hb i h2

theorem bufLen_writeValueAt (v : CellValue) (page : Buf) (off : Nat) :
    bufLen (writeValueAt page off v) = bufLen page := by
  cases v <;> simp [writeValueAt, writeInt32LE, bufLen_writeUInt8,
    bufLen_writeUInt16LE, bufLen_writeUInt32LE, bufLen_writeBytesInto]

theorem byteAt_writeValueAt_lt (v : CellValue) (page : Buf) (off i : Nat)
    (h : i < off) :
    byteAt (writeValueAt page off v) i = byteAt page i := by
  cases v with
  | nullB => exact byteAt_writeUInt8_out _ _ _ _ (by omega)
  | intB n =>
    rw [writeValueAt, writeInt32LE, byteAt_writeUInt32LE_out _ _ _ _ (by omega),
      byteAt_writeUInt8_out _ _ _ _ (by omega)]
  | textB bytes =>
    rw [writeValueAt, byteAt_writeBytesInto_lt _ _ _ _ (by omega),
      byteAt_writeUInt16LE_out _ _ _ _ (by omega),
      byteAt_writeUInt8_out _ _ _ _ (by omega)]

theorem bufLen_writeCellValues (values : List CellValue) (page : Buf) (off : Nat) :
    bufLen (writeCellValues page off values).1 = bufLen page := by
  induction values generalizing page off with
  | nil => rfl
  | cons v rest ih => rw [writeCellValues, ih, bufLen_writeValueAt]

theorem byteAt_writeCellValues_lt (values : List CellValue) (page : Buf) (off i : Nat)
    (h : i < off) :
    byteAt (writeCellValues page off values).1 i = byteAt page i := by
  induction values generalizing page off with
  | nil => rfl
  | cons v rest ih =>
    rw [writeCellValues, ih _ _ (by omega), byteAt_writeValueAt_lt _ _ _ _ h]

theorem readInt32LE_congr (b1 b2 : Buf) (off : Nat)
    (h0 : byteAt b1 off = byteAt b2 off)
    (h1 : byteAt b1 (off + 1) = byteAt b2 (off + 1))
    (h2 : byteAt b1 (off + 2) = byteAt b2 (off + 2))
    (h3 : byteAt b1 (off + 3) = byteAt b2 (off + 3)) :
    readInt32LE b1 off = readInt32LE b2 off := by
  unfold readInt32LE
  rw [readUInt32LE_congr b1 b2 off h0 h1 h2 h3]

theorem readInt32LE_writeInt32LE (b : Buf) (v : Int) (off : Nat)
    (hb : off + 4 ≤ bufLen b) (hlo : -(2 ^ 31) ≤ v) (hhi : v < 2 ^ 31) :
    readInt32LE (writeInt32LE b v off) off = v := by
  unfold writeInt32LE readInt32LE
  rw [readUInt32LE_writeUInt32LE _ _ _ hb]
  have h1 : (0 : Int) ≤ v % 2 ^ 32 := Int.emod_nonneg v (by norm_num)
  have h2 : v % 2 ^ 32 < 2 ^ 32 := Int.emod_lt_of_pos v (by norm_num)
  split_ifs with hc <;> omega

/-- Reading the values written by `writeCellValues` from any buffer
that agrees with the written one on the value region. -/
theorem readCellValues_spec (values : List CellValue) (p B : Buf) (off : Nat)
    (hok : ∀ v ∈ values, ValueOK v)
    (hbound : off + encodedValuesSize values ≤ bufLen p)
    (hagree : ∀ i, off ≤ i → i < off + encodedValuesSize values →
      byteAt B i = byteAt (writeCellValues p off values).1 i) :
    readCellValues B off values.length = (values, off + encodedValuesSize values) := by
  induction values generalizing p off with
  | nil => simp [readCellValues, encodedValuesSize]
  | cons v rest ih =>
    have hsz : encodedValuesSize (v :: rest) =
        encodedValueSize v + encodedValuesSize rest := by
      simp [encodedValuesSize]
    have hvok : ValueOK v := hok v (List.mem_cons_self v rest)
    have hrok : ∀ w ∈ rest, ValueOK w := fun w hw => hok w (List.mem_cons_of_mem v hw)
    have hq : ∀ i, off ≤ i → i < off + encodedValueSize v →
        byteAt B i = byteAt (writeValueAt p off v) i := by
      intro i hi1 hi2
      rw [hagree i hi1 (by rw [hsz]; omega)]
      rw [writeCellValues]
      exact byteAt_writeCellValues_lt rest _ _ i hi2
    have hblen : bufLen (writeValueAt p off v) = bufLen p := bufLen_writeValueAt v p off
    have hrest : readCellValues B (off + encodedValueSize v) rest.length =
        (rest, (off + encodedValueSize v) + encodedValuesSize rest) := by
      apply ih (writeValueAt p off v) (off + encodedValueSize v) hrok
      · rw [hblen]
        rw [hsz] at hbound
        omega
      · intro i hi1 hi2
        rw [hagree i (by omega) (by rw [hsz]; omega)]
        rw [writeCellValues]
    rw [show (v :: rest).length = rest.length + 1 from rfl]
    have hplen : off + encodedValueSize v ≤ bufLen p := by
      rw [hsz] at hbound
      omega
    cases v with
    | nullB =>
      have htag : readUInt8 B off = 0x00 := by
        rw [readUInt8, hq off (by omega) (by simp [encodedValueSize]),
          writeValueAt, writeUInt8, byteAt_set_self _ _ _ (by
            simp only [encodedValueSize] at hplen
            omega)]
      rw [readCellValues]
      simp only [htag]
      rw [if_pos trivial]
      simp only [encodedValueSize] at hrest
      rw [hrest, hsz]
      simp [encodedValueSize, Nat.add_assoc]
    | intB n =>
      have hvok2 : -(2 ^ 31) ≤ n ∧ n < 2 ^ 31 := hvok
      have htag : readUInt8 B off = 0x01 := by
        rw [readUInt8, hq off (by omega) (by simp [encodedValueSize]),
          writeValueAt, writeInt32LE, byteAt_writeUInt32LE_out _ _ _ _ (by omega),
          writeUInt8, byteAt_set_self _ _ _ (by
            simp only [encodedValueSize] at hplen
            omega)]
      have hint : readInt32LE B (off + 1) = n := by
        rw [readInt32LE_congr B (writeValueAt p off (.intB n)) (off + 1)
          (hq (off + 1) (by omega) (by simp only [encodedValueSize]; omega))
          (hq (off + 1 + 1) (by omega) (by simp only [encodedValueSize]; omega))
          (hq (off + 1 + 2) (by omega) (by simp only [encodedValueSize]; omega))
          (hq (off + 1 + 3) (by omega) (by simp only [encodedValueSize]; omega))]
        rw [writeValueAt]
        exact readInt32LE_writeInt32LE _ _ _
          (by rw [bufLen_writeUInt8]; simp only [encodedValueSize] at hplen; omega)
          hvok2.1 hvok2.2
      rw [readCellValues]
      simp only [htag]
      rw [if_pos trivial]
      simp only [encodedValueSize] at hrest
      rw [hrest, hint, hsz]
      simp [encodedValueSize, Nat.add_assoc]
    | textB bytes =>
      have hvok2 : bytes.length < 2 ^ 16 ∧ ∀ b ∈ bytes, b < 256 := hvok
      have hpl : off + (3 + bytes.length) ≤ bufLen p := by
        simpa [encodedValueSize] using hplen
      have htag : readUInt8 B off = 0x02 := by
        rw [readUInt8, hq off (by omega) (by simp only [encodedValueSize]; omega),
          writeValueAt, byteAt_writeBytesInto_lt _ _ _ _ (by omega),
          byteAt_writeUInt16LE_out _ _ _ _ (by omega),
          writeUInt8, byteAt_set_self _ _ _ (by omega)]
      have hlen16 : readUInt16LE B (off + 1) = bytes.length := by
        rw [readUInt16LE_congr B (writeValueAt p off (.textB bytes)) (off + 1)
          (hq (off + 1) (by omega) (by simp only [encodedValueSize]; omega))
          (hq (off + 1 + 1) (by omega) (by simp only [encodedValueSize]; omega))]
        rw [writeValueAt]
        rw [readUInt16LE_congr (writeBytesInto (writeUInt16LE (writeUInt8 p 2 off)
            bytes.length (off + 1)) (off + 3) bytes)
          (writeUInt16LE (writeUInt8 p 2 off) bytes.length (off + 1)) (off + 1)
          (byteAt_writeBytesInto_lt _ _ _ _ (by omega))
          (byteAt_writeBytesInto_lt _ _ _ _ (by omega))]
        rw [readUInt16LE_writeUInt16LE _ _ _ (by rw [bufLen_writeUInt8]; omega)]
        exact Nat.mod_eq_of_lt hvok2.1
      have hbytes : readBytesAt B (off + 3) bytes.length = bytes := by
        apply List.ext_getElem (bufLen_readBytesAt _ _ _)
        intro j hj1 hj2
        rw [← List.getD_eq_getElem _ 0 hj1, ← List.getD_eq_getElem _ 0 hj2]
        rw [show List.getD (readBytesAt B (off + 3) bytes.length) j 0 =
            byteAt (readBytesAt B (off + 3) bytes.length) j from rfl]
        rw [byteAt_readBytesAt _ _ _ _ hj2]
        rw [hq (off + 3 + j) (by omega) (by simp only [encodedValueSize]; omega)]
        rw [writeValueAt]
        have := byteAt_writeBytesInto_at bytes
          (writeUInt16LE (writeUInt8 p 2 off) bytes.length (off + 1)) (off + 3)
          (by rw [bufLen_writeUInt16LE, bufLen_writeUInt8]; omega) j hj2
        exact this
      rw [readCellValues]
      simp only [htag]
      rw [if_pos trivial]
      simp only [hlen16, hbytes]
      simp only [encodedValueSize] at hrest
      rw [show off + 3 + bytes.length = off + (3 + bytes.length) from by omega, hrest, hsz]
      simp [encodedValueSize, Nat.add_assoc]

theorem bufLen_writeCell (cell : CellRecord) (page : Buf) (off : Nat) :
    bufLen (writeCell page off cell).1 = bufLen page := by
  rw [writeCell, bufLen_writeCellValues, bufLen_writeUInt16LE, bufLen_writeUInt32LE]

theorem byteAt_writeCell_lt (cell : CellRecord) (page : Buf) (off i : Nat)
    (h : i < off) :
    byteAt (writeCell page off cell).1 i = byteAt page i := by
  rw [writeCell, byteAt_writeCellValues_lt _ _ _ _ (by omega),
    byteAt_writeUInt16LE_out _ _ _ _ (by omega),
    byteAt_writeUInt32LE_out _ _ _ _ (by omega)]

/-- Reading one cell written by `writeCell` from any buffer that agrees
with the written one on the cell region. -/
theorem readCell_spec (cell : CellRecord) (p B : Buf) (off : Nat)
    (hok : CellOK cell)
    (hbound : off + encodedCellSize cell ≤ bufLen p)
    (hagree : ∀ i, off ≤ i → i < off + encodedCellSize cell →
      byteAt B i = byteAt (writeCell p off cell).1 i) :
    readCell B off = (cell, off + encodedCellSize cell) := by
  obtain ⟨hkey, hcnt, hvals⟩ := hok
  have hsz : encodedCellSize cell = 6 + encodedValuesSize cell.values := rfl
  have hhdr : ∀ i, off ≤ i → i < off + 6 →
      byteAt B i = byteAt (writeUInt16LE (writeUInt32LE p cell.key off)
        cell.values.length (off + 4)) i := by
    intro i hi1 hi2
    rw [hagree i hi1 (by rw [hsz]; omega), writeCell]
    exact byteAt_writeCellValues_lt _ _ _ i hi2
  have hplen2 : bufLen (writeUInt16LE (writeUInt32LE p cell.key off)
      cell.values.length (off + 4)) = bufLen p := by
    rw [bufLen_writeUInt16LE, bufLen_writeUInt32LE]
  have hcount : readUInt16LE B (off + 4) = cell.values.length := by
    rw [readUInt16LE_congr B _ (off + 4)
      (hhdr (off + 4) (by omega) (by omega))
      (hhdr (off + 4 + 1) (by omega) (by omega))]
    rw [readUInt16LE_writeUInt16LE _ _ _ (by rw [bufLen_writeUInt32LE]; rw [hsz] at hbound; omega)]
    exact Nat.mod_eq_of_lt hcnt
  have hkeyr : readUInt32LE B off = cell.key := by
    rw [readUInt32LE_congr B _ off
      (hhdr off (by omega) (by omega))
      (hhdr (off + 1) (by omega) (by omega))
      (hhdr (off + 2) (by omega) (by omega))
      (hhdr (off + 3) (by omega) (by omega))]
    rw [readUInt32LE_congr _ (writeUInt32LE p cell.key off) off
      (byteAt_writeUInt16LE_out _ _ _ _ (by omega))
      (byteAt_writeUInt16LE_out _ _ _ _ (by omega))
      (byteAt_writeUInt16LE_out _ _ _ _ (by omega))
      (byteAt_writeUInt16LE_out _ _ _ _ (by omega))]
    rw [readUInt32LE_writeUInt32LE _ _ _ (by rw [hsz] at hbound; omega)]
    exact Nat.mod_eq_of_lt hkey
  have hvspec : readCellValues B (off + 6) cell.values.length =
      (cell.values, off + 6 + encodedValuesSize cell.values) := by
    apply readCellValues_spec cell.values
      (writeUInt16LE (writeUInt32LE p cell.key off) cell.values.length (off + 4))
      B (off + 6) hvals
    · rw [hplen2]
      rw [hsz] at hbound
      omega
    · intro i hi1 hi2
      rw [hagree i (by omega) (by rw [hsz]; omega), writeCell]
  rw [readCell, hcount, hvspec, hkeyr, hsz]
  simp [Nat.add_assoc]

theorem bufLen_writeCells (cells : List CellRecord) (page : Buf) (off : Nat) :
    bufLen (writeCells page off cells) = bufLen page := by
  induction cells generalizing page off with
  | nil => rfl
  | cons cell rest ih => rw [writeCells, ih, bufLen_writeCell]

theorem byteAt_writeCells_lt (cells : List CellRecord) (page : Buf) (off i : Nat)
    (h : i < off) :
    byteAt (writeCells page off cells) i = byteAt page i := by
  induction cells generalizing page off with
  | nil => rfl
  | cons cell rest ih =>
    rw [writeCells]
    have hoff : (writeCell page off cell).2 = off + encodedCellSize cell := by
      rw [writeCell]
      have : ∀ (values : List CellValue) (q : Buf) (o : Nat),
          (writeCellValues q o values).2 = o + encodedValuesSize values := by
        intro values
        induction values with
        | nil => intro q o; simp [writeCellValues, encodedValuesSize]
        | cons v vs ihv =>
          intro q o
          rw [writeCellValues, ihv]
          simp [encodedValuesSize]
          omega
      rw [this]
      simp [encodedCellSize]
      omega
    rw [show (match writeCell page off cell with
        | (p1, off1) => writeCells p1 off1 rest) =
        writeCells (writeCell page off cell).1 (writeCell page off cell).2 rest from rfl]
    rw [ih _ _ (by rw [hoff]; omega), byteAt_writeCell_lt _ _ _ _ h]

theorem offset_writeCellValues (values : List CellValue) (q : Buf) (o : Nat) :
    (writeCellValues q o values).2 = o + encodedValuesSize values := by
  induction values generalizing q o with
  | nil => simp [writeCellValues, encodedValuesSize]
  | cons v vs ihv =>
    rw [writeCellValues, ihv]
    simp [encodedValuesSize]
    omega

theorem offset_writeCell (cell : CellRecord) (page : Buf) (off : Nat) :
    (writeCell page off cell).2 = off + encodedCellSize cell := by
  rw [writeCell, offset_writeCellValues]
  simp [encodedCellSize]
  omega

/-- Reading back a cell list written by `writeCells`. -/
theorem readCellsFrom_spec (cells : List CellRecord) (p B : Buf) (off : Nat)
    (hok : ∀ cell ∈ cells, CellOK cell)
    (hbound : off + encodedCellsSize cells ≤ bufLen p)
    (hagree : ∀ i, off ≤ i → i < off + encodedCellsSize cells →
      byteAt B i = byteAt (writeCells p off cells) i) :
    readCellsFrom B off cells.length = cells := by
  induction cells generalizing p off with
  | nil => rfl
  | cons cell rest ih =>
    have hsz : encodedCellsSize (cell :: rest) =
        encodedCellSize cell + encodedCellsSize rest := by
      simp [encodedCellsSize]
    have hcw : ∀ i, off ≤ i → i < off + encodedCellSize cell →
        byteAt B i = byteAt (writeCell p off cell).1 i := by
      intro i hi1 hi2
      rw [hagree i hi1 (by rw [hsz]; omega), writeCells]
      rw [show (match writeCell p off cell with
          | (p1, off1) => writeCells p1 off1 rest) =
          writeCells (writeCell p off cell).1 (writeCell p off cell).2 rest from rfl]
      rw [byteAt_writeCells_lt _ _ _ _ (by rw [offset_writeCell]; omega)]
    have hcell : readCell B off = (cell, off + encodedCellSize cell) :=
      readCell_spec cell p B off (hok cell (List.mem_cons_self cell rest))
        (by rw [hsz] at hbound; omega) hcw
    rw [show (cell :: rest).length = rest.length + 1 from rfl, readCellsFrom, hcell]
    have hrest : readCellsFrom B (off + encodedCellSize cell) rest.length = rest := by
      apply ih (writeCell p off cell).1 (off + encodedCellSize cell)
        (fun c hc => hok c (List.mem_cons_of_mem cell hc))
      · rw [bufLen_writeCell]
        rw [hsz] at hbound
        omega
      · intro i hi1 hi2
        rw [hagree i (by omega) (by rw [hsz]; omega), writeCells]
        rw [show (match writeCell p off cell with
            | (p1, off1) => writeCells p1 off1 rest) =
            writeCells (writeCell p off cell).1 (writeCell p off cell).2 rest from rfl]
        rw [offset_writeCell]
    show cell :: readCellsFrom B (off + encodedCellSize cell) rest.length = cell :: rest
    rw [hrest]

/-- C9.  Serializing a record list with `writeLeafCellsToBuffer` and
deserializing with `readLeafCells` (using the written cell count)
returns the original list, whenever keys are unsigned 32-bit, integer
values fit a signed 32-bit word, text byte strings are shorter than
`2 ^ 16`, and the encoded cells fit in the page after the 7-byte node
header. -/
theorem leaf_cells_roundtrip (page : Buf) (cells : List CellRecord)
    (hok : ∀ cell ∈ cells, CellOK cell)
    (hfit : NODE_HEADER_SIZE + encodedCellsSize cells ≤ bufLen page) :
    readLeafCells (writeLeafCellsToBuffer page cells) cells.length = cells := by
  rw [readLeafCells, writeLeafCellsToBuffer]
  exact readCellsFrom_spec cells (writeUInt16LE page cells.length 1) _
    NODE_HEADER_SIZE hok
    (by rw [bufLen_writeUInt16LE]; exact hfit)
    (fun i h1 h2 => rfl)

/-- Witness for C9 on a two-record list with all three value kinds. -/
theorem leaf_cells_roundtrip_witness :
    readLeafCells (writeLeafCellsToBuffer (bufAlloc 64)
      [⟨1, [.intB (-5), .textB [104, 105], .nullB]⟩, ⟨2, [.textB []]⟩]) 2 =
      [⟨1, [.intB (-5), .textB [104, 105], .nullB]⟩, ⟨2, [.textB []]⟩] :=
  leaf_cells_roundtrip (bufAlloc 64)
    [⟨1, [.intB (-5), .textB [104, 105], .nullB]⟩, ⟨2, [.textB []]⟩]
    (by
      intro c hc
      simp only [List.mem_cons, List.not_mem_nil, or_false] at hc
      rcases hc with rfl | rfl
      · refine ⟨by norm_num, by norm_num, ?_⟩
        intro v hv
        simp only [List.mem_cons, List.not_mem_nil, or_false] at hv
        rcases hv with rfl | rfl | rfl
        · exact ⟨by norm_num, by norm_num⟩
        · exact ⟨by norm_num, by decide⟩
        · trivial
      · refine ⟨by norm_num, by norm_num, ?_⟩
        intro v hv
        simp only [List.mem_cons, List.not_mem_nil, or_false] at hv
        rcases hv with rfl
        exact ⟨by norm_num, by decide⟩)
    (by decide)

/-! ## Logical pager lemmas -/

theorem PagerState.readPage_eq_ok (s : PagerState) (n : Nat) (p : Page) :
    s.readPage n = .ok p ↔ s.pages[n]? = some p := by
  unfold PagerState.readPage
  split_ifs with h
  · simp [List.getElem?_eq_getElem h, List.get_eq_getElem]
  · simp [List.getElem?_eq_none (Nat.le_of_not_lt h)]

theorem PagerState.readPage_lt (s : PagerState) (n : Nat) (p : Page)
    (h : s.readPage n = .ok p) : n < s.pages.length := by
  rw [PagerState.readPage_eq_ok] at h
  exact (List.getElem?_eq_some.mp h).choose

theorem PagerState.writePage_lt (s : PagerState) (n : Nat) (p : Page)
    (h : n < s.pages.length) :
    s.writePage n p = ({ s with pages := s.pages.set n p }, .ok ()) := by
  unfold PagerState.writePage
  rw [if_pos h]

theorem PagerState.readPage_mk (pages : List Page) (sp n : Nat) (p : Page) :
    (PagerState.mk pages sp).readPage n = .ok p ↔ pages[n]? = some p :=
  PagerState.readPage_eq_ok ⟨pages, sp⟩ n p

/-! ## C2: leaf split -/

/-- C2.  When an insert overflows a leaf (cell count above
`maxLeafCells`), `splitLeafNode` splits at `⌈count / 2⌉`: the first
half stays in the original page, the rest goes to the freshly
allocated page (number `totalPages`), the promoted key is the first
key of the right half, the new right page inherits the old right
sibling and the old page's right sibling becomes the new page — and
every other page is untouched, preserving the left-to-right leaf
chain. -/
theorem splitLeafNode_spec (s : PagerState) (pageNum sib : Nat)
    (cells : List BTreeRecord) (r0 : BTreeRecord)
    (hread : s.readPage pageNum = .ok (.leaf sib cells))
    (hover : maxLeafCells < cells.length)
    (hhead : (cells.drop ((cells.length + 1) / 2)).head? = some r0) :
    BTree.splitLeafNode s pageNum cells =
      (PagerState.mk
        (((s.pages ++ [Page.unused]).set s.totalPages
          (Page.leaf sib (cells.drop ((cells.length + 1) / 2)))).set pageNum
          (Page.leaf s.totalPages (cells.take ((cells.length + 1) / 2))))
        s.schemaPage,
        .ok (r0.key, s.totalPages)) ∧
    (BTree.splitLeafNode s pageNum cells).1.readPage pageNum =
      .ok (.leaf s.totalPages (cells.take ((cells.length + 1) / 2))) ∧
    (BTree.splitLeafNode s pageNum cells).1.readPage s.totalPages =
      .ok (.leaf sib (cells.drop ((cells.length + 1) / 2))) ∧
    (∀ n, n < s.totalPages → n ≠ pageNum →
      (BTree.splitLeafNode s pageNum cells).1.readPage n = s.readPage n) ∧
    (BTree.splitLeafNode s pageNum cells).1.totalPages = s.totalPages + 1 := by
  have hlt : pageNum < s.pages.length := s.readPage_lt pageNum _ hread
  have hmain : BTree.splitLeafNode s pageNum cells =
      (PagerState.mk
        (((s.pages ++ [Page.unused]).set s.totalPages
          (Page.leaf sib (cells.drop ((cells.length + 1) / 2)))).set pageNum
          (Page.leaf s.totalPages (cells.take ((cells.length + 1) / 2))))
        s.schemaPage,
        .ok (r0.key, s.totalPages)) := by
    unfold BTree.splitLeafNode
    rw [hread]
    simp only [BTree.pageSiblingField]
    rcases hdrop : cells.drop ((cells.length + 1) / 2) with _ | ⟨r0', rest⟩
    · rw [hdrop] at hhead
      cases hhead
    · rw [hdrop] at hhead
      rw [List.head?_cons, Option.some.injEq] at hhead
      subst hhead
      show (match (PagerState.allocatePage s) with | (s1, newPageNum) => _) = _
      simp only [PagerState.allocatePage]
      rw [PagerState.writePage_lt _ _ _ (by simp [PagerState.totalPages])]
      simp only
      rw [PagerState.writePage_lt _ _ _ (by simp [PagerState.totalPages]; omega)]
      simp only [PagerState.totalPages]
  refine ⟨hmain, ?_, ?_, ?_, ?_⟩
  · rw [hmain]
    simp only [PagerState.readPage_eq_ok, PagerState.totalPages]
    rw [List.getElem?_set_self (h := by simp; omega)]
  · rw [hmain]
    simp only [PagerState.readPage_eq_ok, PagerState.totalPages]
    rw [List.getElem?_set_ne (by omega : pageNum ≠ s.pages.length)]
    rw [List.getElem?_set_self (h := by simp)]
  · intro n hn hne
    rw [hmain]
    have hn2 : n < s.pages.length := hn
    have hx : (((s.pages ++ [Page.unused]).set s.totalPages
        (Page.leaf sib (cells.drop ((cells.length + 1) / 2)))).set pageNum
        (Page.leaf s.totalPages (cells.take ((cells.length + 1) / 2))))[n]? =
        s.pages[n]? := by
      rw [List.getElem?_set_ne (fun hc => hne hc.symm),
        List.getElem?_set_ne (show s.totalPages ≠ n from fun hc => by
          rw [PagerState.totalPages] at hc; omega),
        List.getElem?_append_left hn2]
    have hg1 : (PagerState.mk (((s.pages ++ [Page.unused]).set s.totalPages
        (Page.leaf sib (cells.drop ((cells.length + 1) / 2)))).set pageNum
        (Page.leaf s.totalPages (cells.take ((cells.length + 1) / 2))))
        s.schemaPage).readPage n = .ok (s.pages.get ⟨n, hn2⟩) := by
      rw [PagerState.readPage_mk, hx]
      exact List.getElem?_eq_getElem hn2
    have hg2 : s.readPage n = .ok (s.pages.get ⟨n, hn2⟩) := by
      rw [PagerState.readPage_eq_ok]
      exact List.getElem?_eq_getElem hn2
    rw [hg1, hg2]
  · rw [hmain]
    simp [PagerState.totalPages]

/-- Witness for C2 on a one-leaf tree with five keys. -/
theorem splitLeafNode_spec_witness :
    BTree.splitLeafNode
      ⟨[Page.headerP, Page.schemaP [], Page.leaf 0
        [⟨1, []⟩, ⟨2, []⟩, ⟨3, []⟩, ⟨4, []⟩, ⟨5, []⟩]], 1⟩ 2
      [⟨1, []⟩, ⟨2, []⟩, ⟨3, []⟩, ⟨4, []⟩, ⟨5, []⟩] =
      (⟨[Page.headerP, Page.schemaP [],
          Page.leaf 3 [⟨1, []⟩, ⟨2, []⟩, ⟨3, []⟩],
          Page.leaf 0 [⟨4, []⟩, ⟨5, []⟩]], 1⟩,
        .ok (4, 3)) :=
  (splitLeafNode_spec
    ⟨[Page.headerP, Page.schemaP [], Page.leaf 0
      [⟨1, []⟩, ⟨2, []⟩, ⟨3, []⟩, ⟨4, []⟩, ⟨5, []⟩]], 1⟩ 2 0
    [⟨1, []⟩, ⟨2, []⟩, ⟨3, []⟩, ⟨4, []⟩, ⟨5, []⟩] ⟨4, []⟩
    (by rw [PagerState.readPage_mk]; rfl) (by decide) rfl).1

/-! ## C3: internal split -/

/-- C3.  When split propagation overflows an internal node (key count
above `maxInternalKeys`), `splitInternalNode` splits at
`⌊count / 2⌋`: the entry at that position is promoted and, the keys
being strictly increasing, its key appears in neither half; entries
before it form the left node, entries after it the right node (in the
freshly allocated page), and the promoted entry's child becomes the
right node's leftmost child.  Other pages are untouched. -/
theorem splitInternalNode_spec (s : PagerState) (pageNum lm : Nat)
    (entries : List InternalEntry) (pe : InternalEntry)
    (hread : s.readPage pageNum = .ok (.internal lm entries))
    (hover : maxInternalKeys < entries.length)
    (hmid : entries.get? (entries.length / 2) = some pe)
    (hsorted : List.Pairwise (fun a b => a.key < b.key) entries) :
    BTree.splitInternalNode s pageNum =
      (PagerState.mk
        (((s.pages ++ [Page.unused]).set s.totalPages
          (Page.internal pe.childPageNum (entries.drop (entries.length / 2 + 1)))).set pageNum
          (Page.internal lm (entries.take (entries.length / 2))))
        s.schemaPage,
        .ok (pe.key, s.totalPages)) ∧
    (BTree.splitInternalNode s pageNum).1.readPage pageNum =
      .ok (.internal lm (entries.take (entries.length / 2))) ∧
    (BTree.splitInternalNode s pageNum).1.readPage s.totalPages =
      .ok (.internal pe.childPageNum (entries.drop (entries.length / 2 + 1))) ∧
    pe.key ∉ (entries.take (entries.length / 2)).map InternalEntry.key ∧
    pe.key ∉ (entries.drop (entries.length / 2 + 1)).map InternalEntry.key ∧
    (∀ n, n < s.totalPages → n ≠ pageNum →
      (BTree.splitInternalNode s pageNum).1.readPage n = s.readPage n) ∧
    (BTree.splitInternalNode s pageNum).1.totalPages = s.totalPages + 1 := by
  have hlt : pageNum < s.pages.length := s.readPage_lt pageNum _ hread
  have hmain : BTree.splitInternalNode s pageNum =
      (PagerState.mk
        (((s.pages ++ [Page.unused]).set s.totalPages
          (Page.internal pe.childPageNum (entries.drop (entries.length / 2 + 1)))).set pageNum
          (Page.internal lm (entries.take (entries.length / 2))))
        s.schemaPage,
        .ok (pe.key, s.totalPages)) := by
    unfold BTree.splitInternalNode
    rw [hread]
    simp only [hmid]
    show (match (PagerState.allocatePage s) with | (s1, newPageNum) => _) = _
    simp only [PagerState.allocatePage]
    rw [PagerState.writePage_lt _ _ _ (by simp [PagerState.totalPages])]
    simp only
    rw [PagerState.writePage_lt _ _ _ (by simp [PagerState.totalPages]; omega)]
    simp only [PagerState.totalPages]
  have hsp : entries.length / 2 < entries.length := by omega
  have hpe : entries[entries.length / 2] = pe := by
    rw [List.get?_eq_getElem?, List.getElem?_eq_getElem hsp, Option.some.injEq] at hmid
    exact hmid
  have hkey : ∀ q ∈ entries.take (entries.length / 2), q.key < pe.key := by
    intro q hq
    obtain ⟨i, hi, hget⟩ := List.getElem_of_mem hq
    have hilt : i < entries.length / 2 := by
      simp [List.length_take] at hi
      omega
    rw [List.getElem_take] at hget
    have hpair := List.pairwise_iff_getElem.mp hsorted i (entries.length / 2)
      (by omega) hsp hilt
    rw [hget, hpe] at hpair
    exact hpair
  have hkey2 : ∀ q ∈ entries.drop (entries.length / 2 + 1), pe.key < q.key := by
    intro q hq
    obtain ⟨i, hi, hget⟩ := List.getElem_of_mem hq
    have hlen : i < entries.length - (entries.length / 2 + 1) := by
      simpa [List.length_drop] using hi
    rw [List.getElem_drop] at hget
    have hpair := List.pairwise_iff_getElem.mp hsorted (entries.length / 2)
      (entries.length / 2 + 1 + i) hsp (by omega) (by omega)
    rw [hget, hpe] at hpair
    exact hpair
  refine ⟨hmain, ?_, ?_, ?_, ?_, ?_, ?_⟩
  · rw [hmain]
    simp only [PagerState.readPage_eq_ok, PagerState.totalPages]
    rw [List.getElem?_set_self (h := by simp; omega)]
  · rw [hmain]
    simp only [PagerState.readPage_eq_ok, PagerState.totalPages]
    rw [List.getElem?_set_ne (by omega : pageNum ≠ s.pages.length)]
    rw [List.getElem?_set_self (h := by simp)]
  · intro hmem
    rw [List.mem_map] at hmem
    obtain ⟨q, hq, hqkey⟩ := hmem
    exact absurd (hqkey ▸ hkey q hq) (lt_irrefl _)
  · intro hmem
    rw [List.mem_map] at hmem
    obtain ⟨q, hq, hqkey⟩ := hmem
    exact absurd (hqkey ▸ hkey2 q hq) (lt_irrefl _)
  · intro n hn hne
    rw [hmain]
    have hn2 : n < s.pages.length := hn
    have hx : (((s.pages ++ [Page.unused]).set s.totalPages
        (Page.internal pe.childPageNum (entries.drop (entries.length / 2 + 1)))).set pageNum
        (Page.internal lm (entries.take (entries.length / 2))))[n]? =
        s.pages[n]? := by
      rw [List.getElem?_set_ne (fun hc => hne hc.symm),
        List.getElem?_set_ne (show s.totalPages ≠ n from fun hc => by
          rw [PagerState.totalPages] at hc; omega),
        List.getElem?_append_left hn2]
    have hg1 : (PagerState.mk (((s.pages ++ [Page.unused]).set s.totalPages
        (Page.internal pe.childPageNum (entries.drop (entries.length / 2 + 1)))).set pageNum
        (Page.internal lm (entries.take (entries.length / 2))))
        s.schemaPage).readPage n = .ok (s.pages.get ⟨n, hn2⟩) := by
      rw [PagerState.readPage_mk, hx]
      exact List.getElem?_eq_getElem hn2
    have hg2 : s.readPage n = .ok (s.pages.get ⟨n, hn2⟩) := by
      rw [PagerState.readPage_eq_ok]
      exact List.getElem?_eq_getElem hn2
    rw [hg1, hg2]
  · rw [hmain]
    simp [PagerState.totalPages]

/-- Witness for C3 on a root internal node with five routing keys. -/
theorem splitInternalNode_spec_witness :
    BTree.splitInternalNode
      ⟨[Page.headerP, Page.schemaP [], Page.unused, Page.unused, Page.unused,
        Page.unused, Page.unused, Page.unused,
        Page.internal 2 [⟨10, 3⟩, ⟨20, 4⟩, ⟨30, 5⟩, ⟨40, 6⟩, ⟨50, 7⟩]], 1⟩ 8 =
      (⟨[Page.headerP, Page.schemaP [], Page.unused, Page.unused, Page.unused,
          Page.unused, Page.unused, Page.unused,
          Page.internal 2 [⟨10, 3⟩, ⟨20, 4⟩],
          Page.internal 5 [⟨40, 6⟩, ⟨50, 7⟩]], 1⟩,
        .ok (30, 9)) :=
  (splitInternalNode_spec
    ⟨[Page.headerP, Page.schemaP [], Page.unused, Page.unused, Page.unused,
      Page.unused, Page.unused, Page.unused,
      Page.internal 2 [⟨10, 3⟩, ⟨20, 4⟩, ⟨30, 5⟩, ⟨40, 6⟩, ⟨50, 7⟩]], 1⟩ 8 2
    [⟨10, 3⟩, ⟨20, 4⟩, ⟨30, 5⟩, ⟨40, 6⟩, ⟨50, 7⟩] ⟨30, 5⟩
    (by rw [PagerState.readPage_mk]; rfl) (by decide) rfl (by decide)).1

/-! ## C7: unknown column in a WHERE clause -/

/-- A WHERE entry whose column resolves to no table column makes the
row predicate false for every row. -/
theorem whereMatch_eq_false (allColumnNames : List String)
    (conds : List (String × WhereCondition)) (record : RowRecord)
    (col : String) (cond : WhereCondition)
    (hmem : (col, cond) ∈ conds)
    (hun : findColumn allColumnNames col = none) :
    whereMatch allColumnNames conds record = false := by
  induction conds with
  | nil => cases hmem
  | cons hd rest ih =>
    obtain ⟨c0, w0⟩ := hd
    simp only [whereMatch]
    rcases List.mem_cons.mp hmem with heq | hmem2
    · cases heq
      simp [hun]
    · cases hf : findColumn allColumnNames c0 with
      | none => simp
      | some actualCol =>
        simp only
        split
        · exact ih hmem2
        · rfl

/-- **C7** (counterexample): `executeSelect` on a one-row table with a
WHERE predicate naming the non-existent column `bogus` is not
rejected: it succeeds, returning zero rows.  The source's row filter
returns `false` when `allColumnNames.find` misses
(`if (!actualCol) return false;`), so the unknown column silently
filters out every row instead of raising an error. -/
theorem executeSelect_unknown_where_column_counterexample :
    executeSelect
      ⟨⟨[Page.headerP,
          Page.schemaP [⟨"users", [⟨"id", .INTEGER, [.PRIMARY_KEY]⟩], 2⟩],
          Page.leaf 0 [⟨1, [.intV 1]⟩]], 1⟩,
        [("users", ⟨"users", [⟨"id", .INTEGER, [.PRIMARY_KEY]⟩], 2⟩)],
        [("users", 2)]⟩
      ⟨"users", ["*"], [("bogus", ⟨.eq, .num 1⟩)]⟩ =
      QueryResult.ok "0 row(s) found" (some ["id"]) (some []) := rfl

/-- **C7** (amended): for every SELECT whose WHERE clause contains a
predicate on a column name matching no column of the target table
(case-insensitively), provided the table and its tree exist, the scan
succeeds and the projected columns resolve, the query is *not*
rejected: the unknown column makes the row predicate false for every
row, so the query succeeds with zero rows. -/
theorem executeSelect_unknown_where_column_yields_no_rows
    (db : Database) (stmt : SelectStatement) (schema : TableSchema)
    (root : Nat) (scanData : List BTreeRecord) (col : String)
    (cond : WhereCondition)
    (h1 : db.tables.lookup (lowerStr stmt.tableName) = some schema)
    (h2 : db.btreeRoots.lookup (lowerStr stmt.tableName) = some root)
    (h3 : BTree.scan db.pager root = .ok scanData)
    (h4 : (col, cond) ∈ stmt.whereClauses)
    (h5 : findColumn (schema.columns.map (fun d => d.name)) col = none)
    (h6 : stmt.columns = ["*"] ∨
      firstBadColumn (schema.columns.map (fun d => d.name))
        (selectedColumnsFor (schema.columns.map (fun d => d.name))
          stmt.columns) = none) :
    executeSelect db stmt =
      QueryResult.ok "0 row(s) found"
        (some (selectedColumnsFor (schema.columns.map (fun d => d.name))
          stmt.columns))
        (some []) := by
  have hwm : ∀ record, whereMatch (schema.columns.map (fun d => d.name))
      stmt.whereClauses record = false :=
    fun record =>
      whereMatch_eq_false (schema.columns.map (fun d => d.name))
        stmt.whereClauses record col cond h4 h5
  have hne : stmt.whereClauses ≠ [] := List.ne_nil_of_mem h4
  have hfil : filteredRows schema stmt scanData = [] := by
    rw [filteredRows, if_pos hne]
    simp [hwm]
  have hproj : projectRows schema stmt scanData = [] := by
    rw [projectRows, hfil]
    rfl
  have hsel : (if stmt.columns = ["*"] then none
      else firstBadColumn (schema.columns.map (fun d => d.name))
        (selectedColumnsFor (schema.columns.map (fun d => d.name))
          stmt.columns)) = (none : Option String) := by
    by_cases hstar : stmt.columns = ["*"]
    · rw [if_pos hstar]
    · rw [if_neg hstar]
      exact h6.resolve_left hstar
  simp only [executeSelect, h1, h2, h3, hsel]
  rw [hproj]
  rfl

/-- Witness for the amended C7 theorem on a concrete database. -/
theorem executeSelect_unknown_where_column_yields_no_rows_witness :
    executeSelect
      ⟨⟨[Page.headerP,
          Page.schemaP [⟨"users", [⟨"id", .INTEGER, [.PRIMARY_KEY]⟩], 2⟩],
          Page.leaf 0 [⟨1, [.intV 1]⟩]], 1⟩,
        [("users", ⟨"users", [⟨"id", .INTEGER, [.PRIMARY_KEY]⟩], 2⟩)],
        [("users", 2)]⟩
      ⟨"users", ["id"], [("nope", ⟨.gt, .num 0⟩)]⟩ =
      QueryResult.ok "0 row(s) found" (some ["id"]) (some []) :=
  executeSelect_unknown_where_column_yields_no_rows
    ⟨⟨[Page.headerP,
        Page.schemaP [⟨"users", [⟨"id", .INTEGER, [.PRIMARY_KEY]⟩], 2⟩],
        Page.leaf 0 [⟨1, [.intV 1]⟩]], 1⟩,
      [("users", ⟨"users", [⟨"id", .INTEGER, [.PRIMARY_KEY]⟩], 2⟩)],
      [("users", 2)]⟩
    ⟨"users", ["id"], [("nope", ⟨.gt, .num 0⟩)]⟩
    ⟨"users", [⟨"id", .INTEGER, [.PRIMARY_KEY]⟩], 2⟩ 2 [⟨1, [.intV 1]⟩]
    "nope" ⟨.gt, .num 0⟩ rfl rfl rfl (by decide) rfl (Or.inr rfl)

/-! ## C10: a catalog-write failure after a root change is swallowed -/

/-- **C10**: for every INSERT whose tree insertion succeeds and changes
the root page number, `executeInsert` returns the success result
`1 row inserted` with only the *state* component of `saveSchema`: the
error/success component of the catalog rewrite is discarded, so a
failing catalog page write after a root promotion is never surfaced to
the caller. -/
theorem executeInsert_discards_saveSchema_result
    (db : Database) (stmt : InsertStatement) (schema : TableSchema)
    (root : Nat) (values : List ColumnValue) (keyOpt : Option Int)
    (keyValue : Int) (p : PagerState) (newRoot : Nat)
    (h1 : db.tables.lookup (lowerStr stmt.tableName) = some schema)
    (h2 : db.btreeRoots.lookup (lowerStr stmt.tableName) = some root)
    (h3 : stmt.columns.length = stmt.values.length)
    (h4 : buildValues stmt.tableName schema
      (List.replicate schema.columns.length .nullV) none
      (stmt.columns.zip stmt.values) = .ok (values, keyOpt))
    (h5 : notNullViolation schema.columns values = none)
    (h6 : resolveKey db root keyOpt = .ok keyValue)
    (h7 : BTree.insert db.pager root ⟨keyValue, values⟩ = (p, .ok newRoot))
    (h8 : schema.rootPageNum ≠ newRoot) :
    executeInsert db stmt =
      ((saveSchema (Database.mk p
          (setSchemaRoot db.tables (lowerStr stmt.tableName) newRoot)
          (setRoot db.btreeRoots (lowerStr stmt.tableName) newRoot))).1,
        QueryResult.ok "1 row inserted" none none) := by
  simp only [executeInsert, h1, h2, h4, h5, h6, h7]
  rw [if_neg (by simp [h3]), if_pos h8]

/-- `propagateSplit` on an empty path promotes a new root
(one unfolding of the well-founded recursion). -/
theorem propagateSplit_nil (s : PagerState) (rootPageNum : Nat)
    (promotedKey : Int) (newChildPageNum : Nat) :
    BTree.propagateSplit s rootPageNum [] promotedKey newChildPageNum =
      BTree.createNewRoot s rootPageNum promotedKey newChildPageNum := by
  rw [BTree.propagateSplit]
  rfl

/-- Witness for C10: a full root leaf (keys 1–4) under a database
whose catalog page number 99 is out of range.  Inserting key 5 splits
the root and promotes a new one, `saveSchema` genuinely fails (second
conjunct), yet the INSERT reports `1 row inserted` with the failure
discarded (first conjunct). -/
theorem executeInsert_discards_saveSchema_result_witness :
    executeInsert
      ⟨⟨[Page.leaf 0 [⟨1, [.intV 1]⟩, ⟨2, [.intV 2]⟩, ⟨3, [.intV 3]⟩,
          ⟨4, [.intV 4]⟩]], 99⟩,
        [("t", ⟨"t", [⟨"id", .INTEGER, [.PRIMARY_KEY]⟩], 0⟩)], [("t", 0)]⟩
      ⟨"t", ["id"], [.num 5]⟩ =
      (Database.mk
        ⟨[Page.leaf 1 [⟨1, [.intV 1]⟩, ⟨2, [.intV 2]⟩, ⟨3, [.intV 3]⟩],
          Page.leaf 0 [⟨4, [.intV 4]⟩, ⟨5, [.intV 5]⟩],
          Page.internal 0 [⟨4, 1⟩]], 99⟩
        [("t", ⟨"t", [⟨"id", .INTEGER, [.PRIMARY_KEY]⟩], 2⟩)] [("t", 2)],
        QueryResult.ok "1 row inserted" none none) ∧
    (saveSchema (Database.mk
        ⟨[Page.leaf 1 [⟨1, [.intV 1]⟩, ⟨2, [.intV 2]⟩, ⟨3, [.intV 3]⟩],
          Page.leaf 0 [⟨4, [.intV 4]⟩, ⟨5, [.intV 5]⟩],
          Page.internal 0 [⟨4, 1⟩]], 99⟩
        [("t", ⟨"t", [⟨"id", .INTEGER, [.PRIMARY_KEY]⟩], 2⟩)] [("t", 2)])).2 =
      .error "Page 99 out of range (0..2)" := by
  have hins : BTree.insert
      ⟨[Page.leaf 0 [⟨1, [.intV 1]⟩, ⟨2, [.intV 2]⟩, ⟨3, [.intV 3]⟩,
        ⟨4, [.intV 4]⟩]], 99⟩ 0 ⟨5, [.intV 5]⟩ =
      (⟨[Page.leaf 1 [⟨1, [.intV 1]⟩, ⟨2, [.intV 2]⟩, ⟨3, [.intV 3]⟩],
          Page.leaf 0 [⟨4, [.intV 4]⟩, ⟨5, [.intV 5]⟩],
          Page.internal 0 [⟨4, 1⟩]], 99⟩, .ok 2) := by
    have hstep : BTree.insert
        ⟨[Page.leaf 0 [⟨1, [.intV 1]⟩, ⟨2, [.intV 2]⟩, ⟨3, [.intV 3]⟩,
          ⟨4, [.intV 4]⟩]], 99⟩ 0 ⟨5, [.intV 5]⟩ =
        BTree.propagateSplit
          ⟨[Page.leaf 1 [⟨1, [.intV 1]⟩, ⟨2, [.intV 2]⟩, ⟨3, [.intV 3]⟩],
            Page.leaf 0 [⟨4, [.intV 4]⟩, ⟨5, [.intV 5]⟩]], 99⟩ 0 [] 4 1 := rfl
    rw [hstep, propagateSplit_nil]
    rfl
  refine ⟨?main, rfl⟩
  exact executeInsert_discards_saveSchema_result
    ⟨⟨[Page.leaf 0 [⟨1, [.intV 1]⟩, ⟨2, [.intV 2]⟩, ⟨3, [.intV 3]⟩,
        ⟨4, [.intV 4]⟩]], 99⟩,
      [("t", ⟨"t", [⟨"id", .INTEGER, [.PRIMARY_KEY]⟩], 0⟩)], [("t", 0)]⟩
    ⟨"t", ["id"], [.num 5]⟩ ⟨"t", [⟨"id", .INTEGER, [.PRIMARY_KEY]⟩], 0⟩
    0 [.intV 5] (some 5) 5
    ⟨[Page.leaf 1 [⟨1, [.intV 1]⟩, ⟨2, [.intV 2]⟩, ⟨3, [.intV 3]⟩],
      Page.leaf 0 [⟨4, [.intV 4]⟩, ⟨5, [.intV 5]⟩],
      Page.internal 0 [⟨4, 1⟩]], 99⟩ 2
    rfl rfl rfl rfl rfl rfl hins (by decide)

/-! ## C4: duplicate-key insert is rejected before any write -/

/-- `findChildPage` takes the leftmost child when the key is below the
first routing key (or there are no routing keys). -/
theorem findChildPageAux_head (lm : Nat) (entries : List InternalEntry)
    (k : Int) (h : ∀ e, entries.head? = some e → k < e.key) :
    BTree.findChildPageAux lm entries k = lm := by
  cases entries with
  | nil => rfl
  | cons e rest =>
    simp only [BTree.findChildPageAux]
    rw [if_pos (h e rfl)]

/-- `findChildPage` takes the child behind entry `i` when the key lies
in that child's interval `[kᵢ, kᵢ₊₁)`. -/
theorem findChildPageAux_pick (entries : List InternalEntry) (lm : Nat)
    (k : Int) (i : Nat) (hlen : i < entries.length)
    (hsorted : entries.Chain' (fun a b => a.key < b.key))
    (hlo : (entries.get ⟨i, hlen⟩).key ≤ k)
    (hhi : ∀ h2 : i + 1 < entries.length, k < (entries.get ⟨i + 1, h2⟩).key) :
    BTree.findChildPageAux lm entries k = (entries.get ⟨i, hlen⟩).childPageNum := by
  induction entries generalizing lm i with
  | nil => exact absurd hlen (by simp)
  | cons e rest ih =>
    cases i with
    | zero =>
      have hek : e.key ≤ k := hlo
      simp only [BTree.findChildPageAux]
      rw [if_neg (not_lt.mpr hek)]
      cases rest with
      | nil => rfl
      | cons e2 r2 =>
        apply findChildPageAux_head
        intro e0 he0
        have h3 : k < e2.key := hhi (by simp)
        cases he0
        exact h3
    | succ j =>
      haveI : IsTrans InternalEntry (fun a b => a.key < b.key) :=
        ⟨fun a b d hab hbd => lt_trans hab hbd⟩
      have hpw : List.Pairwise (fun a b => a.key < b.key) (e :: rest) :=
        List.chain'_iff_pairwise.mp hsorted
      have hj : j < rest.length := by simpa using hlen
      have hmem : rest.get ⟨j, hj⟩ ∈ rest := List.get_mem rest j hj
      have hek : e.key < (rest.get ⟨j, hj⟩).key :=
        (List.pairwise_cons.mp hpw).1 _ hmem
      have hjk : (rest.get ⟨j, hj⟩).key ≤ k := hlo
      have hke : ¬ k < e.key := not_lt.mpr (le_of_lt (lt_of_lt_of_le hek hjk))
      simp only [BTree.findChildPageAux]
      rw [if_neg hke]
      exact ih e.childPageNum j hj hsorted.tail hjk
        (fun h2 => hhi (by simpa using h2))

/-- Weaken the bounds of the leftmost child back to the node's. -/
theorem keyInBounds_of_lmHi (entries : List InternalEntry)
    (lo hi : Option Int) (k : Int)
    (hb : keyInBounds lo (lmHi entries hi) k)
    (hkeys : ∀ e ∈ entries, keyInBounds lo hi e.key) :
    keyInBounds lo hi k := by
  refine ⟨hb.1, fun h hh => ?upper⟩
  cases hhead : entries.head? with
  | none => exact hb.2 h (by simp only [lmHi, hhead]; exact hh)
  | some e1 =>
    have hk1 : k < e1.key := hb.2 e1.key (by simp only [lmHi, hhead])
    have he1 : e1 ∈ entries := List.mem_of_mem_head? (hhead ▸ rfl)
    exact lt_trans hk1 ((hkeys e1 he1).2 h hh)

/-- Weaken the bounds of the child behind entry `i` back to the node's. -/
theorem keyInBounds_of_entry (entries : List InternalEntry)
    (lo hi : Option Int) (k : Int) (i : Nat) (hlen : i < entries.length)
    (hb : keyInBounds (some (entries.get ⟨i, hlen⟩).key) (hiOf entries i hi) k)
    (hkeys : ∀ e ∈ entries, keyInBounds lo hi e.key) :
    keyInBounds lo hi k := by
  have hmem : entries.get ⟨i, hlen⟩ ∈ entries := List.get_mem entries i hlen
  have hik : (entries.get ⟨i, hlen⟩).key ≤ k := hb.1 _ rfl
  refine ⟨fun l hl => le_trans ((hkeys _ hmem).1 l hl) hik, fun h hh => ?upper⟩
  cases hnext : entries.get? (i + 1) with
  | none => exact hb.2 h (by simp only [hiOf, hnext]; exact hh)
  | some e2 =>
    have hk2 : k < e2.key := hb.2 e2.key (by simp only [hiOf, hnext])
    have he2 : e2 ∈ entries := List.get?_mem hnext
    exact lt_trans hk2 ((hkeys e2 he2).2 h hh)

/-- Every key present in a well-formed subtree lies within that
subtree's key bounds. -/
theorem keyIn_bounds (s : PagerState) (ht pageNum : Nat)
    (lo hi : Option Int) (k : Int)
    (hwf : SubWF s ht pageNum lo hi) (hin : KeyIn s k pageNum) :
    keyInBounds lo hi k := by
  induction hwf with
  | leafWF ht2 pn sib cells lo2 hi2 hread hchain hbounds =>
    cases hin with
    | inLeaf pn2 sib2 cells2 hread2 hex =>
      rw [hread] at hread2
      injection hread2 with hp
      injection hp with h1 h2
      subst h2
      obtain ⟨d, hd, hdk⟩ := hex
      rw [← hdk]
      exact hbounds d hd
    | inChild pn2 lm2 entries2 child hread2 hchild hinc =>
      rw [hread] at hread2
      simp at hread2
  | internalWF ht2 pn lm entries lo2 hi2 hread hchain hkeys hlmwf hchildwf ihlm ihchild =>
    cases hin with
    | inLeaf pn2 sib2 cells2 hread2 hex =>
      rw [hread] at hread2
      simp at hread2
    | inChild pn2 lm2 entries2 child hread2 hchild hinc =>
      rw [hread] at hread2
      injection hread2 with hp
      injection hp with h1 h2
      subst h1
      subst h2
      rcases hchild with hlm | ⟨e, hemem, heq⟩
      · subst hlm
        exact keyInBounds_of_lmHi entries lo2 hi2 k (ihlm hinc) hkeys
      · obtain ⟨⟨i, hlen⟩, rfl⟩ := List.mem_iff_get.mp hemem
        subst heq
        exact keyInBounds_of_entry entries lo2 hi2 k i hlen
          (ihchild i hlen hinc) hkeys

/-- In a well-formed tree, descending with a key that is present
somewhere reaches a leaf that contains it, within the standard fuel. -/
theorem findLeafPage_finds_key (s : PagerState) (ht pageNum : Nat)
    (lo hi : Option Int) (k : Int)
    (hwf : SubWF s ht pageNum lo hi) (hin : KeyIn s k pageNum) :
    ∀ fuel acc, ht < fuel →
      ∃ leafPage path sib cells,
        BTree.findLeafPage s fuel pageNum k acc = .ok (leafPage, path) ∧
        s.readPage leafPage = .ok (.leaf sib cells) ∧
        ∃ d ∈ cells, d.key = k := by
  induction hwf with
  | leafWF ht2 pn sib cells lo2 hi2 hread hchain hbounds =>
    intro fuel acc hfuel
    cases fuel with
    | zero => omega
    | succ f =>
      refine ⟨pn, acc, sib, cells, ?hfind, hread, ?hex⟩
      · simp only [BTree.findLeafPage, hread]
      · cases hin with
        | inLeaf pn2 sib2 cells2 hread2 hex =>
          rw [hread] at hread2
          injection hread2 with hp
          injection hp with h1 h2
          subst h2
          exact hex
        | inChild pn2 lm2 entries2 child hread2 hchild hinc =>
          rw [hread] at hread2
          simp at hread2
  | internalWF ht2 pn lm entries lo2 hi2 hread hchain hkeys hlmwf hchildwf ihlm ihchild =>
    intro fuel acc hfuel
    cases fuel with
    | zero => omega
    | succ f =>
      have hf : ht2 < f := by omega
      cases hin with
      | inLeaf pn2 sib2 cells2 hread2 hex =>
        rw [hread] at hread2
        simp at hread2
      | inChild pn2 lm2 entries2 child hread2 hchild hinc =>
        rw [hread] at hread2
        injection hread2 with hp
        injection hp with h1 h2
        subst h1
        subst h2
        rcases hchild with hlm | ⟨e, hemem, heq⟩
        · subst hlm
          have hcb := keyIn_bounds s ht2 child lo2 (lmHi entries hi2) k hlmwf hinc
          have hce : BTree.findChildPage child entries k = child := by
            apply findChildPageAux_head
            intro e1 he1
            exact hcb.2 e1.key (by simp only [lmHi, he1])
          obtain ⟨L, path, sib, cells, hfind, hrl, hex⟩ :=
            ihlm hinc f (acc ++ [pn]) hf
          refine ⟨L, path, sib, cells, ?f1, hrl, hex⟩
          simp only [BTree.findLeafPage, hread]
          rw [hce]
          exact hfind
        · obtain ⟨⟨i, hlen⟩, rfl⟩ := List.mem_iff_get.mp hemem
          subst heq
          have hcb := keyIn_bounds s ht2 _ _ _ k (hchildwf i hlen) hinc
          have hce : BTree.findChildPage lm entries k =
              (entries.get ⟨i, hlen⟩).childPageNum := by
            apply findChildPageAux_pick entries lm k i hlen hchain
            · exact hcb.1 _ rfl
            · intro h2
              apply hcb.2
              simp only [hiOf]
              rw [List.get?_eq_get h2]
          obtain ⟨L, path, sib, cells, hfind, hrl, hex⟩ :=
            ihchild i hlen hinc f (acc ++ [pn]) hf
          refine ⟨L, path, sib, cells, ?f2, hrl, hex⟩
          simp only [BTree.findLeafPage, hread]
          rw [hce]
          exact hfind

/-- **C4**: inserting a key already present anywhere in a tree that
satisfies the routing and leaf-ordering invariants fails with the
duplicate-key error and returns the state unchanged — the duplicate is
detected before the first `writePage` — so every page read, a
subsequent `scan`, and a subsequent `search` agree with the
pre-insert state. -/
theorem insert_duplicate_key_unchanged (s : PagerState) (root ht : Nat)
    (record : BTreeRecord)
    (hwf : SubWF s ht root none none)
    (hht : ht ≤ s.totalPages)
    (hin : KeyIn s record.key root) :
    BTree.insert s root record =
      (s, .error ("Duplicate key: " ++ toString record.key)) ∧
    (∀ n, (BTree.insert s root record).1.readPage n = s.readPage n) ∧
    BTree.scan (BTree.insert s root record).1 root = BTree.scan s root ∧
    (∀ k, BTree.search (BTree.insert s root record).1 root k =
      BTree.search s root k) := by
  obtain ⟨L, path, sib, cells, hfind, hrl, d, hd, hdk⟩ :=
    findLeafPage_finds_key s ht root none none record.key hwf hin
      (s.totalPages + 1) [] (by omega)
  have hmain : BTree.insert s root record =
      (s, .error ("Duplicate key: " ++ toString record.key)) := by
    simp only [BTree.insert, hfind, hrl]
    rw [if_pos]
    exact List.any_eq_true.mpr ⟨d, hd, by rw [hdk]; exact beq_self_eq_true _⟩
  refine ⟨hmain, fun n => ?r2, ?r3, fun k => ?r4⟩
  · rw [hmain]
  · rw [hmain]
  · rw [hmain]

/-- Witness for C4: inserting key 2 into a single-leaf tree already
holding keys 1 and 2 fails and leaves the state untouched. -/
theorem insert_duplicate_key_unchanged_witness :
    BTree.insert ⟨[Page.leaf 0 [⟨1, [.intV 1]⟩, ⟨2, [.intV 2]⟩]], 0⟩ 0
      ⟨2, [.textV "x"]⟩ =
      (⟨[Page.leaf 0 [⟨1, [.intV 1]⟩, ⟨2, [.intV 2]⟩]], 0⟩,
        .error "Duplicate key: 2") :=
  (insert_duplicate_key_unchanged
    ⟨[Page.leaf 0 [⟨1, [.intV 1]⟩, ⟨2, [.intV 2]⟩]], 0⟩ 0 0
    ⟨2, [.textV "x"]⟩
    (SubWF.leafWF 0 0 0 [⟨1, [.intV 1]⟩, ⟨2, [.intV 2]⟩] none none rfl
      (List.chain'_pair.mpr (by decide))
      (fun d hd => And.intro (fun l hl => nomatch hl) (fun h hh => nomatch hh)))
    (by decide)
    (KeyIn.inLeaf 0 0 [⟨1, [.intV 1]⟩, ⟨2, [.intV 2]⟩] rfl
      ⟨⟨2, [.intV 2]⟩, by simp, rfl⟩)).1

/-! ## C1: reachable-state invariants -/

/-! ### State-update micro-lemmas -/

theorem readPage_write_self (s : PagerState) (n : Nat) (pg : Page)
    (h : n < s.pages.length) :
    ((s.writePage n pg).1).readPage n = .ok pg := by
  rw [PagerState.writePage_lt s n pg h, PagerState.readPage_eq_ok]
  rw [List.getElem?_set_self (h := by simpa using h)]

theorem readPage_write_other (s : PagerState) (n m : Nat) (pg : Page)
    (hne : m ≠ n) :
    ((s.writePage n pg).1).readPage m = s.readPage m := by
  unfold PagerState.writePage
  split_ifs with h
  · show (PagerState.mk (s.pages.set n pg) s.schemaPage).readPage m =
      s.readPage m
    unfold PagerState.readPage
    simp only [List.length_set]
    split_ifs with h2
    · congr 1
      simp only [List.get_eq_getElem]
      exact List.getElem_set_ne (Ne.symm hne) _
    · rfl
  · rfl

theorem totalPages_write (s : PagerState) (n : Nat) (pg : Page) :
    ((s.writePage n pg).1).totalPages = s.totalPages := by
  unfold PagerState.writePage
  split_ifs with h
  · simp [PagerState.totalPages]
  · rfl

theorem readPage_allocate_old (s : PagerState) (m : Nat)
    (hm : m < s.pages.length) :
    ((s.allocatePage).1).readPage m = s.readPage m := by
  unfold PagerState.allocatePage PagerState.readPage
  simp only [List.length_append, List.length_cons, List.length_nil]
  rw [dif_pos (by omega), dif_pos hm]
  congr 1
  simp only [List.get_eq_getElem]
  exact List.getElem_append_left hm

theorem readPage_allocate_new (s : PagerState) :
    ((s.allocatePage).1).readPage s.totalPages = .ok .unused := by
  rw [PagerState.readPage_eq_ok]
  show (s.pages ++ [Page.unused])[s.pages.length]? = some Page.unused
  rw [List.getElem?_append_right (le_refl _)]
  simp

theorem totalPages_allocate (s : PagerState) :
    ((s.allocatePage).1).totalPages = s.totalPages + 1 := by
  simp [PagerState.allocatePage, PagerState.totalPages]

/-! ### List utilities -/

theorem flatten_map_range_succ_left {α : Type} (F : Nat → List α) (n : Nat) :
    ((List.range (n + 1)).map F).flatten =
      F 0 ++ ((List.range n).map (fun t => F (t + 1))).flatten := by
  rw [List.range_succ_eq_map]
  simp [List.map_map, Function.comp_def]

theorem flatten_map_range_snoc {α : Type} (F : Nat → List α) (n : Nat) :
    ((List.range (n + 1)).map F).flatten =
      ((List.range n).map F).flatten ++ F n := by
  rw [List.range_succ]
  simp

theorem mem_flatten_range {α : Type} (F : Nat → List α) (n : Nat) (x : α) :
    x ∈ ((List.range n).map F).flatten ↔ ∃ i, i < n ∧ x ∈ F i := by
  simp only [List.mem_flatten, List.mem_map, List.mem_range]
  constructor
  · rintro ⟨l, ⟨i, hi, rfl⟩, hx⟩
    exact ⟨i, hi, hx⟩
  · rintro ⟨i, hi, hx⟩
    exact ⟨F i, ⟨i, hi, rfl⟩, hx⟩

theorem sublist_flatten_range {α : Type} (A B : Nat → List α) (n : Nat)
    (h : ∀ i, i < n → (A i).Sublist (B i)) :
    (((List.range n).map A).flatten).Sublist
      (((List.range n).map B).flatten) := by
  induction n with
  | zero => simp
  | succ m ih =>
    rw [flatten_map_range_snoc, flatten_map_range_snoc]
    exact (ih (fun i hi => h i (by omega))).append (h m (by omega))

theorem flatten_range_split {α : Type} (F : Nat → List α) (n i : Nat)
    (h : i < n) :
    ((List.range n).map F).flatten =
      ((List.range i).map F).flatten ++ F i ++
        ((List.range (n - i - 1)).map (fun t => F (i + 1 + t))).flatten := by
  obtain ⟨m, rfl⟩ : ∃ m, n = i + (m + 1) := ⟨n - i - 1, by omega⟩
  have hsub : i + (m + 1) - i - 1 = m := by omega
  rw [hsub, List.range_add, List.map_append, List.flatten_append,
    List.map_map, List.range_succ_eq_map, List.map_cons, List.flatten_cons,
    List.map_map]
  have hcomp : (F ∘ fun x => i + x) ∘ Nat.succ = fun t => F (i + 1 + t) := by
    funext t
    simp only [Function.comp_apply]
    congr 1
    omega
  rw [hcomp]
  simp only [Function.comp_apply, Nat.add_zero, List.append_assoc]

theorem getq_insertAt {α : Type} (l : List α) (x : α) (m : Nat)
    (hm : m ≤ l.length) (j : Nat) :
    (l.take m ++ x :: l.drop m).get? j =
      if j < m then l.get? j
      else if j = m then some x
      else l.get? (j - 1) := by
  induction l generalizing m j with
  | nil =>
    obtain rfl : m = 0 := by simpa using hm
    cases j <;> simp
  | cons a l2 ih =>
    cases m with
    | zero =>
      cases j <;> simp
    | succ m2 =>
      cases j with
      | zero => simp
      | succ j2 =>
        simp only [List.take_succ_cons, List.drop_succ_cons, List.cons_append,
          List.get?_cons_succ]
        rw [ih m2 (by simpa using hm) j2]
        by_cases h1 : j2 < m2
        · simp [if_pos h1, if_pos (show j2 + 1 < m2 + 1 from by omega)]
        · by_cases h2 : j2 = m2
          · subst h2
            simp [if_neg h1, if_neg (show ¬ j2 + 1 < j2 + 1 from by omega)]
          · simp only [if_neg h1, if_neg h2,
              if_neg (show ¬ j2 + 1 < m2 + 1 from by omega),
              if_neg (show ¬ j2 + 1 = m2 + 1 from by omega)]
            obtain ⟨j3, rfl⟩ : ∃ j3, j2 = j3 + 1 := ⟨j2 - 1, by omega⟩
            simp

theorem length_insertAt {α : Type} (l : List α) (x : α) (m : Nat)
    (hm : m ≤ l.length) :
    (l.take m ++ x :: l.drop m).length = l.length + 1 := by
  simp
  omega

theorem chain_append_of_sep (xs ys : List Int)
    (hxs : xs.Chain' (fun a b => a < b))
    (hys : ys.Chain' (fun a b => a < b))
    (hsep : ∀ x ∈ xs, ∀ y ∈ ys, x < y) :
    (xs ++ ys).Chain' (fun a b => a < b) := by
  apply List.Chain'.append hxs hys
  intro x hx y hy
  exact hsep x (List.mem_of_mem_getLast? hx) y (List.mem_of_mem_head? hy)

/-! ### Basic `SubT` lemmas -/

theorem SubT.stable (s s2 : PagerState) (ht p : Nat) (lo hi : Option Int)
    (nodes : List Nat) (fringe : List FringeLeaf)
    (h : SubT s ht p lo hi nodes fringe)
    (hagree : ∀ n ∈ nodes, s2.readPage n = s.readPage n) :
    SubT s2 ht p lo hi nodes fringe := by
  induction h with
  | leafT ht2 p2 sib cells lo2 hi2 hread hchain hbounds =>
    exact SubT.leafT ht2 p2 sib cells lo2 hi2
      ((hagree p2 (by simp)).trans hread) hchain hbounds
  | internalT ht2 p2 lm entries lo2 hi2 nodesL fringeL nodesF fringeF hread
      hchain hkeys hlm hch ihlm ihch =>
    exact SubT.internalT ht2 p2 lm entries lo2 hi2 nodesL fringeL nodesF
      fringeF ((hagree p2 (by simp)).trans hread) hchain hkeys
      (ihlm (fun n hn => hagree n (by simp [hn])))
      (fun i hlen => ihch i hlen (fun n hn => hagree n (by
        simp only [List.mem_cons, List.mem_append, mem_flatten_range]
        exact Or.inr (Or.inr ⟨i, hlen, hn⟩))))

theorem SubT.mono (s : PagerState) (ht p : Nat) (lo hi : Option Int)
    (nodes : List Nat) (fringe : List FringeLeaf)
    (h : SubT s ht p lo hi nodes fringe) :
    ∀ ht2, ht ≤ ht2 → SubT s ht2 p lo hi nodes fringe := by
  induction h with
  | leafT ht2 p2 sib cells lo2 hi2 hread hchain hbounds =>
    exact fun ht3 _ => SubT.leafT ht3 p2 sib cells lo2 hi2 hread hchain hbounds
  | internalT ht2 p2 lm entries lo2 hi2 nodesL fringeL nodesF fringeF hread
      hchain hkeys hlm hch ihlm ihch =>
    intro ht3 hle
    cases ht3 with
    | zero => omega
    | succ ht4 =>
      exact SubT.internalT ht4 p2 lm entries lo2 hi2 nodesL fringeL nodesF
        fringeF hread hchain hkeys (ihlm ht4 (by omega))
        (fun i hlen => ihch i hlen ht4 (by omega))

theorem SubT.root_mem (s : PagerState) (ht p : Nat) (lo hi : Option Int)
    (nodes : List Nat) (fringe : List FringeLeaf)
    (h : SubT s ht p lo hi nodes fringe) : p ∈ nodes := by
  cases h <;> simp

theorem SubT.nodes_lt (s : PagerState) (ht p : Nat) (lo hi : Option Int)
    (nodes : List Nat) (fringe : List FringeLeaf)
    (h : SubT s ht p lo hi nodes fringe) :
    ∀ n ∈ nodes, n < s.totalPages := by
  induction h with
  | leafT ht2 p2 sib cells lo2 hi2 hread hchain hbounds =>
    intro n hn
    simp only [List.mem_singleton] at hn
    subst hn
    exact PagerState.readPage_lt _ _ _ hread
  | internalT ht2 p2 lm entries lo2 hi2 nodesL fringeL nodesF fringeF hread
      hchain hkeys hlm hch ihlm ihch =>
    intro n hn
    simp only [List.mem_cons, List.mem_append, mem_flatten_range] at hn
    rcases hn with rfl | hn | ⟨i, hi2, hn⟩
    · exact PagerState.readPage_lt _ _ _ hread
    · exact ihlm n hn
    · exact ihch i hi2 n hn

theorem SubT.fringe_pages_sublist (s : PagerState) (ht p : Nat)
    (lo hi : Option Int) (nodes : List Nat) (fringe : List FringeLeaf)
    (h : SubT s ht p lo hi nodes fringe) :
    (fringe.map (fun x => x.1)).Sublist nodes := by
  induction h with
  | leafT ht2 p2 sib cells lo2 hi2 hread hchain hbounds => simp
  | internalT ht2 p2 lm entries lo2 hi2 nodesL fringeL nodesF fringeF hread
      hchain hkeys hlm hch ihlm ihch =>
    rw [List.map_append, List.map_flatten, List.map_map]
    refine List.Sublist.cons _ (List.Sublist.append ihlm ?rest)
    have : (List.map (fun x => x.1)) ∘ fringeF =
        fun i => (fringeF i).map (fun x => x.1) := rfl
    rw [this]
    exact sublist_flatten_range _ _ _ (fun i hi2 => ihch i hi2)

theorem SubT.fringe_read (s : PagerState) (ht p : Nat) (lo hi : Option Int)
    (nodes : List Nat) (fringe : List FringeLeaf)
    (h : SubT s ht p lo hi nodes fringe) :
    ∀ x ∈ fringe, s.readPage x.1 = .ok (.leaf x.2.1 x.2.2) ∧
      x.2.2.Chain' (fun a b => a.key < b.key) ∧
      ∀ c ∈ x.2.2, keyInBounds lo hi c.key := by
  induction h with
  | leafT ht2 p2 sib cells lo2 hi2 hread hchain hbounds =>
    intro x hx
    simp only [List.mem_singleton] at hx
    subst hx
    exact ⟨hread, hchain, hbounds⟩
  | internalT ht2 p2 lm entries lo2 hi2 nodesL fringeL nodesF fringeF hread
      hchain hkeys hlm hch ihlm ihch =>
    intro x hx
    simp only [List.mem_append, mem_flatten_range] at hx
    rcases hx with hx | ⟨i, hil, hx⟩
    · obtain ⟨h1, h2, h3⟩ := ihlm x hx
      exact ⟨h1, h2, fun c hc =>
        keyInBounds_of_lmHi entries lo2 hi2 c.key (h3 c hc) hkeys⟩
    · obtain ⟨h1, h2, h3⟩ := ihch i hil x hx
      exact ⟨h1, h2, fun c hc =>
        keyInBounds_of_entry entries lo2 hi2 c.key i hil (h3 c hc) hkeys⟩

theorem fringeKeys_append (f1 f2 : List FringeLeaf) :
    fringeKeys (f1 ++ f2) = fringeKeys f1 ++ fringeKeys f2 := by
  simp [fringeKeys]

theorem fringeKeys_flatten_range (F : Nat → List FringeLeaf) (n : Nat) :
    fringeKeys (((List.range n).map F).flatten) =
      ((List.range n).map (fun i => fringeKeys (F i))).flatten := by
  induction n with
  | zero => simp [fringeKeys]
  | succ m ih =>
    rw [flatten_map_range_snoc, fringeKeys_append, ih, flatten_map_range_snoc]

/-- Keys of consecutively bounded blocks concatenate to a sorted list. -/
theorem keys_blocks_sorted (len : Nat) (K : Nat → List Int) (bnd : Nat → Int)
    (hi : Option Int)
    (hK : ∀ i, i < len → (K i).Chain' (fun a b => a < b))
    (hlo : ∀ i, i < len → ∀ k ∈ K i, bnd i ≤ k)
    (hup : ∀ i, i < len → ∀ k ∈ K i,
      (i + 1 < len → k < bnd (i + 1)) ∧ (∀ h, hi = some h → k < h))
    (hbnd : ∀ i j, i < j → j < len → bnd i < bnd j) :
    ∀ m j, j + m = len →
      ((((List.range m).map (fun t => K (j + t))).flatten).Chain'
        (fun a b => a < b)) ∧
      (∀ k ∈ ((List.range m).map (fun t => K (j + t))).flatten,
        (j < len → bnd j ≤ k) ∧ (∀ h, hi = some h → k < h)) := by
  intro m
  induction m with
  | zero =>
    intro j hj
    exact ⟨by simp, by simp⟩
  | succ m2 ih =>
    intro j hj
    have hfun : (fun t => K (j + (t + 1))) = fun t => K (j + 1 + t) := by
      funext t
      congr 1
      omega
    have hrw : ((List.range (m2 + 1)).map (fun t => K (j + t))).flatten =
        K j ++ ((List.range m2).map (fun t => K (j + 1 + t))).flatten := by
      rw [flatten_map_range_succ_left]
      simp only [Nat.add_zero]
      rw [hfun]
    rw [hrw]
    obtain ⟨ihc, ihb⟩ := ih (j + 1) (by omega)
    have hjlen : j < len := by omega
    constructor
    · apply chain_append_of_sep _ _ (hK j hjlen) ihc
      intro x hx y hy
      obtain ⟨t, ht, hyt⟩ := (mem_flatten_range _ _ _).mp hy
      have hj1 : j + 1 < len := by omega
      have h1 : x < bnd (j + 1) := (hup j hjlen x hx).1 hj1
      have h2 : bnd (j + 1) ≤ y := (ihb y hy).1 hj1
      omega
    · intro k hk
      rcases List.mem_append.mp hk with hk | hk
      · exact ⟨fun _ => hlo j hjlen k hk, fun h hh => (hup j hjlen k hk).2 h hh⟩
      · obtain ⟨hb1, hb2⟩ := ihb k hk
        refine ⟨fun _ => ?lo2, hb2⟩
        obtain ⟨t, ht, hkt⟩ := (mem_flatten_range _ _ _).mp hk
        have hj1 : j + 1 < len := by omega
        have h2 := hb1 hj1
        have h3 := hbnd j (j + 1) (by omega) hj1
        omega

/-- The keys of a well-formed subtree's fringe, in fringe order, are
strictly increasing and lie within the subtree's bounds. -/
theorem SubT.keys_sorted (s : PagerState) (ht p : Nat) (lo hi : Option Int)
    (nodes : List Nat) (fringe : List FringeLeaf)
    (h : SubT s ht p lo hi nodes fringe) :
    (fringeKeys fringe).Chain' (fun a b => a < b) ∧
    ∀ k ∈ fringeKeys fringe, keyInBounds lo hi k := by
  induction h with
  | leafT ht2 p2 sib cells lo2 hi2 hread hchain hbounds =>
    constructor
    · simp only [fringeKeys, List.map_cons, List.map_nil, List.flatten_cons,
        List.flatten_nil, List.append_nil]
      exact (List.chain'_map _).mpr hchain
    · intro k hk
      simp only [fringeKeys, List.map_cons, List.map_nil, List.flatten_cons,
        List.flatten_nil, List.append_nil, List.mem_map] at hk
      obtain ⟨d, hd, rfl⟩ := hk
      exact hbounds d hd
  | internalT ht2 p2 lm entries lo2 hi2 nodesL fringeL nodesF fringeF hread
      hchain hkeys hlm hch ihlm ihch =>
    have hpw : List.Pairwise (fun a b => a.key < b.key) entries := by
      haveI : IsTrans InternalEntry (fun a b => a.key < b.key) :=
        ⟨fun a b d hab hbd => lt_trans hab hbd⟩
      exact List.chain'_iff_pairwise.mp hchain
    obtain ⟨ihlmc, ihlmb⟩ := ihlm
    set bnd : Nat → Int :=
      fun i => (((entries.get? i).map (fun e => e.key)).getD 0) with hbnddef
    have hgetbnd : ∀ i (h3 : i < entries.length),
        bnd i = (entries.get ⟨i, h3⟩).key := by
      intro i h3
      rw [hbnddef]
      simp only [List.get?_eq_get h3]
      rfl
    have hK : ∀ i, i < entries.length →
        (fringeKeys (fringeF i)).Chain' (fun a b => a < b) :=
      fun i hi3 => (ihch i hi3).1
    have hlo : ∀ i, i < entries.length →
        ∀ k ∈ fringeKeys (fringeF i), bnd i ≤ k := by
      intro i hi3 k hk
      rw [hgetbnd i hi3]
      exact ((ihch i hi3).2 k hk).1 _ rfl
    have hup : ∀ i, i < entries.length → ∀ k ∈ fringeKeys (fringeF i),
        (i + 1 < entries.length → k < bnd (i + 1)) ∧
        (∀ hv, hi2 = some hv → k < hv) := by
      intro i hi3 k hk
      have hb := ((ihch i hi3).2 k hk).2
      constructor
      · intro h4
        rw [hgetbnd (i + 1) h4]
        exact hb _ (by simp only [hiOf, List.get?_eq_get h4])
      · intro hval hh
        by_cases h4 : i + 1 < entries.length
        · have hk4 : k < (entries.get ⟨i + 1, h4⟩).key :=
            hb _ (by simp only [hiOf, List.get?_eq_get h4])
          have hk5 : (entries.get ⟨i + 1, h4⟩).key < hval :=
            (hkeys _ (List.get_mem entries (i + 1) h4)).2 hval hh
          omega
        · have hnone : entries.get? (i + 1) = none :=
            List.get?_eq_none.mpr (by omega)
          exact hb hval (by simp only [hiOf, hnone]; exact hh)
    have hbnd : ∀ i j, i < j → j < entries.length → bnd i < bnd j := by
      intro i j hij hj
      rw [hgetbnd i (by omega), hgetbnd j hj]
      exact List.pairwise_iff_get.mp hpw ⟨i, by omega⟩ ⟨j, hj⟩ hij
    obtain ⟨hbc, hbb⟩ := keys_blocks_sorted entries.length
      (fun i => fringeKeys (fringeF i)) bnd hi2 hK hlo hup hbnd
      entries.length 0 (by omega)
    simp only [Nat.zero_add] at hbc hbb
    rw [fringeKeys_append, fringeKeys_flatten_range]
    constructor
    · apply chain_append_of_sep _ _ ihlmc hbc
      intro x hx y hy
      obtain ⟨t, ht, hyt⟩ := (mem_flatten_range _ _ _).mp hy
      have h0 : 0 < entries.length := by omega
      have hhead : entries.head? = some (entries.get ⟨0, h0⟩) := by
        rw [← List.get?_zero, List.get?_eq_get h0]
      have hlmval : lmHi entries hi2 = some ((entries.get ⟨0, h0⟩).key) := by
        simp only [lmHi, hhead]
      have hxk : x < (entries.get ⟨0, h0⟩).key := (ihlmb x hx).2 _ hlmval
      have hyk := (hbb y hy).1 h0
      rw [hgetbnd 0 h0] at hyk
      omega
    · intro k hk
      rcases List.mem_append.mp hk with hk | hk
      · exact keyInBounds_of_lmHi entries lo2 hi2 k (ihlmb k hk) hkeys
      · obtain ⟨hk1, hk2⟩ := hbb k hk
        have h0 : 0 < entries.length := by
          obtain ⟨t, ht, _⟩ := (mem_flatten_range _ _ _).mp hk
          omega
        refine ⟨fun l hl => ?low, hk2⟩
        have h2 := hk1 h0
        rw [hgetbnd 0 h0] at h2
        have hlo0 : l ≤ (entries.get ⟨0, h0⟩).key :=
          (hkeys _ (List.get_mem entries 0 h0)).1 l hl
        omega

/-- Which child `findChildPage` picks: the leftmost one (with the key
below every routing key), or the one behind the last entry whose key
is `≤ k`. -/
theorem findChildPage_cases (lm : Nat) (entries : List InternalEntry)
    (k : Int) :
    (BTree.findChildPage lm entries k = lm ∧
      (∀ e, entries.head? = some e → k < e.key)) ∨
    ∃ i, ∃ h : i < entries.length,
      BTree.findChildPage lm entries k =
        (entries.get ⟨i, h⟩).childPageNum ∧
      (entries.get ⟨i, h⟩).key ≤ k ∧
      (∀ h2 : i + 1 < entries.length, k < (entries.get ⟨i + 1, h2⟩).key) := by
  induction entries generalizing lm with
  | nil => exact Or.inl ⟨rfl, fun e he => nomatch he⟩
  | cons e rest ih =>
    by_cases hk : k < e.key
    · refine Or.inl ⟨?fc, ?hd⟩
      · show BTree.findChildPageAux lm (e :: rest) k = lm
        simp only [BTree.findChildPageAux]
        rw [if_pos hk]
      · intro e1 he1
        cases he1
        exact hk
    · have hstep : BTree.findChildPage lm (e :: rest) k =
          BTree.findChildPage e.childPageNum rest k := by
        show BTree.findChildPageAux lm (e :: rest) k = _
        simp only [BTree.findChildPageAux]
        rw [if_neg hk]
        rfl
      rcases ih e.childPageNum with ⟨hfc, hhd⟩ | ⟨i, hlen, hfc, hlo, hhi⟩
      · refine Or.inr ⟨0, by simp, ?fc0, not_lt.mp hk, ?up0⟩
        · rw [hstep, hfc]
          rfl
        · intro h2
          apply hhd
          have h3 : 0 < rest.length := by simpa using h2
          rw [← List.get?_zero, List.get?_eq_get h3]
          rfl
      · refine Or.inr ⟨i + 1, by simpa using hlen, ?fci, hlo, ?upi⟩
        · rw [hstep, hfc]
          rfl
        · intro h2
          exact hhi (by simpa using h2)

theorem flatten_map_const_nil {α : Type} (m : Nat) :
    ((List.range m).map (fun _ => ([] : List α))).flatten = [] := by
  induction m with
  | zero => simp
  | succ m2 ih2 =>
    rw [flatten_map_range_snoc, ih2]
    simp

theorem flatten_if_gt {α : Type} (F : Nat → List α) (len i : Nat)
    (h : i < len) :
    ((List.range len).map (fun j => if i < j then F j else [])).flatten =
      ((List.range (len - i - 1)).map (fun t => F (i + 1 + t))).flatten := by
  rw [flatten_range_split (fun j => if i < j then F j else []) len i h]
  have h1 : (List.range i).map (fun j => if i < j then F j else []) =
      (List.range i).map (fun _ => ([] : List α)) :=
    List.map_congr_left (fun j hj => by
      rw [if_neg (by simp only [List.mem_range] at hj; omega)])
  have h3 : (List.range (len - i - 1)).map
        (fun t => if i < i + 1 + t then F (i + 1 + t) else []) =
      (List.range (len - i - 1)).map (fun t => F (i + 1 + t)) :=
    List.map_congr_left (fun t _ => by rw [if_pos (by omega)])
  rw [h1, flatten_map_const_nil, if_neg (lt_irrefl i), h3]
  simp

theorem flatten_if_ne {α : Type} (F : Nat → List α) (len i : Nat)
    (h : i < len) :
    ((List.range len).map (fun j => if j = i then [] else F j)).flatten =
      ((List.range i).map F).flatten ++
        ((List.range (len - i - 1)).map (fun t => F (i + 1 + t))).flatten := by
  rw [flatten_range_split (fun j => if j = i then [] else F j) len i h]
  have h1 : (List.range i).map (fun j => if j = i then [] else F j) =
      (List.range i).map F :=
    List.map_congr_left (fun j hj => by
      rw [if_neg (by simp only [List.mem_range] at hj; omega)])
  have h3 : (List.range (len - i - 1)).map
        (fun t => if i + 1 + t = i then [] else F (i + 1 + t)) =
      (List.range (len - i - 1)).map (fun t => F (i + 1 + t)) :=
    List.map_congr_left (fun t _ => by rw [if_neg (by omega)])
  rw [h1, if_pos rfl, h3]
  simp

theorem perm_middle_swap {α : Type} (A S B C : List α) (h : S.Perm C) :
    (A ++ (S ++ B)).Perm (A ++ B ++ C) := by
  have h1 : (S ++ B).Perm (B ++ C) :=
    (h.append_right B).trans List.perm_append_comm
  have h2 := List.Perm.append_left A h1
  simpa [List.append_assoc] using h2

/-- Descent: a successful `findLeafPage` run on a well-formed subtree
yields a frame stack and the target leaf; the context plus the leaf
reassemble the subtree's pages (up to permutation) and its fringe
(exactly). -/
theorem findLeafPage_frames (s : PagerState) (k : Int) (ht p : Nat)
    (lo hi : Option Int) (nodes : List Nat) (fringe : List FringeLeaf)
    (hwf : SubT s ht p lo hi nodes fringe)
    (hk : keyInBounds lo hi k) :
    ∀ fuel acc, ht < fuel →
      ∃ frames L sib cells clo chi,
        BTree.findLeafPage s fuel p k acc =
          .ok (L, acc ++ frames.map (fun f => f.page)) ∧
        FramesOK s frames p lo hi L clo chi ∧
        s.readPage L = .ok (.leaf sib cells) ∧
        cells.Chain' (fun a b => a.key < b.key) ∧
        (∀ c ∈ cells, keyInBounds clo chi c.key) ∧
        keyInBounds clo chi k ∧
        nodes.Perm (ctxNodes frames ++ [L]) ∧
        fringe = ctxPre frames ++ (L, sib, cells) :: ctxSuf frames := by
  induction hwf with
  | leafT ht2 p2 sib cells lo2 hi2 hread hchain hbounds =>
    intro fuel acc hfuel
    cases fuel with
    | zero => omega
    | succ f =>
      refine ⟨[], p2, sib, cells, lo2, hi2, ?_, ⟨rfl, rfl, rfl⟩, hread,
        hchain, hbounds, hk, ?_, ?_⟩
      · simp only [BTree.findLeafPage, hread, List.map_nil, List.append_nil]
      · simp [ctxNodes]
      · simp [ctxPre, ctxSuf]
  | internalT ht2 p2 lm entries lo2 hi2 nodesL fringeL nodesF fringeF hread
      hchain hkeys hlm hch ihlm ihch =>
    intro fuel acc hfuel
    cases fuel with
    | zero => omega
    | succ f =>
      have hf : ht2 < f := by omega
      rcases findChildPage_cases lm entries k with
        ⟨hfc, hhd⟩ | ⟨i, hilen, hfc, hlo2, hhi2⟩
      · -- descended into the leftmost child
        have hklm : keyInBounds lo2 (lmHi entries hi2) k := by
          refine ⟨hk.1, fun hv hhv => ?_⟩
          cases hh : entries.head? with
          | none =>
            simp only [lmHi, hh] at hhv
            exact hk.2 hv hhv
          | some e0 =>
            simp only [lmHi, hh] at hhv
            injection hhv with hhv
            rw [← hhv]
            exact hhd e0 hh
        obtain ⟨frames2, L, sib, cells, clo, chi, hfind, hfo, hrl, hcc, hcb,
          hck, hperm, hfr⟩ := ihlm hklm f (acc ++ [p2]) hf
        refine ⟨⟨p2, lm, entries, lo2, hi2, none, [], [], nodesF, fringeF⟩
          :: frames2, L, sib, cells, clo, chi, ?_, ?_, hrl, hcc, hcb, hck,
          ?_, ?_⟩
        · simp only [BTree.findLeafPage, hread]
          rw [hfc, hfind]
          simp [List.append_assoc]
        · exact ⟨rfl, rfl, rfl, hread, hchain, hkeys,
            (fun i2 h2 => ⟨ht2, hch i2 h2⟩), hfo⟩
        · simp only [ctxNodes, TFrame.flankNodes, List.cons_append,
            List.append_assoc]
          exact List.Perm.cons _
            ((hperm.append_right _).trans List.perm_append_comm)
        · simp only [ctxPre, ctxSuf, TFrame.leftFringe, TFrame.rightFringe,
            List.nil_append]
          rw [hfr]
          simp [List.append_assoc]
      · -- descended into the child behind entry i
        have hkc : keyInBounds (some ((entries.get ⟨i, hilen⟩).key))
            (hiOf entries i hi2) k := by
          refine ⟨fun l hl => ?_, fun hv hhv => ?_⟩
          · injection hl with hl
            rw [← hl]
            exact hlo2
          · cases hq : entries.get? (i + 1) with
            | some e2 =>
              simp only [hiOf, hq] at hhv
              injection hhv with hhv
              rw [← hhv]
              obtain ⟨h2, hge⟩ := List.get?_eq_some.mp hq
              rw [← hge]
              exact hhi2 h2
            | none =>
              simp only [hiOf, hq] at hhv
              exact hk.2 hv hhv
        obtain ⟨frames2, L, sib, cells, clo, chi, hfind, hfo, hrl, hcc, hcb,
          hck, hperm, hfr⟩ := ihch i hilen hkc f (acc ++ [p2]) hf
        refine ⟨⟨p2, lm, entries, lo2, hi2, some i, nodesL, fringeL, nodesF,
          fringeF⟩ :: frames2, L, sib, cells, clo, chi, ?_, ?_, hrl, hcc,
          hcb, hck, ?_, ?_⟩
        · simp only [BTree.findLeafPage, hread]
          rw [hfc, hfind]
          simp [List.append_assoc]
        · exact ⟨rfl, rfl, rfl, hread, hchain, hkeys,
            ⟨hilen, ⟨ht2, hlm⟩, (fun j hj hne => ⟨ht2, hch j hj⟩), hfo⟩⟩
        · simp only [ctxNodes, TFrame.flankNodes, List.cons_append]
          apply List.Perm.cons
          rw [flatten_range_split nodesF entries.length i hilen,
            flatten_if_ne nodesF entries.length i hilen]
          simp only [List.append_assoc]
          exact List.Perm.append_left nodesL (List.Perm.append_left _
            ((hperm.append_right _).trans List.perm_append_comm))
        · simp only [ctxPre, ctxSuf, TFrame.leftFringe, TFrame.rightFringe]
          rw [flatten_range_split fringeF entries.length i hilen,
            flatten_if_gt fringeF entries.length i hilen, hfr]
          simp [List.append_assoc]

/-- A monotone family with a witness at every index below `len` has a
single uniform witness. -/
theorem exists_uniform_nat (len : Nat) (P : Nat → Nat → Prop)
    (hmono : ∀ i h1 h2, h1 ≤ h2 → P i h1 → P i h2)
    (h : ∀ i, i < len → ∃ ht, P i ht) :
    ∃ H, ∀ i, i < len → P i H := by
  induction len with
  | zero => exact ⟨0, fun i hi => absurd hi (by omega)⟩
  | succ m ih =>
    obtain ⟨H1, hH1⟩ := ih (fun i hi => h i (by omega))
    obtain ⟨H2, hH2⟩ := h m (by omega)
    refine ⟨H1 ⊔ H2, fun i hi => ?u⟩
    by_cases him : i = m
    · subst him
      exact hmono _ _ _ (le_max_right _ _) hH2
    · exact hmono _ _ _ (le_max_left _ _) (hH1 i (by omega))

/-- Plugging a (replacement) well-formed subtree into the slot of a
frame stack rebuilds a well-formed tree, in any state that agrees with
the original on the context pages.  The rebuilt fringe is the context
fringe around the plugged fringe; the rebuilt page list is the context
pages plus the plugged pages. -/
theorem frames_plug (s s2 : PagerState) :
    ∀ frames p lo hi c clo chi,
      FramesOK s frames p lo hi c clo chi →
      (∀ n ∈ ctxNodes frames, s2.readPage n = s.readPage n) →
      ∀ ht2 nodes2 fringe2,
        SubT s2 ht2 c clo chi nodes2 fringe2 →
        ∃ ht3 nodes3,
          SubT s2 ht3 p lo hi nodes3
            (ctxPre frames ++ fringe2 ++ ctxSuf frames) ∧
          nodes3.Perm (ctxNodes frames ++ nodes2) := by
  intro frames
  induction frames with
  | nil =>
    intro p lo hi c clo chi hfo hagree ht2 nodes2 fringe2 hsub
    obtain ⟨rfl, rfl, rfl⟩ := hfo
    exact ⟨ht2, nodes2, by simpa [ctxPre, ctxSuf] using hsub,
      by simp [ctxNodes]⟩
  | cons f rest ih =>
    intro p lo hi c clo chi hfo hagree ht2 nodes2 fringe2 hsub
    obtain ⟨fpage, flm, fentries, flo, fhi, fslot, fnodesL, ffringeL,
      fnodesF, ffringeF⟩ := f
    obtain ⟨hpage, hlo, hhi, hread, hchain, hkeys, hslot⟩ := hfo
    simp only at hpage hlo hhi hread hslot
    subst hpage
    have hmemhd : fpage ∈ ctxNodes
        (TFrame.mk fpage flm fentries flo fhi fslot fnodesL ffringeL
          fnodesF ffringeF :: rest) := by
      simp [ctxNodes]
    have hread2 : s2.readPage fpage = .ok (.internal flm fentries) :=
      (hagree fpage hmemhd).trans hread
    have hagree2 : ∀ n ∈ ctxNodes rest, s2.readPage n = s.readPage n := by
      intro n hn
      exact hagree n (by simp [ctxNodes, hn])
    cases fslot with
    | none =>
      obtain ⟨hflank, hrest⟩ := hslot
      obtain ⟨ht3, nodes3, hsub3, hperm3⟩ :=
        ih flm lo (lmHi fentries hi) c clo chi hrest hagree2 ht2 nodes2
          fringe2 hsub
      obtain ⟨H0, hH0⟩ := exists_uniform_nat fentries.length
        (fun i ht => ∀ h : i < fentries.length,
          SubT s2 ht (fentries.get ⟨i, h⟩).childPageNum
            (some ((fentries.get ⟨i, h⟩).key)) (hiOf fentries i hi)
            (fnodesF i) (ffringeF i))
        (fun i h1 h2 hle hp hlt =>
          SubT.mono s2 _ _ _ _ _ _ (hp hlt) _ hle)
        (fun i hi2 => by
          obtain ⟨htj, hsubj⟩ := hflank i hi2
          refine ⟨htj, fun hlt => SubT.stable s s2 _ _ _ _ _ _ hsubj
            (fun n hn => hagree n ?memi)⟩
          simp only [ctxNodes, TFrame.flankNodes, List.mem_cons,
            List.mem_append, mem_flatten_range]
          exact Or.inr (Or.inl ⟨i, hi2, hn⟩))
      refine ⟨(ht3 ⊔ H0) + 1,
        fpage :: (nodes3 ++
          ((List.range fentries.length).map fnodesF).flatten), ?sub, ?perm⟩
      · have hstep : SubT s2 ((ht3 ⊔ H0) + 1) fpage lo hi
            (fpage :: (nodes3 ++
              ((List.range fentries.length).map fnodesF).flatten))
            ((ctxPre rest ++ fringe2 ++ ctxSuf rest) ++
              ((List.range fentries.length).map ffringeF).flatten) := by
          apply SubT.internalT (ht3 ⊔ H0) fpage flm fentries lo hi nodes3
            (ctxPre rest ++ fringe2 ++ ctxSuf rest) fnodesF ffringeF hread2
            hchain hkeys
            (SubT.mono s2 _ _ _ _ _ _ hsub3 _ (le_max_left _ _))
          intro i hi2
          exact SubT.mono s2 _ _ _ _ _ _ (hH0 i hi2 hi2) _ (le_max_right _ _)
        have hfr : (ctxPre rest ++ fringe2 ++ ctxSuf rest) ++
            ((List.range fentries.length).map ffringeF).flatten =
            ctxPre (TFrame.mk fpage flm fentries flo fhi none fnodesL
              ffringeL fnodesF ffringeF :: rest) ++ fringe2 ++
            ctxSuf (TFrame.mk fpage flm fentries flo fhi none fnodesL
              ffringeL fnodesF ffringeF :: rest) := by
          simp [ctxPre, ctxSuf, TFrame.leftFringe, TFrame.rightFringe,
            List.append_assoc]
        rw [← hfr]
        exact hstep
      · simp only [ctxNodes, TFrame.flankNodes, List.cons_append,
          List.append_assoc]
        exact List.Perm.cons _
          ((hperm3.append_right _).trans List.perm_append_comm)
    | some i =>
      obtain ⟨hilen, hlmEx, hflank, hrest⟩ := hslot
      obtain ⟨ht3, nodes3, hsub3, hperm3⟩ :=
        ih (fentries.get ⟨i, hilen⟩).childPageNum
          (some ((fentries.get ⟨i, hilen⟩).key)) (hiOf fentries i hi)
          c clo chi hrest hagree2 ht2 nodes2
          fringe2 hsub
      obtain ⟨htL, hsubL⟩ := hlmEx
      have hsubL2 : SubT s2 htL flm lo (lmHi fentries hi) fnodesL ffringeL :=
        SubT.stable s s2 _ _ _ _ _ _ hsubL (fun n hn => hagree n (by
          simp only [ctxNodes, TFrame.flankNodes, List.mem_cons,
            List.mem_append]
          exact Or.inr (Or.inl (Or.inl hn))))
      obtain ⟨H0, hH0⟩ := exists_uniform_nat fentries.length
        (fun j ht => ∀ h : j < fentries.length,
          SubT s2 ht (fentries.get ⟨j, h⟩).childPageNum
            (some ((fentries.get ⟨j, h⟩).key)) (hiOf fentries j hi)
            (if j = i then nodes3 else fnodesF j)
            (if j = i then ctxPre rest ++ fringe2 ++ ctxSuf rest
              else ffringeF j))
        (fun j h1 h2 hle hp hlt =>
          SubT.mono s2 _ _ _ _ _ _ (hp hlt) _ hle)
        (fun j hj => by
          by_cases hji : j = i
          · subst hji
            have e1 : (if j = j then nodes3 else fnodesF j) = nodes3 :=
              if_pos rfl
            have e2 : (if j = j then ctxPre rest ++ fringe2 ++ ctxSuf rest
                else ffringeF j) = ctxPre rest ++ fringe2 ++ ctxSuf rest :=
              if_pos rfl
            simp only [e1, e2]
            exact ⟨ht3, fun hlt => hsub3⟩
          · have e1 : (if j = i then nodes3 else fnodesF j) = fnodesF j :=
              if_neg hji
            have e2 : (if j = i then ctxPre rest ++ fringe2 ++ ctxSuf rest
                else ffringeF j) = ffringeF j := if_neg hji
            simp only [e1, e2]
            obtain ⟨htj, hsubj⟩ := hflank j hj hji
            refine ⟨htj, fun hlt => SubT.stable s s2 _ _ _ _ _ _ hsubj
              (fun n hn => hagree n ?memj)⟩
            simp only [ctxNodes, TFrame.flankNodes, List.mem_cons,
              List.mem_append, mem_flatten_range]
            exact Or.inr (Or.inl (Or.inr ⟨j, hj, by
              rw [if_neg hji]; exact hn⟩)))
      refine ⟨(htL ⊔ H0) + 1,
        fpage :: (fnodesL ++
          ((List.range fentries.length).map
            (fun j => if j = i then nodes3 else fnodesF j)).flatten),
        ?sub2, ?perm2⟩
      · have hstep : SubT s2 ((htL ⊔ H0) + 1) fpage lo hi
            (fpage :: (fnodesL ++
              ((List.range fentries.length).map
                (fun j => if j = i then nodes3 else fnodesF j)).flatten))
            (ffringeL ++
              ((List.range fentries.length).map
                (fun j => if j = i then ctxPre rest ++ fringe2 ++ ctxSuf rest
                  else ffringeF j)).flatten) := by
          apply SubT.internalT (htL ⊔ H0) fpage flm fentries lo hi fnodesL
            ffringeL _ _ hread2 hchain hkeys
            (SubT.mono s2 _ _ _ _ _ _ hsubL2 _ (le_max_left _ _))
          intro j hj
          exact SubT.mono s2 _ _ _ _ _ _ (hH0 j hj hj) _ (le_max_right _ _)
        have hsplitF : ((List.range fentries.length).map
            (fun j => if j = i then ctxPre rest ++ fringe2 ++ ctxSuf rest
              else ffringeF j)).flatten =
            ((List.range i).map ffringeF).flatten ++
              (ctxPre rest ++ fringe2 ++ ctxSuf rest) ++
              ((List.range (fentries.length - i - 1)).map
                (fun t => ffringeF (i + 1 + t))).flatten := by
          rw [flatten_range_split _ fentries.length i hilen]
          congr 1
          · congr 1
            · apply congrArg
              apply List.map_congr_left
              intro j hj
              rw [if_neg (by simp only [List.mem_range] at hj; omega)]
            · rw [if_pos rfl]
          · apply congrArg
            apply List.map_congr_left
            intro t _
            rw [if_neg (by omega)]
        rw [hsplitF] at hstep
        have hfr2 : ffringeL ++
            (((List.range i).map ffringeF).flatten ++
              (ctxPre rest ++ fringe2 ++ ctxSuf rest) ++
              ((List.range (fentries.length - i - 1)).map
                (fun t => ffringeF (i + 1 + t))).flatten) =
            ctxPre (TFrame.mk fpage flm fentries flo fhi (some i) fnodesL
              ffringeL fnodesF ffringeF :: rest) ++ fringe2 ++
            ctxSuf (TFrame.mk fpage flm fentries flo fhi (some i) fnodesL
              ffringeL fnodesF ffringeF :: rest) := by
          simp only [ctxPre, ctxSuf, TFrame.leftFringe, TFrame.rightFringe]
          rw [flatten_if_gt ffringeF fentries.length i hilen]
          simp [List.append_assoc]
        rw [← hfr2]
        exact hstep
      · simp only [ctxNodes, TFrame.flankNodes, List.cons_append]
        apply List.Perm.cons
        have hsplitN : ((List.range fentries.length).map
            (fun j => if j = i then nodes3 else fnodesF j)).flatten =
            ((List.range i).map fnodesF).flatten ++ nodes3 ++
              ((List.range (fentries.length - i - 1)).map
                (fun t => fnodesF (i + 1 + t))).flatten := by
          rw [flatten_range_split _ fentries.length i hilen]
          congr 1
          · congr 1
            · apply congrArg
              apply List.map_congr_left
              intro j hj
              rw [if_neg (by simp only [List.mem_range] at hj; omega)]
            · rw [if_pos rfl]
          · apply congrArg
            apply List.map_congr_left
            intro t _
            rw [if_neg (by omega)]
        rw [hsplitN, flatten_if_ne fnodesF fentries.length i hilen]
        simp only [List.append_assoc]
        exact List.Perm.append_left fnodesL (List.Perm.append_left _
          ((hperm3.append_right _).trans List.perm_append_comm))

/-! ### Sorted-insert characterizations -/

theorem insertSorted_length (record : BTreeRecord) (cells : List BTreeRecord) :
    (BTree.insertSorted record cells).length = cells.length + 1 := by
  induction cells with
  | nil => rfl
  | cons d rest ih =>
    simp only [BTree.insertSorted]
    split_ifs with h
    · simp [ih]
    · simp

theorem insertSorted_mem (record : BTreeRecord) (cells : List BTreeRecord) :
    ∀ d ∈ BTree.insertSorted record cells, d = record ∨ d ∈ cells := by
  induction cells with
  | nil =>
    intro d hd
    simp only [BTree.insertSorted, List.mem_singleton] at hd
    exact Or.inl hd
  | cons e rest ih =>
    intro d hd
    simp only [BTree.insertSorted] at hd
    split_ifs at hd with h
    · rcases List.mem_cons.mp hd with rfl | hd2
      · exact Or.inr (by simp)
      · rcases ih d hd2 with h2 | h2
        · exact Or.inl h2
        · exact Or.inr (by simp [h2])
    · rcases List.mem_cons.mp hd with rfl | hd2
      · exact Or.inl rfl
      · exact Or.inr hd2

theorem insertSorted_head? (record : BTreeRecord) (cells : List BTreeRecord) :
    (BTree.insertSorted record cells).head? = some record ∨
      ∃ e, cells.head? = some e ∧
        (BTree.insertSorted record cells).head? = some e := by
  cases cells with
  | nil => exact Or.inl rfl
  | cons e rest =>
    simp only [BTree.insertSorted]
    split_ifs with h
    · exact Or.inr ⟨e, rfl, rfl⟩
    · exact Or.inl rfl

theorem insertSorted_sorted (record : BTreeRecord) (cells : List BTreeRecord)
    (hchain : cells.Chain' (fun a b => a.key < b.key))
    (hnodup : ∀ d ∈ cells, d.key ≠ record.key) :
    (BTree.insertSorted record cells).Chain'
      (fun a b => a.key < b.key) := by
  induction cells with
  | nil => simp [BTree.insertSorted]
  | cons e rest ih =>
    simp only [BTree.insertSorted]
    split_ifs with h
    · rw [List.chain'_cons']
      refine ⟨?hd, ih (List.Chain'.tail hchain)
        (fun d hd => hnodup d (by simp [hd]))⟩
      intro y hy
      rcases insertSorted_head? record rest with h2 | ⟨e2, he2, h2⟩
      · rw [h2] at hy
        injection hy with hy
        rw [← hy]
        exact h
      · rw [h2] at hy
        injection hy with hy
        rw [← hy]
        exact (List.chain'_cons'.mp hchain).1 e2 he2
    · rw [List.chain'_cons']
      refine ⟨?hd2, hchain⟩
      intro y hy
      injection hy with hy
      rw [← hy]
      have h2 : e.key ≠ record.key := hnodup e (by simp)
      omega

theorem insertEntrySorted_at (entries : List InternalEntry)
    (pk : Int) (np : Nat) (m : Nat) (hm : m ≤ entries.length)
    (hleft : ∀ j (hj : j < m),
      (entries.get ⟨j, lt_of_lt_of_le hj hm⟩).key < pk)
    (hright : ∀ h : m < entries.length, pk < (entries.get ⟨m, h⟩).key) :
    BTree.insertEntrySorted ⟨pk, np⟩ entries =
      entries.take m ++ ⟨pk, np⟩ :: entries.drop m := by
  induction entries generalizing m with
  | nil =>
    obtain rfl : m = 0 := by simpa using hm
    rfl
  | cons e rest ih =>
    cases m with
    | zero =>
      have h0 : pk < e.key := hright (by simp)
      simp only [BTree.insertEntrySorted, List.take_zero, List.drop_zero,
        List.nil_append]
      rw [if_neg (by omega)]
    | succ m2 =>
      have h0 : e.key < pk := hleft 0 (by omega)
      simp only [BTree.insertEntrySorted, List.take_succ_cons,
        List.drop_succ_cons, List.cons_append]
      rw [if_pos h0]
      rw [ih m2 (by simpa using hm)
        (fun j hj => hleft (j + 1) (by omega))
        (fun h => hright (by simpa using h))]

/-- `insertEntrySorted` keeps routing keys strictly sorted when the
new key collides with none of them. -/
theorem insertEntrySorted_sorted (pk : Int) (np : Nat)
    (entries : List InternalEntry)
    (hchain : entries.Chain' (fun a b => a.key < b.key))
    (hnodup : ∀ e ∈ entries, e.key ≠ pk) :
    (BTree.insertEntrySorted ⟨pk, np⟩ entries).Chain'
      (fun a b => a.key < b.key) := by
  induction entries with
  | nil => simp [BTree.insertEntrySorted]
  | cons e rest ih =>
    simp only [BTree.insertEntrySorted]
    split_ifs with h
    · rw [List.chain'_cons']
      refine ⟨?hd, ih (List.Chain'.tail hchain)
        (fun d hd => hnodup d (by simp [hd]))⟩
      intro y hy
      have hh : (BTree.insertEntrySorted ⟨pk, np⟩ rest).head? =
          some (⟨pk, np⟩ : InternalEntry) ∨
          ∃ e2, rest.head? = some e2 ∧
            (BTree.insertEntrySorted ⟨pk, np⟩ rest).head? = some e2 := by
        cases rest with
        | nil => exact Or.inl rfl
        | cons e2 r2 =>
          simp only [BTree.insertEntrySorted]
          split_ifs with h2
          · exact Or.inr ⟨e2, rfl, rfl⟩
          · exact Or.inl rfl
      rcases hh with h2 | ⟨e2, he2, h2⟩
      · rw [h2] at hy
        injection hy with hy
        rw [← hy]
        exact h
      · rw [h2] at hy
        injection hy with hy
        rw [← hy]
        exact (List.chain'_cons'.mp hchain).1 e2 he2
    · rw [List.chain'_cons']
      refine ⟨?hd2, hchain⟩
      intro y hy
      injection hy with hy
      rw [← hy]
      show pk < e.key
      have h2 : e.key ≠ pk := hnodup e (by simp)
      omega

/-- A key strictly between the neighbours of position `m` differs
from every routing key. -/
theorem entries_keys_ne_of_between (entries : List InternalEntry) (pk : Int)
    (m : Nat) (hm : m ≤ entries.length)
    (hchain : entries.Chain' (fun a b => a.key < b.key))
    (hleft : ∀ j (hj : j < m),
      (entries.get ⟨j, lt_of_lt_of_le hj hm⟩).key < pk)
    (hright : ∀ h : m < entries.length, pk < (entries.get ⟨m, h⟩).key) :
    ∀ e ∈ entries, e.key ≠ pk := by
  intro e he
  obtain ⟨⟨j, hj⟩, rfl⟩ := List.mem_iff_get.mp he
  by_cases hjm : j < m
  · have h1 := hleft j hjm
    omega
  · have hmlt : m < entries.length := by omega
    have h1 := hright hmlt
    by_cases hjq : j = m
    · subst hjq
      omega
    · haveI : IsTrans InternalEntry (fun a b => a.key < b.key) :=
        ⟨fun a b d hab hbd => lt_trans hab hbd⟩
      have hpw := List.chain'_iff_pairwise.mp hchain
      have h2 : (entries.get ⟨m, hmlt⟩).key < (entries.get ⟨j, hj⟩).key :=
        List.pairwise_iff_get.mp hpw ⟨m, hmlt⟩ ⟨j, hj⟩
          (Fin.mk_lt_mk.mpr (by omega))
      omega

/-- Sortedness of the positional insert with strict neighbours. -/
theorem chain_insertAt (entries : List InternalEntry) (pk : Int) (np : Nat)
    (m : Nat) (hm : m ≤ entries.length)
    (hchain : entries.Chain' (fun a b => a.key < b.key))
    (hleft : ∀ j (hj : j < m),
      (entries.get ⟨j, lt_of_lt_of_le hj hm⟩).key < pk)
    (hright : ∀ h : m < entries.length, pk < (entries.get ⟨m, h⟩).key) :
    (entries.take m ++ (⟨pk, np⟩ : InternalEntry) :: entries.drop m).Chain'
      (fun a b => a.key < b.key) := by
  rw [← insertEntrySorted_at entries pk np m hm hleft hright]
  exact insertEntrySorted_sorted pk np entries hchain
    (entries_keys_ne_of_between entries pk m hm hchain hleft hright)

/-! ### Frame-stack utilities -/

theorem ctxNodes_append (l1 l2 : List TFrame) :
    ctxNodes (l1 ++ l2) = ctxNodes l1 ++ ctxNodes l2 := by
  induction l1 with
  | nil => simp [ctxNodes]
  | cons f rest ih => simp [ctxNodes, ih]

theorem ctxPre_append (l1 l2 : List TFrame) :
    ctxPre (l1 ++ l2) = ctxPre l1 ++ ctxPre l2 := by
  induction l1 with
  | nil => simp [ctxPre]
  | cons f rest ih => simp [ctxPre, ih]

theorem ctxSuf_append (l1 l2 : List TFrame) :
    ctxSuf (l1 ++ l2) = ctxSuf l2 ++ ctxSuf l1 := by
  induction l1 with
  | nil => simp [ctxSuf]
  | cons f rest ih => simp [ctxSuf, ih, List.append_assoc]

theorem FramesOK_stable (s s2 : PagerState) :
    ∀ frames p lo hi c clo chi,
      FramesOK s frames p lo hi c clo chi →
      (∀ n ∈ ctxNodes frames, s2.readPage n = s.readPage n) →
      FramesOK s2 frames p lo hi c clo chi := by
  intro frames
  induction frames with
  | nil =>
    intro p lo hi c clo chi h _
    exact h
  | cons f rest ih =>
    intro p lo hi c clo chi h hagree
    obtain ⟨fpage, flm, fentries, flo, fhi, fslot, fnodesL, ffringeL,
      fnodesF, ffringeF⟩ := f
    obtain ⟨hpage, hlo, hhi, hread, hchain, hkeys, hslot⟩ := h
    simp only at hpage hread hslot ⊢
    subst hpage
    have hagree2 : ∀ n ∈ ctxNodes rest, s2.readPage n = s.readPage n :=
      fun n hn => hagree n (by simp [ctxNodes, hn])
    refine ⟨rfl, hlo, hhi, (hagree fpage (by simp [ctxNodes])).trans hread,
      hchain, hkeys, ?slot⟩
    cases fslot with
    | none =>
      obtain ⟨hflank, hrest⟩ := hslot
      exact ⟨fun i hi2 => (hflank i hi2).imp (fun ht hsub =>
        SubT.stable s s2 _ _ _ _ _ _ hsub (fun n hn => hagree n (by
          simp only [ctxNodes, TFrame.flankNodes, List.mem_cons,
            List.mem_append, mem_flatten_range]
          exact Or.inr (Or.inl ⟨i, hi2, hn⟩)))),
        ih _ _ _ _ _ _ hrest hagree2⟩
    | some i =>
      obtain ⟨hilen, ⟨htL, hsubL⟩, hflank, hrest⟩ := hslot
      refine ⟨hilen, ⟨htL, SubT.stable s s2 _ _ _ _ _ _ hsubL
        (fun n hn => hagree n (by
          simp only [ctxNodes, TFrame.flankNodes, List.mem_cons,
            List.mem_append]
          exact Or.inr (Or.inl (Or.inl hn))))⟩,
        fun j hj hne => (hflank j hj hne).imp (fun ht hsub =>
          SubT.stable s s2 _ _ _ _ _ _ hsub (fun n hn => hagree n (by
            simp only [ctxNodes, TFrame.flankNodes, List.mem_cons,
              List.mem_append, mem_flatten_range]
            exact Or.inr (Or.inl (Or.inr ⟨j, hj, by
              rw [if_neg hne]; exact hn⟩))))),
        ih _ _ _ _ _ _ hrest hagree2⟩

theorem FramesOK_snoc_elim (s : PagerState) :
    ∀ fs (f : TFrame) p lo hi c clo chi,
      FramesOK s (fs ++ [f]) p lo hi c clo chi →
      ∃ q qlo qhi, FramesOK s fs p lo hi q qlo qhi ∧
        FramesOK s [f] q qlo qhi c clo chi := by
  intro fs
  induction fs with
  | nil =>
    intro f p lo hi c clo chi h
    exact ⟨p, lo, hi, ⟨rfl, rfl, rfl⟩, h⟩
  | cons g rest ih =>
    intro f p lo hi c clo chi h
    obtain ⟨gpage, glm, gentries, glo, ghi, gslot, gnodesL, gfringeL,
      gnodesF, gfringeF⟩ := g
    obtain ⟨hpage, hlo, hhi, hread, hchain, hkeys, hslot⟩ := h
    simp only at hpage hread hslot
    subst hpage
    cases gslot with
    | none =>
      obtain ⟨hflank, hrest⟩ := hslot
      obtain ⟨q, qlo, qhi, h1, h2⟩ := ih f _ _ _ _ _ _ hrest
      exact ⟨q, qlo, qhi,
        ⟨rfl, hlo, hhi, hread, hchain, hkeys, hflank, h1⟩, h2⟩
    | some i =>
      obtain ⟨hilen, hlmE, hflank, hrest⟩ := hslot
      obtain ⟨q, qlo, qhi, h1, h2⟩ := ih f _ _ _ _ _ _ hrest
      exact ⟨q, qlo, qhi,
        ⟨rfl, hlo, hhi, hread, hchain, hkeys,
          ⟨hilen, hlmE, hflank, h1⟩⟩, h2⟩

theorem FramesOK_ctx_lt (s : PagerState) :
    ∀ frames p lo hi c clo chi,
      FramesOK s frames p lo hi c clo chi →
      ∀ n ∈ ctxNodes frames, n < s.totalPages := by
  intro frames
  induction frames with
  | nil =>
    intro p lo hi c clo chi _ n hn
    simp [ctxNodes] at hn
  | cons f rest ih =>
    intro p lo hi c clo chi h n hn
    obtain ⟨fpage, flm, fentries, flo, fhi, fslot, fnodesL, ffringeL,
      fnodesF, ffringeF⟩ := f
    obtain ⟨hpage, hlo, hhi, hread, hchain, hkeys, hslot⟩ := h
    simp only at hpage hread hslot
    subst hpage
    simp only [ctxNodes, TFrame.flankNodes, List.mem_cons,
      List.mem_append] at hn
    cases fslot with
    | none =>
      obtain ⟨hflank, hrest⟩ := hslot
      rcases hn with rfl | hn | hn
      · exact PagerState.readPage_lt _ _ _ hread
      · obtain ⟨i, hi2, hmem⟩ := (mem_flatten_range _ _ _).mp hn
        obtain ⟨ht, hsub⟩ := hflank i hi2
        exact SubT.nodes_lt _ _ _ _ _ _ _ hsub n hmem
      · exact ih _ _ _ _ _ _ hrest n hn
    | some i =>
      obtain ⟨hilen, ⟨htL, hsubL⟩, hflank, hrest⟩ := hslot
      rcases hn with rfl | hn | hn
      · exact PagerState.readPage_lt _ _ _ hread
      case inr.inr => exact ih _ _ _ _ _ _ hrest n hn
      rcases List.mem_append.mp hn with hn | hn
      · exact SubT.nodes_lt _ _ _ _ _ _ _ hsubL n hn
      · obtain ⟨j, hj, hmem⟩ := (mem_flatten_range _ _ _).mp hn
        by_cases hji : j = i
        · subst hji
          rw [if_pos rfl] at hmem
          simp at hmem
        · rw [if_neg hji] at hmem
          obtain ⟨ht, hsub⟩ := hflank j hj hji
          exact SubT.nodes_lt _ _ _ _ _ _ _ hsub n hmem

/-! ### Split execution -/

theorem splitLeafNode_run (s : PagerState) (pageNum sib : Nat)
    (cells : List BTreeRecord) (r0 : BTreeRecord)
    (hread : s.readPage pageNum = .ok (.leaf sib cells))
    (hhead : (cells.drop ((cells.length + 1) / 2)).head? = some r0) :
    BTree.splitLeafNode s pageNum cells =
      (PagerState.mk
        (((s.pages ++ [Page.unused]).set s.totalPages
          (Page.leaf sib (cells.drop ((cells.length + 1) / 2)))).set pageNum
          (Page.leaf s.totalPages (cells.take ((cells.length + 1) / 2))))
        s.schemaPage,
        .ok (r0.key, s.totalPages)) ∧
    (BTree.splitLeafNode s pageNum cells).1.readPage pageNum =
      .ok (.leaf s.totalPages (cells.take ((cells.length + 1) / 2))) ∧
    (BTree.splitLeafNode s pageNum cells).1.readPage s.totalPages =
      .ok (.leaf sib (cells.drop ((cells.length + 1) / 2))) ∧
    (∀ n, n < s.totalPages → n ≠ pageNum →
      (BTree.splitLeafNode s pageNum cells).1.readPage n = s.readPage n) ∧
    (BTree.splitLeafNode s pageNum cells).1.totalPages = s.totalPages + 1 := by
  have hlt : pageNum < s.pages.length := s.readPage_lt pageNum _ hread
  have hmain : BTree.splitLeafNode s pageNum cells =
      (PagerState.mk
        (((s.pages ++ [Page.unused]).set s.totalPages
          (Page.leaf sib (cells.drop ((cells.length + 1) / 2)))).set pageNum
          (Page.leaf s.totalPages (cells.take ((cells.length + 1) / 2))))
        s.schemaPage,
        .ok (r0.key, s.totalPages)) := by
    unfold BTree.splitLeafNode
    rw [hread]
    simp only [BTree.pageSiblingField]
    rcases hdrop : cells.drop ((cells.length + 1) / 2) with _ | ⟨r1, rest⟩
    · rw [hdrop] at hhead
      cases hhead
    · rw [hdrop] at hhead
      rw [List.head?_cons, Option.some.injEq] at hhead
      subst hhead
      show (match (PagerState.allocatePage s) with | (s1, newPageNum) => _) = _
      simp only [PagerState.allocatePage]
      rw [PagerState.writePage_lt _ _ _ (by simp [PagerState.totalPages])]
      simp only
      rw [PagerState.writePage_lt _ _ _
        (by simp [PagerState.totalPages]; omega)]
      simp only [PagerState.totalPages]
  refine ⟨hmain, ?r1, ?r2, ?ro, ?rt⟩
  · rw [hmain]
    simp only [PagerState.readPage_eq_ok, PagerState.totalPages]
    rw [List.getElem?_set_self (h := by simp; omega)]
  · rw [hmain]
    simp only [PagerState.readPage_eq_ok, PagerState.totalPages]
    rw [List.getElem?_set_ne (by omega : pageNum ≠ s.pages.length)]
    rw [List.getElem?_set_self (h := by simp)]
  · intro n hn hne
    rw [hmain]
    have hn2 : n < s.pages.length := hn
    have hx : (((s.pages ++ [Page.unused]).set s.totalPages
        (Page.leaf sib (cells.drop ((cells.length + 1) / 2)))).set pageNum
        (Page.leaf s.totalPages (cells.take ((cells.length + 1) / 2))))[n]? =
        s.pages[n]? := by
      rw [List.getElem?_set_ne (fun hc => hne hc.symm),
        List.getElem?_set_ne (show s.totalPages ≠ n from fun hc => by
          rw [PagerState.totalPages] at hc; omega),
        List.getElem?_append_left hn2]
    have hg1 : (PagerState.mk (((s.pages ++ [Page.unused]).set s.totalPages
        (Page.leaf sib (cells.drop ((cells.length + 1) / 2)))).set pageNum
        (Page.leaf s.totalPages (cells.take ((cells.length + 1) / 2))))
        s.schemaPage).readPage n = .ok (s.pages.get ⟨n, hn2⟩) := by
      rw [PagerState.readPage_mk, hx]
      exact List.getElem?_eq_getElem hn2
    have hg2 : s.readPage n = .ok (s.pages.get ⟨n, hn2⟩) := by
      rw [PagerState.readPage_eq_ok]
      exact List.getElem?_eq_getElem hn2
    rw [hg1, hg2]
  · rw [hmain]
    simp [PagerState.totalPages]

theorem splitInternalNode_run (s : PagerState) (pageNum lm : Nat)
    (entries : List InternalEntry) (pe : InternalEntry)
    (hread : s.readPage pageNum = .ok (.internal lm entries))
    (hmid : entries.get? (entries.length / 2) = some pe) :
    BTree.splitInternalNode s pageNum =
      (PagerState.mk
        (((s.pages ++ [Page.unused]).set s.totalPages
          (Page.internal pe.childPageNum
            (entries.drop (entries.length / 2 + 1)))).set pageNum
          (Page.internal lm (entries.take (entries.length / 2))))
        s.schemaPage,
        .ok (pe.key, s.totalPages)) ∧
    (BTree.splitInternalNode s pageNum).1.readPage pageNum =
      .ok (.internal lm (entries.take (entries.length / 2))) ∧
    (BTree.splitInternalNode s pageNum).1.readPage s.totalPages =
      .ok (.internal pe.childPageNum
        (entries.drop (entries.length / 2 + 1))) ∧
    (∀ n, n < s.totalPages → n ≠ pageNum →
      (BTree.splitInternalNode s pageNum).1.readPage n = s.readPage n) ∧
    (BTree.splitInternalNode s pageNum).1.totalPages = s.totalPages + 1 := by
  have hlt : pageNum < s.pages.length := s.readPage_lt pageNum _ hread
  have hmain : BTree.splitInternalNode s pageNum =
      (PagerState.mk
        (((s.pages ++ [Page.unused]).set s.totalPages
          (Page.internal pe.childPageNum
            (entries.drop (entries.length / 2 + 1)))).set pageNum
          (Page.internal lm (entries.take (entries.length / 2))))
        s.schemaPage,
        .ok (pe.key, s.totalPages)) := by
    unfold BTree.splitInternalNode
    rw [hread]
    simp only [hmid]
    show (match (PagerState.allocatePage s) with | (s1, newPageNum) => _) = _
    simp only [PagerState.allocatePage]
    rw [PagerState.writePage_lt _ _ _ (by simp [PagerState.totalPages])]
    simp only
    rw [PagerState.writePage_lt _ _ _
      (by simp [PagerState.totalPages]; omega)]
    simp only [PagerState.totalPages]
  refine ⟨hmain, ?r1, ?r2, ?ro, ?rt⟩
  · rw [hmain]
    simp only [PagerState.readPage_eq_ok, PagerState.totalPages]
    rw [List.getElem?_set_self (h := by simp; omega)]
  · rw [hmain]
    simp only [PagerState.readPage_eq_ok, PagerState.totalPages]
    rw [List.getElem?_set_ne (by omega : pageNum ≠ s.pages.length)]
    rw [List.getElem?_set_self (h := by simp)]
  · intro n hn hne
    rw [hmain]
    have hn2 : n < s.pages.length := hn
    have hx : (((s.pages ++ [Page.unused]).set s.totalPages
        (Page.internal pe.childPageNum
          (entries.drop (entries.length / 2 + 1)))).set pageNum
        (Page.internal lm (entries.take (entries.length / 2))))[n]? =
        s.pages[n]? := by
      rw [List.getElem?_set_ne (fun hc => hne hc.symm),
        List.getElem?_set_ne (show s.totalPages ≠ n from fun hc => by
          rw [PagerState.totalPages] at hc; omega),
        List.getElem?_append_left hn2]
    have hg1 : (PagerState.mk (((s.pages ++ [Page.unused]).set s.totalPages
        (Page.internal pe.childPageNum
          (entries.drop (entries.length / 2 + 1)))).set pageNum
        (Page.internal lm (entries.take (entries.length / 2))))
        s.schemaPage).readPage n = .ok (s.pages.get ⟨n, hn2⟩) := by
      rw [PagerState.readPage_mk, hx]
      exact List.getElem?_eq_getElem hn2
    have hg2 : s.readPage n = .ok (s.pages.get ⟨n, hn2⟩) := by
      rw [PagerState.readPage_eq_ok]
      exact List.getElem?_eq_getElem hn2
    rw [hg1, hg2]
  · rw [hmain]
    simp [PagerState.totalPages]

/-! ### Bound-function reductions -/

theorem hiOf_cons_succ (e : InternalEntry) (l : List InternalEntry) (j : Nat)
    (hi : Option Int) : hiOf (e :: l) (j + 1) hi = hiOf l j hi := rfl

theorem hiOf_cons_zero (e : InternalEntry) (l : List InternalEntry)
    (hi : Option Int) : hiOf (e :: l) 0 hi = lmHi l hi := by
  cases l <;> rfl

theorem lmHi_cons (e : InternalEntry) (l : List InternalEntry)
    (hi : Option Int) : lmHi (e :: l) hi = some e.key := rfl

/-! ### Sibling-chain surgery -/

theorem linked_cells :
    ∀ (pre suf : List FringeLeaf) (p sb : Nat) (c c2 : List BTreeRecord),
      linked (pre ++ (p, sb, c) :: suf) → linked (pre ++ (p, sb, c2) :: suf) := by
  intro pre
  induction pre with
  | nil =>
    intro suf p sb c c2 h
    cases suf with
    | nil => exact h
    | cons y rest => exact h
  | cons x pre2 ih =>
    intro suf p sb c c2 h
    obtain ⟨x1, x2, x3⟩ := x
    cases pre2 with
    | nil => exact ⟨h.1, ih suf p sb c c2 h.2⟩
    | cons z pre3 => exact ⟨h.1, ih suf p sb c c2 h.2⟩

theorem linked_split :
    ∀ (pre suf : List FringeLeaf) (p q sb : Nat)
      (c c1 c2 : List BTreeRecord),
      linked (pre ++ (p, sb, c) :: suf) →
      linked (pre ++ (p, q, c1) :: (q, sb, c2) :: suf) := by
  intro pre
  induction pre with
  | nil =>
    intro suf p q sb c c1 c2 h
    cases suf with
    | nil => exact ⟨rfl, h⟩
    | cons y rest => exact ⟨rfl, h⟩
  | cons x pre2 ih =>
    intro suf p q sb c c1 c2 h
    obtain ⟨x1, x2, x3⟩ := x
    cases pre2 with
    | nil => exact ⟨h.1, ih suf p q sb c c1 c2 h.2⟩
    | cons z pre3 => exact ⟨h.1, ih suf p q sb c c1 c2 h.2⟩

theorem linked_next :
    ∀ (l : List FringeLeaf), linked l → ∀ i (hi : i < l.length),
      (i + 1 = l.length → (l.get ⟨i, hi⟩).2.1 = 0) ∧
      (∀ hj : i + 1 < l.length,
        (l.get ⟨i, hi⟩).2.1 = (l.get ⟨i + 1, hj⟩).1) := by
  intro l
  induction l with
  | nil =>
    intro _ i hi
    simp at hi
  | cons x rest ih =>
    intro h i hi
    cases rest with
    | nil =>
      obtain rfl : i = 0 := by simp at hi; omega
      constructor
      · intro _
        exact h
      · intro hj
        simp at hj
    | cons y rest2 =>
      cases i with
      | zero =>
        constructor
        · intro he
          simp at he
        · intro hj
          exact h.1
      | succ i2 =>
        have hi2 : i2 < (y :: rest2).length := by
          simp only [List.length_cons] at hi ⊢
          omega
        obtain ⟨h1, h2⟩ := ih h.2 i2 hi2
        constructor
        · intro he
          exact h1 (by simp only [List.length_cons] at he ⊢; omega)
        · intro hj
          exact h2 (by simp only [List.length_cons] at hj ⊢; omega)

/-! ### Key uniqueness across the fringe -/

theorem sorted_cells_key_inj :
    ∀ (cells : List BTreeRecord),
      (cells.map (fun c => c.key)).Pairwise (fun a b => a < b) →
      ∀ c ∈ cells, ∀ d ∈ cells, c.key = d.key → c = d := by
  intro cells
  induction cells with
  | nil =>
    intro _ c hc
    simp at hc
  | cons a l ih =>
    intro h c hc d hd he
    rw [List.map_cons, List.pairwise_cons] at h
    rcases List.mem_cons.mp hc with rfl | hc2
    · rcases List.mem_cons.mp hd with rfl | hd2
      · rfl
      · have := h.1 d.key (List.mem_map_of_mem _ hd2)
        omega
    · rcases List.mem_cons.mp hd with rfl | hd2
      · have := h.1 c.key (List.mem_map_of_mem _ hc2)
        omega
      · exact ih h.2 c hc2 d hd2 he

theorem mem_fringeKeys (fringe : List FringeLeaf) (y : FringeLeaf)
    (hy : y ∈ fringe) (d : BTreeRecord) (hd : d ∈ y.2.2) :
    d.key ∈ fringeKeys fringe := by
  simp only [fringeKeys, List.mem_flatten, List.mem_map]
  exact ⟨y.2.2.map (fun c => c.key), ⟨y, hy, rfl⟩, List.mem_map_of_mem _ hd⟩

theorem fringe_key_unique :
    ∀ (fringe : List FringeLeaf),
      (fringeKeys fringe).Pairwise (fun a b => a < b) →
      ∀ x ∈ fringe, ∀ y ∈ fringe, ∀ c ∈ x.2.2, ∀ d ∈ y.2.2,
        c.key = d.key → x = y ∧ c = d := by
  intro fringe
  induction fringe with
  | nil =>
    intro _ x hx
    simp at hx
  | cons z rest ih =>
    intro h x hx y hy c hc d hd he
    have hsplit : fringeKeys (z :: rest) =
        z.2.2.map (fun c => c.key) ++ fringeKeys rest := by
      simp [fringeKeys]
    rw [hsplit, List.pairwise_append] at h
    obtain ⟨h1, h2, hcross⟩ := h
    rcases List.mem_cons.mp hx with rfl | hx2
    · rcases List.mem_cons.mp hy with rfl | hy2
      · exact ⟨rfl, sorted_cells_key_inj _ h1 c hc d hd he⟩
      · have hlt := hcross c.key (List.mem_map_of_mem _ hc) d.key
          (mem_fringeKeys rest y hy2 d hd)
        omega
    · rcases List.mem_cons.mp hy with rfl | hy2
      · have hlt := hcross d.key (List.mem_map_of_mem _ hd) c.key
          (mem_fringeKeys rest x hx2 c hc)
        omega
      · exact ih h2 x hx2 y hy2 c hc d hd he

theorem fringe_cross_lt :
    ∀ (fringe : List FringeLeaf),
      (fringeKeys fringe).Pairwise (fun a b => a < b) →
      ∀ i j (hi : i < fringe.length) (hj : j < fringe.length), i < j →
        ∀ c ∈ (fringe.get ⟨i, hi⟩).2.2, ∀ d ∈ (fringe.get ⟨j, hj⟩).2.2,
          c.key < d.key := by
  intro fringe
  induction fringe with
  | nil =>
    intro _ i j hi
    simp at hi
  | cons z rest ih =>
    intro h i j hi hj hij c hc d hd
    have hsplit : fringeKeys (z :: rest) =
        z.2.2.map (fun c => c.key) ++ fringeKeys rest := by
      simp [fringeKeys]
    rw [hsplit, List.pairwise_append] at h
    obtain ⟨h1, h2, hcross⟩ := h
    cases i with
    | zero =>
      cases j with
      | zero => omega
      | succ j2 =>
        have hj2 : j2 < rest.length := by
          simp only [List.length_cons] at hj
          omega
        exact hcross c.key (List.mem_map_of_mem _ hc) d.key
          (mem_fringeKeys rest _ (rest.get_mem j2 hj2) d hd)
    | succ i2 =>
      cases j with
      | zero => omega
      | succ j2 =>
        have hi2 : i2 < rest.length := by
          simp only [List.length_cons] at hi
          omega
        have hj2 : j2 < rest.length := by
          simp only [List.length_cons] at hj
          omega
        exact ih h2 i2 j2 hi2 hj2 (by omega) c hc d hd

/-! ### Height bounded by the page count -/

theorem SubT.height_bound (s : PagerState) (ht p : Nat) (lo hi : Option Int)
    (nodes : List Nat) (fringe : List FringeLeaf)
    (h : SubT s ht p lo hi nodes fringe) :
    ∃ ht2, ht2 < nodes.length ∧ SubT s ht2 p lo hi nodes fringe := by
  induction h with
  | leafT ht2 p2 sib cells lo2 hi2 hread hchain hbounds =>
    exact ⟨0, by simp, SubT.leafT 0 p2 sib cells lo2 hi2 hread hchain hbounds⟩
  | internalT ht2 p2 lm entries lo2 hi2 nodesL fringeL nodesF fringeF hread
      hchain hkeys hlm hch ihlm ihch =>
    obtain ⟨htL, hltL, hsubL⟩ := ihlm
    have hL1 : 1 ≤ nodesL.length :=
      List.length_pos.mpr
        (List.ne_nil_of_mem (SubT.root_mem _ _ _ _ _ _ _ hsubL))
    have hblock : ∀ i, i < entries.length → (nodesF i).length ≤
        (((List.range entries.length).map nodesF).flatten).length := by
      intro i hilen
      have hsp := congrArg List.length
        (flatten_range_split nodesF entries.length i hilen)
      simp only [List.length_append] at hsp
      omega
    have hchH : ∀ i (hilen : i < entries.length),
        SubT s (nodesL.length - 1 +
            (((List.range entries.length).map nodesF).flatten).length)
          (entries.get ⟨i, hilen⟩).childPageNum
          (some ((entries.get ⟨i, hilen⟩).key)) (hiOf entries i hi2)
          (nodesF i) (fringeF i) := by
      intro i hilen
      obtain ⟨hti, hlti, hsubi⟩ := ihch i hilen
      have := hblock i hilen
      exact SubT.mono s _ _ _ _ _ _ hsubi _ (by omega)
    have hsubL2 : SubT s (nodesL.length - 1 +
        (((List.range entries.length).map nodesF).flatten).length)
        lm lo2 (lmHi entries hi2) nodesL fringeL :=
      SubT.mono s _ _ _ _ _ _ hsubL _ (by omega)
    refine ⟨_ + 1, ?_, SubT.internalT _ p2 lm entries lo2 hi2 nodesL fringeL
      nodesF fringeF hread hchain hkeys hsubL2 hchH⟩
    simp only [List.length_cons, List.length_append]
    omega

/-! ### One step of `propagateSplit` on a non-empty path -/

theorem propagateSplit_step (s : PagerState) (root parent : Nat)
    (path : List Nat) (pk : Int) (np : Nat) (lmc : Nat)
    (entries : List InternalEntry)
    (hread : s.readPage parent = .ok (.internal lmc entries))
    (hlt : parent < s.pages.length) :
    BTree.propagateSplit s root (path ++ [parent]) pk np =
      (if (BTree.insertEntrySorted ⟨pk, np⟩ entries).length ≤ maxInternalKeys
       then (PagerState.mk (s.pages.set parent
          (Page.internal lmc (BTree.insertEntrySorted ⟨pk, np⟩ entries)))
          s.schemaPage, Except.ok root)
       else
         match BTree.splitInternalNode (PagerState.mk (s.pages.set parent
            (Page.internal lmc (BTree.insertEntrySorted ⟨pk, np⟩ entries)))
            s.schemaPage) parent with
         | (s2, Except.error e) => (s2, Except.error e)
         | (s2, Except.ok (pk2, np2)) =>
           BTree.propagateSplit s2 root path pk2 np2) := by
  rw [BTree.propagateSplit]
  split
  · rename_i hlast
    rw [List.getLast?_concat] at hlast
    cases hlast
  · rename_i parent2 hlast
    rw [List.getLast?_concat] at hlast
    injection hlast with hlast
    subst hlast
    rw [List.dropLast_concat, hread]
    show (match s.writePage parent
        (Page.internal lmc (BTree.insertEntrySorted ⟨pk, np⟩ entries)) with
      | (s1, Except.error e) => (s1, Except.error e)
      | (s1, Except.ok _) =>
        if (BTree.insertEntrySorted ⟨pk, np⟩ entries).length ≤ maxInternalKeys
        then (s1, Except.ok root)
        else
          match BTree.splitInternalNode s1 parent with
          | (s2, Except.error e) => (s2, Except.error e)
          | (s2, Except.ok (pk2, np2)) =>
            BTree.propagateSplit s2 root path pk2 np2) = _
    rw [PagerState.writePage_lt _ _ _ hlt]

/-! ### `createNewRoot` execution -/

theorem createNewRoot_run (s : PagerState) (c : Nat) (pk : Int) (np : Nat) :
    BTree.createNewRoot s c pk np =
      (PagerState.mk ((s.pages ++ [Page.unused]).set s.totalPages
        (Page.internal c [⟨pk, np⟩])) s.schemaPage, .ok s.totalPages) ∧
    (PagerState.mk ((s.pages ++ [Page.unused]).set s.totalPages
        (Page.internal c [⟨pk, np⟩])) s.schemaPage).readPage s.totalPages =
      .ok (.internal c [⟨pk, np⟩]) ∧
    (∀ n, n < s.totalPages →
      (PagerState.mk ((s.pages ++ [Page.unused]).set s.totalPages
        (Page.internal c [⟨pk, np⟩])) s.schemaPage).readPage n =
        s.readPage n) ∧
    (PagerState.mk ((s.pages ++ [Page.unused]).set s.totalPages
        (Page.internal c [⟨pk, np⟩])) s.schemaPage).totalPages =
      s.totalPages + 1 := by
  refine ⟨?main, ?rnew, ?rold, ?tot⟩
  · unfold BTree.createNewRoot
    show (match (PagerState.allocatePage s) with
      | (s1, newRootPageNum) => _) = _
    simp only [PagerState.allocatePage]
    rw [PagerState.writePage_lt _ _ _ (by simp [PagerState.totalPages])]
    simp only [PagerState.totalPages]
  · rw [PagerState.readPage_mk]
    rw [List.getElem?_set_self (h := by simp [PagerState.totalPages])]
  · intro n hn
    have hn2 : n < s.pages.length := hn
    have hx : ((s.pages ++ [Page.unused]).set s.totalPages
        (Page.internal c [⟨pk, np⟩]))[n]? = s.pages[n]? := by
      rw [List.getElem?_set_ne (show s.totalPages ≠ n from fun hc => by
          rw [PagerState.totalPages] at hc; omega),
        List.getElem?_append_left hn2]
    have hg1 : (PagerState.mk ((s.pages ++ [Page.unused]).set s.totalPages
        (Page.internal c [⟨pk, np⟩])) s.schemaPage).readPage n =
        .ok (s.pages.get ⟨n, hn2⟩) := by
      rw [PagerState.readPage_mk, hx]
      exact List.getElem?_eq_getElem hn2
    have hg2 : s.readPage n = .ok (s.pages.get ⟨n, hn2⟩) := by
      rw [PagerState.readPage_eq_ok]
      exact List.getElem?_eq_getElem hn2
    rw [hg1, hg2]
  · simp [PagerState.totalPages]

theorem perm_two_cons {α : Type} (a b : α) (X Y Z W : List α) :
    ((a :: (X ++ Y)) ++ (b :: (Z ++ W))).Perm
      (b :: a :: (X ++ (Y ++ Z ++ W))) := by
  have h1 : (a :: (X ++ Y)) ++ (b :: (Z ++ W)) =
      a :: ((X ++ Y) ++ b :: (Z ++ W)) := by simp
  rw [h1]
  refine (List.Perm.cons a List.perm_middle).trans ?_
  have h2 : (X ++ Y) ++ (Z ++ W) = X ++ (Y ++ Z ++ W) := by
    simp [List.append_assoc]
  rw [h2]
  exact List.Perm.swap b a _

/-- Splitting an over-full internal node at the root of a well-formed
subtree yields two adjacent well-formed subtrees (the original page
and the fresh page), partitioning the original fringe at the promoted
key, which lies strictly inside the subtree's bounds. -/
theorem splitInternal_subtree (S1 : PagerState) (P H : Nat)
    (plo phi : Option Int) (nodesP : List Nat) (fringeP : List FringeLeaf)
    (lmc : Nat) (es : List InternalEntry)
    (hsub : SubT S1 H P plo phi nodesP fringeP)
    (hreadI : S1.readPage P = .ok (.internal lmc es))
    (hndP : nodesP.Nodup)
    (hlen : 4 < es.length) :
    ∃ pe HL HR nodesL2 fringeL2 nodesR2 fringeR2,
      BTree.splitInternalNode S1 P =
        ((BTree.splitInternalNode S1 P).1,
          .ok ((pe : InternalEntry).key, S1.totalPages)) ∧
      SubT (BTree.splitInternalNode S1 P).1 HL P plo (some pe.key)
        nodesL2 fringeL2 ∧
      SubT (BTree.splitInternalNode S1 P).1 HR S1.totalPages
        (some pe.key) phi nodesR2 fringeR2 ∧
      fringeL2 ++ fringeR2 = fringeP ∧
      (nodesL2 ++ nodesR2).Perm (S1.totalPages :: nodesP) ∧
      (∀ l, plo = some l → l < pe.key) ∧
      (∀ h2, phi = some h2 → pe.key < h2) ∧
      (∀ n, n < S1.totalPages → n ≠ P →
        (BTree.splitInternalNode S1 P).1.readPage n = S1.readPage n) ∧
      (BTree.splitInternalNode S1 P).1.totalPages = S1.totalPages + 1 := by
  cases hsub with
  | leafT ht2 p2 sib cells lo2 hi2 hread2 hchain hbounds =>
    rw [hread2] at hreadI
    simp at hreadI
  | internalT ht2 p2 lm2 entries2 lo2 hi2 nodesL fringeL nodesF fringeF
      hread2 hchain hkeys hlm hch =>
    rw [hread2] at hreadI
    injection hreadI with hpg
    injection hpg with hlmq hesq
    subst hlmq
    subst hesq
    have hsplt : entries2.length / 2 < entries2.length := by omega
    have hsp2 : 2 ≤ entries2.length / 2 := by omega
    have h00 : 0 < entries2.length := by omega
    have hmid : entries2.get? (entries2.length / 2) =
        some (entries2.get ⟨entries2.length / 2, hsplt⟩) :=
      List.get?_eq_get hsplt
    obtain ⟨hmain, hrdP, hrdN, hrdO, htot⟩ :=
      splitInternalNode_run S1 P lm2 entries2
        (entries2.get ⟨entries2.length / 2, hsplt⟩) hread2 hmid
    haveI : IsTrans InternalEntry (fun a b => a.key < b.key) :=
      ⟨fun a b d hab hbd => lt_trans hab hbd⟩
    have hpw := List.chain'_iff_pairwise.mp hchain
    have hpwg := List.pairwise_iff_get.mp hpw
    have hPnot : P ∉ nodesL ++
        ((List.range entries2.length).map nodesF).flatten :=
      (List.nodup_cons.mp hndP).1
    have hagL : ∀ n ∈ nodesL,
        (BTree.splitInternalNode S1 P).1.readPage n = S1.readPage n := by
      intro n hn
      refine hrdO n (SubT.nodes_lt _ _ _ _ _ _ _ hlm n hn) ?_
      intro hc
      exact hPnot (List.mem_append_left _ (hc ▸ hn))
    have hagC : ∀ j (hj : j < entries2.length), ∀ n ∈ nodesF j,
        (BTree.splitInternalNode S1 P).1.readPage n = S1.readPage n := by
      intro j hj n hn
      refine hrdO n (SubT.nodes_lt _ _ _ _ _ _ _ (hch j hj) n hn) ?_
      intro hc
      exact hPnot (List.mem_append_right _
        ((mem_flatten_range _ _ _).mpr ⟨j, hj, hc ▸ hn⟩))
    have hgT : ∀ j (hjT : j < (entries2.take (entries2.length / 2)).length)
        (hjE : j < entries2.length),
        (entries2.take (entries2.length / 2)).get ⟨j, hjT⟩ =
          entries2.get ⟨j, hjE⟩ := by
      intro j hjT hjE
      simp [List.get_eq_getElem, List.getElem_take]
    have hgD : ∀ t (htT : t < (entries2.drop
          (entries2.length / 2 + 1)).length)
        (htE : entries2.length / 2 + 1 + t < entries2.length),
        (entries2.drop (entries2.length / 2 + 1)).get ⟨t, htT⟩ =
          entries2.get ⟨entries2.length / 2 + 1 + t, htE⟩ := by
      intro t htT htE
      simp [List.get_eq_getElem, List.getElem_drop]
    have hlm0 : entries2.get? 0 = some (entries2.get ⟨0, h00⟩) :=
      List.get?_eq_get h00
    have hlmEq : lmHi (entries2.take (entries2.length / 2))
        (some (entries2.get ⟨entries2.length / 2, hsplt⟩).key) =
        lmHi entries2 phi := by
      unfold lmHi
      rw [← List.get?_zero, ← List.get?_zero,
        List.get?_take (by omega), hlm0]
    have hioT : ∀ j, j < entries2.length / 2 →
        hiOf (entries2.take (entries2.length / 2)) j
          (some (entries2.get ⟨entries2.length / 2, hsplt⟩).key) =
          hiOf entries2 j phi := by
      intro j hj
      unfold hiOf
      by_cases hc : j + 1 < entries2.length / 2
      · rw [List.get?_take hc,
          List.get?_eq_get (show j + 1 < entries2.length from by omega)]
      · have hj1 : j + 1 = entries2.length / 2 := by omega
        have h1 : (entries2.take (entries2.length / 2)).get? (j + 1) =
            none := by
          rw [List.get?_eq_none, List.length_take]
          omega
        rw [h1, hj1, hmid]
    have hioD : ∀ t, t < (entries2.drop (entries2.length / 2 + 1)).length →
        hiOf (entries2.drop (entries2.length / 2 + 1)) t phi =
          hiOf entries2 (entries2.length / 2 + 1 + t) phi := by
      intro t ht
      unfold hiOf
      rw [List.get?_drop]
      have hidx : entries2.length / 2 + 1 + (t + 1) =
          entries2.length / 2 + 1 + t + 1 := by omega
      rw [hidx]
    have hlmD : lmHi (entries2.drop (entries2.length / 2 + 1)) phi =
        hiOf entries2 (entries2.length / 2) phi := by
      unfold lmHi hiOf
      rw [← List.get?_zero, List.get?_drop]
    have hchainTake : (entries2.take (entries2.length / 2)).Chain'
        (fun a b => a.key < b.key) := by
      rw [List.chain'_iff_pairwise]
      exact List.Pairwise.sublist (List.take_sublist _ _) hpw
    have hchainDrop : (entries2.drop (entries2.length / 2 + 1)).Chain'
        (fun a b => a.key < b.key) := by
      rw [List.chain'_iff_pairwise]
      exact List.Pairwise.sublist (List.drop_sublist _ _) hpw
    have hsubL2 : SubT (BTree.splitInternalNode S1 P).1 (ht2 + 1) P plo
        (some (entries2.get ⟨entries2.length / 2, hsplt⟩).key)
        (P :: (nodesL ++
          ((List.range (entries2.take (entries2.length / 2)).length).map
            nodesF).flatten))
        (fringeL ++
          ((List.range (entries2.take (entries2.length / 2)).length).map
            fringeF).flatten) := by
      refine SubT.internalT ht2 P lm2 (entries2.take (entries2.length / 2))
        plo (some (entries2.get ⟨entries2.length / 2, hsplt⟩).key)
        nodesL fringeL nodesF fringeF hrdP hchainTake ?_ ?_ ?_
      · intro e he
        obtain ⟨⟨j, hjT⟩, rfl⟩ := List.mem_iff_get.mp he
        have hjE : j < entries2.length := by
          rw [List.length_take] at hjT
          omega
        have hjsp : j < entries2.length / 2 := by
          rw [List.length_take] at hjT
          omega
        rw [hgT j hjT hjE]
        constructor
        · intro l hl
          exact (hkeys _ (entries2.get_mem _ _)).1 l hl
        · intro h2 hh2
          injection hh2 with hh2
          have := hpwg ⟨j, hjE⟩ ⟨entries2.length / 2, hsplt⟩
            (Fin.mk_lt_mk.mpr hjsp)
          omega
      · rw [hlmEq]
        exact SubT.stable S1 _ _ _ _ _ _ _ hlm hagL
      · intro j hjT
        have hjE : j < entries2.length := by
          rw [List.length_take] at hjT
          omega
        have hjsp : j < entries2.length / 2 := by
          rw [List.length_take] at hjT
          omega
        rw [hgT j hjT hjE, hioT j hjsp]
        exact SubT.stable S1 _ _ _ _ _ _ _ (hch j hjE) (hagC j hjE)
    have hsubR2 : SubT (BTree.splitInternalNode S1 P).1 (ht2 + 1)
        S1.totalPages
        (some (entries2.get ⟨entries2.length / 2, hsplt⟩).key) phi
        (S1.totalPages :: (nodesF (entries2.length / 2) ++
          ((List.range
            (entries2.drop (entries2.length / 2 + 1)).length).map
            (fun t => nodesF (entries2.length / 2 + 1 + t))).flatten))
        (fringeF (entries2.length / 2) ++
          ((List.range
            (entries2.drop (entries2.length / 2 + 1)).length).map
            (fun t => fringeF (entries2.length / 2 + 1 + t))).flatten) := by
      refine SubT.internalT ht2 S1.totalPages
        (entries2.get ⟨entries2.length / 2, hsplt⟩).childPageNum
        (entries2.drop (entries2.length / 2 + 1))
        (some (entries2.get ⟨entries2.length / 2, hsplt⟩).key) phi
        (nodesF (entries2.length / 2)) (fringeF (entries2.length / 2))
        (fun t => nodesF (entries2.length / 2 + 1 + t))
        (fun t => fringeF (entries2.length / 2 + 1 + t))
        hrdN hchainDrop ?_ ?_ ?_
      · intro e he
        obtain ⟨⟨t, htT⟩, rfl⟩ := List.mem_iff_get.mp he
        have htE : entries2.length / 2 + 1 + t < entries2.length := by
          rw [List.length_drop] at htT
          omega
        rw [hgD t htT htE]
        constructor
        · intro l hl
          injection hl with hl
          have := hpwg ⟨entries2.length / 2, hsplt⟩
            ⟨entries2.length / 2 + 1 + t, htE⟩
            (Fin.mk_lt_mk.mpr (by omega))
          omega
        · intro h2 hh2
          exact (hkeys _ (entries2.get_mem _ _)).2 h2 hh2
      · rw [hlmD]
        exact SubT.stable S1 _ _ _ _ _ _ _ (hch (entries2.length / 2) hsplt)
          (hagC _ hsplt)
      · intro t htT
        have htE : entries2.length / 2 + 1 + t < entries2.length := by
          rw [List.length_drop] at htT
          omega
        rw [hgD t htT htE, hioD t htT]
        exact SubT.stable S1 _ _ _ _ _ _ _ (hch _ htE) (hagC _ htE)
    have hlT : (entries2.take (entries2.length / 2)).length =
        entries2.length / 2 := by
      rw [List.length_take]
      omega
    have hlD : (entries2.drop (entries2.length / 2 + 1)).length =
        entries2.length - entries2.length / 2 - 1 := by
      rw [List.length_drop]
      omega
    rw [hlT] at hsubL2
    rw [hlD] at hsubR2
    refine ⟨entries2.get ⟨entries2.length / 2, hsplt⟩, ht2 + 1, ht2 + 1,
      _, _, _, _, ?_, hsubL2, hsubR2, ?_, ?_, ?_, ?_, hrdO, htot⟩
    · rw [hmain]
    · rw [flatten_range_split fringeF entries2.length
        (entries2.length / 2) hsplt]
      simp [List.append_assoc]
    · rw [flatten_range_split nodesF entries2.length
        (entries2.length / 2) hsplt]
      exact perm_two_cons P S1.totalPages nodesL _ _ _
    · intro l hl
      have h1 := (hkeys (entries2.get ⟨0, h00⟩) (entries2.get_mem _ _)).1 l hl
      have h2 := hpwg ⟨0, h00⟩ ⟨entries2.length / 2, hsplt⟩
        (Fin.mk_lt_mk.mpr (by omega))
      omega
    · intro h2 hh2
      exact (hkeys _ (entries2.get_mem _ _)).2 h2 hh2

/-! ### Entry access through a positional insert -/

theorem get_insertAt_lt {α : Type} (es : List α) (x : α) (m : Nat)
    (hm : m ≤ es.length) (j : Nat) (hjm : j < m)
    (hj : j < (es.take m ++ x :: es.drop m).length)
    (hje : j < es.length) :
    (es.take m ++ x :: es.drop m).get ⟨j, hj⟩ = es.get ⟨j, hje⟩ := by
  have h1 := List.get?_eq_get hj
  rw [getq_insertAt es x m hm j, if_pos hjm, List.get?_eq_get hje] at h1
  injection h1 with h2
  exact h2.symm

theorem get_insertAt_eq {α : Type} (es : List α) (x : α) (m : Nat)
    (hm : m ≤ es.length)
    (hj : m < (es.take m ++ x :: es.drop m).length) :
    (es.take m ++ x :: es.drop m).get ⟨m, hj⟩ = x := by
  have h1 := List.get?_eq_get hj
  rw [getq_insertAt es x m hm m, if_neg (lt_irrefl m), if_pos rfl] at h1
  injection h1 with h2
  exact h2.symm

theorem get_insertAt_gt {α : Type} (es : List α) (x : α) (m : Nat)
    (hm : m ≤ es.length) (j : Nat) (hmj : m < j)
    (hj : j < (es.take m ++ x :: es.drop m).length)
    (hje : j - 1 < es.length) :
    (es.take m ++ x :: es.drop m).get ⟨j, hj⟩ = es.get ⟨j - 1, hje⟩ := by
  have h1 := List.get?_eq_get hj
  rw [getq_insertAt es x m hm j, if_neg (by omega), if_neg (by omega),
    List.get?_eq_get hje] at h1
  injection h1 with h2
  exact h2.symm

theorem hiOf_insertAt_lt (es : List InternalEntry) (x : InternalEntry)
    (m : Nat) (hm : m ≤ es.length) (j : Nat) (hjm : j + 1 < m)
    (hi : Option Int) :
    hiOf (es.take m ++ x :: es.drop m) j hi = hiOf es j hi := by
  unfold hiOf
  rw [getq_insertAt es x m hm (j + 1), if_pos hjm]

theorem hiOf_insertAt_eq (es : List InternalEntry) (x : InternalEntry)
    (m : Nat) (hm : m ≤ es.length) (j : Nat) (hjm : j + 1 = m)
    (hi : Option Int) :
    hiOf (es.take m ++ x :: es.drop m) j hi = some x.key := by
  unfold hiOf
  rw [getq_insertAt es x m hm (j + 1), if_neg (by omega), if_pos hjm]

theorem hiOf_insertAt_ge1 (es : List InternalEntry) (x : InternalEntry)
    (m : Nat) (hm : m ≤ es.length) (j : Nat) (hmj : m ≤ j) (hj1 : 1 ≤ j)
    (hi : Option Int) :
    hiOf (es.take m ++ x :: es.drop m) j hi = hiOf es (j - 1) hi := by
  unfold hiOf
  rw [getq_insertAt es x m hm (j + 1), if_neg (by omega), if_neg (by omega)]
  have hidx : j + 1 - 1 = j - 1 + 1 := by omega
  rw [hidx]

theorem hiOf_insertAt_zero (es : List InternalEntry) (x : InternalEntry)
    (hi : Option Int) :
    hiOf (es.take 0 ++ x :: es.drop 0) 0 hi = lmHi es hi := by
  unfold hiOf lmHi
  rw [getq_insertAt es x 0 (by omega) 1, if_neg (by omega),
    if_neg (by omega), ← List.get?_zero]

theorem lmHi_insertAt_pos (es : List InternalEntry) (x : InternalEntry)
    (m : Nat) (hm1 : 1 ≤ m) (hm : m ≤ es.length) (hi : Option Int) :
    lmHi (es.take m ++ x :: es.drop m) hi = lmHi es hi := by
  unfold lmHi
  rw [← List.get?_zero, ← List.get?_zero,
    getq_insertAt es x m hm 0, if_pos (show (0 : Nat) < m by omega)]

/-- One parent step of `propagateSplit`: if after the child split the
parent page has been rewritten into a well-formed subtree whose fringe
wraps the two split halves, the propagation either stops (when the
parent fits) or splits the parent and recurses, in both cases
rebuilding a well-formed tree at the root. -/
theorem propagateSplit_snoc_aux (fs : List TFrame) (f : TFrame)
    (hIH : ∀ (s : PagerState) (root c : Nat) (clo chi : Option Int)
      (pk : Int) (np htA htB : Nat) (nodesA nodesB : List Nat)
      (fringeA fringeB : List FringeLeaf),
      FramesOK s fs root none none c clo chi →
      SubT s htA c clo (some pk) nodesA fringeA →
      SubT s htB np (some pk) chi nodesB fringeB →
      (∀ l, clo = some l → l < pk) →
      (∀ h, chi = some h → pk < h) →
      (ctxNodes fs ++ (nodesA ++ nodesB)).Nodup →
      ∃ s2 root2 ht2 nodes2,
        BTree.propagateSplit s root (fs.map (fun g => g.page)) pk np =
          (s2, .ok root2) ∧
        SubT s2 ht2 root2 none none nodes2
          (ctxPre fs ++ (fringeA ++ fringeB) ++ ctxSuf fs) ∧
        nodes2.Nodup)
    (s : PagerState) (root : Nat) (qlo qhi : Option Int) (pk : Int)
    (np HQ : Nat) (nodesQ : List Nat)
    (nodesA nodesB : List Nat) (fringeA fringeB : List FringeLeaf)
    (hfsOK : FramesOK s fs root none none f.page qlo qhi)
    (hreadq : s.readPage f.page = .ok (.internal f.lm f.entries))
    (hQ : SubT (PagerState.mk (s.pages.set f.page (Page.internal f.lm
        (BTree.insertEntrySorted ⟨pk, np⟩ f.entries))) s.schemaPage)
      HQ f.page qlo qhi nodesQ
      (f.leftFringe ++ (fringeA ++ fringeB) ++ f.rightFringe))
    (hpermQ : nodesQ.Perm (f.page :: (f.flankNodes ++ (nodesA ++ nodesB))))
    (hnd : (ctxNodes (fs ++ [f]) ++ (nodesA ++ nodesB)).Nodup) :
    ∃ s2 root2 ht2 nodes2,
      BTree.propagateSplit s root ((fs ++ [f]).map (fun g => g.page))
        pk np = (s2, .ok root2) ∧
      SubT s2 ht2 root2 none none nodes2
        (ctxPre (fs ++ [f]) ++ (fringeA ++ fringeB) ++
          ctxSuf (fs ++ [f])) ∧
      nodes2.Nodup := by
  set S1 : PagerState := PagerState.mk (s.pages.set f.page
    (Page.internal f.lm (BTree.insertEntrySorted ⟨pk, np⟩ f.entries)))
    s.schemaPage with hS1def
  have hqlt : f.page < s.pages.length := PagerState.readPage_lt s _ _ hreadq
  have hS1tot : S1.totalPages = s.totalPages := by
    rw [hS1def]
    simp [PagerState.totalPages]
  have hS1o : ∀ n, n ≠ f.page → S1.readPage n = s.readPage n := by
    intro n hne
    have h2 := readPage_write_other s f.page n
      (Page.internal f.lm (BTree.insertEntrySorted ⟨pk, np⟩ f.entries)) hne
    rw [PagerState.writePage_lt _ _ _ hqlt] at h2
    exact h2
  have hreadS1 : S1.readPage f.page =
      .ok (.internal f.lm (BTree.insertEntrySorted ⟨pk, np⟩ f.entries)) := by
    have h2 := readPage_write_self s f.page
      (Page.internal f.lm (BTree.insertEntrySorted ⟨pk, np⟩ f.entries)) hqlt
    rw [PagerState.writePage_lt _ _ _ hqlt] at h2
    exact h2
  have hpath : (fs ++ [f]).map (fun g => g.page) =
      fs.map (fun g => g.page) ++ [f.page] := by simp
  have hstep := propagateSplit_step s root f.page
    (fs.map (fun g => g.page)) pk np f.lm f.entries hreadq hqlt
  rw [← hS1def] at hstep
  have hndC : (ctxNodes fs ++ (f.page :: (f.flankNodes ++
      (nodesA ++ nodesB)))).Nodup := by
    have h0 := hnd
    rw [ctxNodes_append] at h0
    simp only [ctxNodes, List.append_nil] at h0
    have heq : (ctxNodes fs ++ f.page :: f.flankNodes) ++
        (nodesA ++ nodesB) = ctxNodes fs ++ (f.page ::
        (f.flankNodes ++ (nodesA ++ nodesB))) := by
      simp [List.append_assoc]
    rw [heq] at h0
    exact h0
  have hQND : nodesQ.Nodup :=
    (hpermQ.nodup_iff).mpr (List.Nodup.of_append_right hndC)
  have hfpctx : f.page ∉ ctxNodes fs := fun hmem =>
    (List.disjoint_of_nodup_append hndC) hmem (List.mem_cons_self _ _)
  have hagreeCtx : ∀ n ∈ ctxNodes fs, S1.readPage n = s.readPage n :=
    fun n hn => hS1o n (fun hc => hfpctx (hc ▸ hn))
  have hfr : ctxPre fs ++ (f.leftFringe ++ (fringeA ++ fringeB) ++
      f.rightFringe) ++ ctxSuf fs =
      ctxPre (fs ++ [f]) ++ (fringeA ++ fringeB) ++ ctxSuf (fs ++ [f]) := by
    rw [ctxPre_append, ctxSuf_append]
    simp [ctxPre, ctxSuf, List.append_assoc]
  by_cases hfit : (BTree.insertEntrySorted ⟨pk, np⟩ f.entries).length ≤
      maxInternalKeys
  · obtain ⟨ht3, nodes3, hsub3, hperm3⟩ :=
      frames_plug s S1 fs root none none f.page qlo qhi hfsOK hagreeCtx
        HQ nodesQ _ hQ
    refine ⟨S1, root, ht3, nodes3, ?_, ?_, ?_⟩
    · rw [hpath, hstep, if_pos hfit]
    · rw [hfr] at hsub3
      exact hsub3
    · refine (hperm3.nodup_iff).mpr ?_
      exact ((List.Perm.append_left _ hpermQ).nodup_iff).mpr hndC
  · have hfit5 : 4 < (BTree.insertEntrySorted ⟨pk, np⟩ f.entries).length := by
      have h4 : ¬ (BTree.insertEntrySorted ⟨pk, np⟩ f.entries).length ≤ 4 := by
        simpa [maxInternalKeys] using hfit
      omega
    obtain ⟨pe, HL, HR, nodesL2, fringeL2, nodesR2, fringeR2, hspEq,
      hsubL, hsubR, hfrs, hperm2, hstrictL, hstrictR, hrdO2, htot2⟩ :=
      splitInternal_subtree S1 f.page HQ qlo qhi nodesQ _ f.lm
        (BTree.insertEntrySorted ⟨pk, np⟩ f.entries) hQ hreadS1 hQND hfit5
    have hfsOK1 : FramesOK S1 fs root none none f.page qlo qhi :=
      FramesOK_stable s S1 fs root none none f.page qlo qhi hfsOK hagreeCtx
    have hagree2 : ∀ n ∈ ctxNodes fs,
        (BTree.splitInternalNode S1 f.page).1.readPage n =
          S1.readPage n := by
      intro n hn
      refine hrdO2 n ?_ (fun hc => hfpctx (hc ▸ hn))
      rw [hS1tot]
      exact FramesOK_ctx_lt s fs root none none f.page qlo qhi hfsOK n hn
    have hfsOK2 : FramesOK (BTree.splitInternalNode S1 f.page).1 fs root
        none none f.page qlo qhi :=
      FramesOK_stable S1 _ fs root none none f.page qlo qhi hfsOK1 hagree2
    have hndIH : (ctxNodes fs ++ (nodesL2 ++ nodesR2)).Nodup := by
      refine ((List.Perm.append_left (ctxNodes fs) hperm2).nodup_iff).mpr ?_
      rw [List.nodup_middle, List.nodup_cons]
      constructor
      · intro hmem
        rcases List.mem_append.mp hmem with hm | hm
        · have hlt := FramesOK_ctx_lt s fs root none none f.page qlo qhi
            hfsOK _ hm
          rw [hS1tot] at hlt
          omega
        · have hlt := SubT.nodes_lt _ _ _ _ _ _ _ hQ _ hm
          omega
      · exact ((List.Perm.append_left _ hpermQ).nodup_iff).mpr hndC
    obtain ⟨sF, rootF, htF, nodesFin, hrecEq, hsubF, hndF⟩ :=
      hIH (BTree.splitInternalNode S1 f.page).1 root f.page qlo qhi
        pe.key S1.totalPages HL HR nodesL2 nodesR2 fringeL2 fringeR2
        hfsOK2 hsubL hsubR hstrictL hstrictR hndIH
    refine ⟨sF, rootF, htF, nodesFin, ?_, ?_, hndF⟩
    · rw [hpath, hstep, if_neg hfit, hspEq]
      exact hrecEq
    · rw [hfrs, hfr] at hsubF
      exact hsubF

theorem nodup_lt_length_le (l : List Nat) (N : Nat) (hnd : l.Nodup)
    (hlt : ∀ n ∈ l, n < N) : l.length ≤ N := by
  have h1 : l.toFinset.card = l.length := List.toFinset_card_of_nodup hnd
  have h2 : l.toFinset ⊆ Finset.range N := by
    intro n hn
    exact Finset.mem_range.mpr (hlt n (List.mem_toFinset.mp hn))
  have h3 := Finset.card_le_card h2
  rw [h1, Finset.card_range] at h3
  exact h3

/-- Splitting an over-full leaf yields two adjacent well-formed leaf
subtrees whose promoted key (the first key of the right half) lies
strictly inside the old leaf's bounds. -/
theorem splitLeaf_pair (S1 : PagerState) (L sib : Nat)
    (NC : List BTreeRecord) (clo chi : Option Int)
    (hread : S1.readPage L = .ok (.leaf sib NC))
    (hchain : NC.Chain' (fun a b => a.key < b.key))
    (hkeys : ∀ c ∈ NC, keyInBounds clo chi c.key)
    (hlen : 4 < NC.length) :
    ∃ r0,
      BTree.splitLeafNode S1 L NC =
        ((BTree.splitLeafNode S1 L NC).1,
          .ok ((r0 : BTreeRecord).key, S1.totalPages)) ∧
      SubT (BTree.splitLeafNode S1 L NC).1 0 L clo (some r0.key)
        [L] [(L, S1.totalPages, NC.take ((NC.length + 1) / 2))] ∧
      SubT (BTree.splitLeafNode S1 L NC).1 0 S1.totalPages
        (some r0.key) chi
        [S1.totalPages] [(S1.totalPages, sib,
          NC.drop ((NC.length + 1) / 2))] ∧
      (∀ l, clo = some l → l < r0.key) ∧
      (∀ h2, chi = some h2 → r0.key < h2) ∧
      (∀ n, n < S1.totalPages → n ≠ L →
        (BTree.splitLeafNode S1 L NC).1.readPage n = S1.readPage n) ∧
      (BTree.splitLeafNode S1 L NC).1.totalPages = S1.totalPages + 1 := by
  have hk : (NC.length + 1) / 2 < NC.length := by omega
  have hk1 : 1 ≤ (NC.length + 1) / 2 := by omega
  have hdropne : NC.drop ((NC.length + 1) / 2) ≠ [] := by
    intro hc
    have h0 := congrArg List.length hc
    simp only [List.length_drop, List.length_nil] at h0
    omega
  obtain ⟨r0, rest0, hdrop⟩ := List.exists_cons_of_ne_nil hdropne
  have hhead : (NC.drop ((NC.length + 1) / 2)).head? = some r0 := by
    rw [hdrop]
    rfl
  obtain ⟨hmain, hrdL, hrdN, hrdO, htot⟩ :=
    splitLeafNode_run S1 L sib NC r0 hread hhead
  haveI : IsTrans BTreeRecord (fun a b => a.key < b.key) :=
    ⟨fun a b d hab hbd => lt_trans hab hbd⟩
  have hpw := List.chain'_iff_pairwise.mp hchain
  have hpwg := List.pairwise_iff_get.mp hpw
  have hr0get : NC.get ⟨(NC.length + 1) / 2, hk⟩ = r0 := by
    have h1 := List.get?_eq_get hk
    have h2 : (NC.drop ((NC.length + 1) / 2)).get? 0 = some r0 := by
      rw [hdrop]
      rfl
    rw [List.get?_drop] at h2
    have h3 := h1.symm.trans h2
    injection h3
  have hr0mem : r0 ∈ NC := by
    rw [← hr0get]
    exact NC.get_mem _ _
  have hchainT : (NC.take ((NC.length + 1) / 2)).Chain'
      (fun a b => a.key < b.key) := by
    rw [List.chain'_iff_pairwise]
    exact List.Pairwise.sublist (List.take_sublist _ _) hpw
  have hchainD : (NC.drop ((NC.length + 1) / 2)).Chain'
      (fun a b => a.key < b.key) := by
    rw [List.chain'_iff_pairwise]
    exact List.Pairwise.sublist (List.drop_sublist _ _) hpw
  have hkeysT : ∀ c ∈ NC.take ((NC.length + 1) / 2),
      keyInBounds clo (some r0.key) c.key := by
    intro c hc
    obtain ⟨⟨j, hjT⟩, rfl⟩ := List.mem_iff_get.mp hc
    have hjE : j < NC.length := by
      rw [List.length_take] at hjT
      omega
    have hjk : j < (NC.length + 1) / 2 := by
      rw [List.length_take] at hjT
      omega
    have hgT : (NC.take ((NC.length + 1) / 2)).get ⟨j, hjT⟩ =
        NC.get ⟨j, hjE⟩ := by
      simp [List.get_eq_getElem, List.getElem_take]
    rw [hgT]
    refine ⟨fun l hl => (hkeys _ (NC.get_mem _ _)).1 l hl, ?_⟩
    intro h2 hh2
    injection hh2 with hh2
    have h3 := hpwg ⟨j, hjE⟩ ⟨(NC.length + 1) / 2, hk⟩
      (Fin.mk_lt_mk.mpr hjk)
    rw [hr0get] at h3
    omega
  have hkeysD : ∀ c ∈ NC.drop ((NC.length + 1) / 2),
      keyInBounds (some r0.key) chi c.key := by
    intro c hc
    obtain ⟨⟨t, htT⟩, rfl⟩ := List.mem_iff_get.mp hc
    have htE : (NC.length + 1) / 2 + t < NC.length := by
      rw [List.length_drop] at htT
      omega
    have hgD : (NC.drop ((NC.length + 1) / 2)).get ⟨t, htT⟩ =
        NC.get ⟨(NC.length + 1) / 2 + t, htE⟩ := by
      simp [List.get_eq_getElem, List.getElem_drop]
    rw [hgD]
    constructor
    · intro l hl
      injection hl with hl
      rw [← hl]
      cases t with
      | zero =>
        have h4 : NC.get ⟨(NC.length + 1) / 2 + 0, htE⟩ = r0 := hr0get
        rw [h4]
      | succ t2 =>
        have h3 := hpwg ⟨(NC.length + 1) / 2, hk⟩
          ⟨(NC.length + 1) / 2 + (t2 + 1), htE⟩
          (Fin.mk_lt_mk.mpr (by omega))
        rw [hr0get] at h3
        omega
    · intro h2 hh2
      exact (hkeys _ (NC.get_mem _ _)).2 h2 hh2
  refine ⟨r0, ?_, ?_, ?_, ?_, ?_, hrdO, htot⟩
  · rw [hmain]
  · exact SubT.leafT 0 L S1.totalPages (NC.take ((NC.length + 1) / 2))
      clo (some r0.key) hrdL hchainT hkeysT
  · exact SubT.leafT 0 S1.totalPages sib
      (NC.drop ((NC.length + 1) / 2)) (some r0.key) chi hrdN hchainD
      hkeysD
  · intro l hl
    have h00 : 0 < NC.length := by omega
    have h1 := (hkeys (NC.get ⟨0, h00⟩) (NC.get_mem _ _)).1 l hl
    have h2 := hpwg ⟨0, h00⟩ ⟨(NC.length + 1) / 2, hk⟩
      (Fin.mk_lt_mk.mpr (by omega))
    rw [hr0get] at h2
    omega
  · intro h2 hh2
    exact (hkeys r0 hr0mem).2 h2 hh2

/-- The result of `BTree.insert` once the target leaf is known. -/
theorem insert_step (s : PagerState) (root : Nat) (record : BTreeRecord)
    (L : Nat) (path : List Nat) (sib : Nat) (cells : List BTreeRecord)
    (hfind : BTree.findLeafPage s (s.totalPages + 1) root record.key [] =
      .ok (L, path))
    (hread : s.readPage L = .ok (.leaf sib cells))
    (hlt : L < s.pages.length) :
    BTree.insert s root record =
      (if cells.any (fun cell => cell.key == record.key) then
        (s, .error ("Duplicate key: " ++ toString record.key))
      else
        if (BTree.insertSorted record cells).length ≤ maxLeafCells
        then (PagerState.mk (s.pages.set L
          (Page.leaf sib (BTree.insertSorted record cells)))
          s.schemaPage, .ok root)
        else
          match BTree.splitLeafNode (PagerState.mk (s.pages.set L
            (Page.leaf sib (BTree.insertSorted record cells)))
            s.schemaPage) L (BTree.insertSorted record cells) with
          | (s3, Except.error e) => (s3, Except.error e)
          | (s3, Except.ok (pk, np)) =>
            BTree.propagateSplit s3 root path pk np) := by
  unfold BTree.insert
  rw [hfind]
  show (match s.readPage L with
    | Except.error e => (s, Except.error e)
    | Except.ok (Page.leaf sib2 cells2) =>
      if cells2.any (fun cell => cell.key == record.key) then
        (s, Except.error ("Duplicate key: " ++ toString record.key))
      else
        match s.writePage L
            (Page.leaf sib2 (BTree.insertSorted record cells2)) with
        | (s1, Except.error e) => (s1, Except.error e)
        | (s1, Except.ok _) =>
          if (BTree.insertSorted record cells2).length ≤ maxLeafCells
          then (s1, Except.ok root)
          else
            match BTree.splitLeafNode s1 L
                (BTree.insertSorted record cells2) with
            | (s3, Except.error e) => (s3, Except.error e)
            | (s3, Except.ok (pk, np)) =>
              BTree.propagateSplit s3 root path pk np
    | Except.ok _ => (s, Except.error "not a leaf page")) = _
  rw [hread]
  show (if (cells.any fun cell => cell.key == record.key) = true then
      (s, Except.error ("Duplicate key: " ++ toString record.key))
    else
      match s.writePage L
          (Page.leaf sib (BTree.insertSorted record cells)) with
      | (s1, Except.error e) => (s1, Except.error e)
      | (s1, Except.ok _) =>
        if (BTree.insertSorted record cells).length ≤ maxLeafCells
        then (s1, Except.ok root)
        else
          match BTree.splitLeafNode s1 L
              (BTree.insertSorted record cells) with
          | (s3, Except.error e) => (s3, Except.error e)
          | (s3, Except.ok (pk, np)) =>
            BTree.propagateSplit s3 root path pk np) = _
  rw [PagerState.writePage_lt _ _ _ hlt]

/-- `propagateSplit` on a well-formed frame stack: after a child split
produced two adjacent well-formed subtrees, propagation succeeds and
rebuilds a well-formed tree whose fringe is the context around the two
halves, with no duplicate pages. -/
theorem propagateSplit_spec :
    ∀ (frames : List TFrame) (s : PagerState) (root c : Nat)
      (clo chi : Option Int) (pk : Int) (np htA htB : Nat)
      (nodesA nodesB : List Nat) (fringeA fringeB : List FringeLeaf),
      FramesOK s frames root none none c clo chi →
      SubT s htA c clo (some pk) nodesA fringeA →
      SubT s htB np (some pk) chi nodesB fringeB →
      (∀ l, clo = some l → l < pk) →
      (∀ h, chi = some h → pk < h) →
      (ctxNodes frames ++ (nodesA ++ nodesB)).Nodup →
      ∃ s2 root2 ht2 nodes2,
        BTree.propagateSplit s root (frames.map (fun g => g.page)) pk np =
          (s2, .ok root2) ∧
        SubT s2 ht2 root2 none none nodes2
          (ctxPre frames ++ (fringeA ++ fringeB) ++ ctxSuf frames) ∧
        nodes2.Nodup := by
  intro frames
  induction frames using List.reverseRecOn with
  | nil =>
    intro s root c clo chi pk np htA htB nodesA nodesB fringeA fringeB
      hfo hA hB hslo hshi hnd
    obtain ⟨hrc, hclo, hchi⟩ := hfo
    subst hrc
    subst hclo
    subst hchi
    obtain ⟨hmain, hrdR, hrdO, htot⟩ := createNewRoot_run s root pk np
    have hA2 : SubT (PagerState.mk ((s.pages ++ [Page.unused]).set
        s.totalPages (Page.internal root [⟨pk, np⟩])) s.schemaPage)
        htA root none (some pk) nodesA fringeA :=
      SubT.stable s _ _ _ _ _ _ _ hA
        (fun n hn => hrdO n (SubT.nodes_lt _ _ _ _ _ _ _ hA n hn))
    have hB2 : SubT (PagerState.mk ((s.pages ++ [Page.unused]).set
        s.totalPages (Page.internal root [⟨pk, np⟩])) s.schemaPage)
        htB np (some pk) none nodesB fringeB :=
      SubT.stable s _ _ _ _ _ _ _ hB
        (fun n hn => hrdO n (SubT.nodes_lt _ _ _ _ _ _ _ hB n hn))
    have hchainE : ([⟨pk, np⟩] : List InternalEntry).Chain'
        (fun a b => a.key < b.key) := List.chain'_singleton _
    have hkeysE : ∀ e ∈ ([⟨pk, np⟩] : List InternalEntry),
        keyInBounds none none e.key :=
      fun e he => ⟨fun l hl => (nomatch hl), fun h hh => (nomatch hh)⟩
    have hlmE : SubT (PagerState.mk ((s.pages ++ [Page.unused]).set
        s.totalPages (Page.internal root [⟨pk, np⟩])) s.schemaPage)
        (htA ⊔ htB) root none (lmHi [⟨pk, np⟩] none) nodesA fringeA := by
      rw [lmHi_cons]
      exact SubT.mono _ _ _ _ _ _ _ hA2 _ (le_max_left _ _)
    have hchE : ∀ i (h : i < ([⟨pk, np⟩] : List InternalEntry).length),
        SubT (PagerState.mk ((s.pages ++ [Page.unused]).set
          s.totalPages (Page.internal root [⟨pk, np⟩])) s.schemaPage)
          (htA ⊔ htB)
          ((([⟨pk, np⟩] : List InternalEntry).get ⟨i, h⟩).childPageNum)
          (some ((([⟨pk, np⟩] : List InternalEntry).get ⟨i, h⟩).key))
          (hiOf [⟨pk, np⟩] i none)
          ((fun _ => nodesB) i) ((fun _ => fringeB) i) := by
      intro i h
      have hi0 : i = 0 := by simp at h; omega
      subst hi0
      exact SubT.mono _ _ _ _ _ _ _ hB2 _ (le_max_right _ _)
    have hroot := SubT.internalT (htA ⊔ htB) s.totalPages root
      [⟨pk, np⟩] none none nodesA fringeA (fun _ => nodesB)
      (fun _ => fringeB) hrdR hchainE hkeysE hlmE hchE
    have hn1 : ((List.range
        ([(⟨pk, np⟩ : InternalEntry)]).length).map
        (fun _ => nodesB)).flatten = nodesB := by simp
    have hf1 : ((List.range
        ([(⟨pk, np⟩ : InternalEntry)]).length).map
        (fun _ => fringeB)).flatten = fringeB := by simp
    rw [hn1, hf1] at hroot
    refine ⟨PagerState.mk ((s.pages ++ [Page.unused]).set s.totalPages
        (Page.internal root [⟨pk, np⟩])) s.schemaPage, s.totalPages,
      (htA ⊔ htB) + 1, s.totalPages :: (nodesA ++ nodesB), ?_, ?_, ?_⟩
    · rw [List.map_nil, propagateSplit_nil]
      exact hmain
    · have hfr0 : ctxPre ([] : List TFrame) ++ (fringeA ++ fringeB) ++
          ctxSuf ([] : List TFrame) = fringeA ++ fringeB := by
        simp [ctxPre, ctxSuf]
      rw [hfr0]
      exact hroot
    · rw [List.nodup_cons]
      refine ⟨?_, ?_⟩
      · intro hmem
        rcases List.mem_append.mp hmem with hm | hm
        · have := SubT.nodes_lt _ _ _ _ _ _ _ hA _ hm
          omega
        · have := SubT.nodes_lt _ _ _ _ _ _ _ hB _ hm
          omega
      · simpa [ctxNodes] using hnd
  | append_singleton fs f ih =>
    intro s root c clo chi pk np htA htB nodesA nodesB fringeA fringeB
      hfo hA hB hslo hshi hnd
    obtain ⟨q, qlo, qhi, hfsOK, hfOK⟩ :=
      FramesOK_snoc_elim s fs f root none none c clo chi hfo
    obtain ⟨hpage, hqlo, hqhi, hreadq, hchain, hkeys, hslot⟩ := hfOK
    subst hpage
    have hqlt : f.page < s.pages.length :=
      PagerState.readPage_lt s _ _ hreadq
    haveI : IsTrans InternalEntry (fun a b => a.key < b.key) :=
      ⟨fun a b d hab hbd => lt_trans hab hbd⟩
    have hpw := List.chain'_iff_pairwise.mp hchain
    have hpwg := List.pairwise_iff_get.mp hpw
    have hctxShape : ctxNodes (fs ++ [f]) =
        ctxNodes fs ++ (f.page :: (f.flankNodes ++ [])) := by
      rw [ctxNodes_append]
      rfl
    have hfpAB : f.page ∉ nodesA ++ nodesB := by
      rw [hctxShape] at hnd
      have heq : (ctxNodes fs ++ (f.page :: (f.flankNodes ++ []))) ++
          (nodesA ++ nodesB) = (ctxNodes fs ++ (f.page ::
          (f.flankNodes ++ []))) ++ (nodesA ++ nodesB) := rfl
      have hdisj := List.disjoint_of_nodup_append hnd
      exact fun hmem => hdisj (by simp) hmem
    have hfpFlank : f.page ∉ f.flankNodes := by
      rw [hctxShape] at hnd
      have h1 := List.Nodup.of_append_left hnd
      have h2 := List.Nodup.of_append_right h1
      have h3 := (List.nodup_cons.mp h2).1
      exact fun hmem => h3 (by simp [hmem])
    have hfpA : f.page ∉ nodesA :=
      fun hm => hfpAB (List.mem_append_left _ hm)
    have hfpB : f.page ∉ nodesB :=
      fun hm => hfpAB (List.mem_append_right _ hm)
    rcases hsl : f.slotIdx with _ | i
    · -- descended into the leftmost child
      rw [hsl] at hslot
      obtain ⟨hflank, hlmc, hcloE, hchiE⟩ := hslot
      subst hlmc
      subst hcloE
      subst hchiE
      have hright0 : ∀ h : (0:Nat) < f.entries.length,
          pk < (f.entries.get ⟨0, h⟩).key := by
        intro h
        apply hshi
        show lmHi f.entries qhi = some ((f.entries.get ⟨0, h⟩).key)
        unfold lmHi
        rw [← List.get?_zero, List.get?_eq_get h]
      have hNE : BTree.insertEntrySorted ⟨pk, np⟩ f.entries =
          f.entries.take 0 ++ ⟨pk, np⟩ :: f.entries.drop 0 :=
        insertEntrySorted_at f.entries pk np 0 (by omega)
          (fun j hj => absurd hj (by omega)) hright0
      have hlenTD : (f.entries.take 0 ++ (⟨pk, np⟩ : InternalEntry) ::
          f.entries.drop 0).length = f.entries.length + 1 :=
        length_insertAt f.entries ⟨pk, np⟩ 0 (by omega)
      have hchainTD : (f.entries.take 0 ++ (⟨pk, np⟩ : InternalEntry) ::
          f.entries.drop 0).Chain' (fun a b => a.key < b.key) :=
        chain_insertAt f.entries pk np 0 (by omega) hchain
          (fun j hj => absurd hj (by omega)) hright0
      have hkeysTD : ∀ e ∈ f.entries.take 0 ++
          (⟨pk, np⟩ : InternalEntry) :: f.entries.drop 0,
          keyInBounds qlo qhi e.key := by
        intro e he
        rw [List.take_zero, List.drop_zero, List.nil_append] at he
        rcases List.mem_cons.mp he with rfl | he2
        · constructor
          · intro l hl
            have := hslo l hl
            show l ≤ pk
            omega
          · intro h hh
            show pk < h
            cases hfe : f.entries with
            | nil =>
              apply hshi
              show lmHi f.entries qhi = some h
              rw [hfe]
              exact hh
            | cons e0 rest =>
              have h1 : pk < e0.key := hshi e0.key (by rw [hfe]; rfl)
              have h2 : e0.key < h :=
                (hkeys e0 (by rw [hfe]; exact List.mem_cons_self _ _)).2 h hh
              omega
        · exact hkeys e he2
      set ST : PagerState := PagerState.mk (s.pages.set f.page
        (Page.internal f.lm (f.entries.take 0 ++
          (⟨pk, np⟩ : InternalEntry) :: f.entries.drop 0)))
        s.schemaPage with hSTdef
      have hSTo : ∀ n, n ≠ f.page → ST.readPage n = s.readPage n := by
        intro n hne
        have h2 := readPage_write_other s f.page n (Page.internal f.lm
          (f.entries.take 0 ++ ⟨pk, np⟩ :: f.entries.drop 0)) hne
        rw [PagerState.writePage_lt _ _ _ hqlt] at h2
        exact h2
      have hreadST : ST.readPage f.page = .ok (.internal f.lm
          (f.entries.take 0 ++ ⟨pk, np⟩ :: f.entries.drop 0)) := by
        have h2 := readPage_write_self s f.page (Page.internal f.lm
          (f.entries.take 0 ++ ⟨pk, np⟩ :: f.entries.drop 0)) hqlt
        rw [PagerState.writePage_lt _ _ _ hqlt] at h2
        exact h2
      have hA1 : SubT ST htA f.lm qlo (some pk) nodesA fringeA :=
        SubT.stable s ST _ _ _ _ _ _ hA
          (fun n hn => hSTo n (fun hc => hfpA (hc ▸ hn)))
      have hB1 : SubT ST htB np (some pk) (lmHi f.entries qhi)
          nodesB fringeB :=
        SubT.stable s ST _ _ _ _ _ _ hB
          (fun n hn => hSTo n (fun hc => hfpB (hc ▸ hn)))
      obtain ⟨H0, hH0⟩ := exists_uniform_nat f.entries.length
        (fun j ht => ∀ hj : j < f.entries.length,
          SubT ST ht (f.entries.get ⟨j, hj⟩).childPageNum
            (some ((f.entries.get ⟨j, hj⟩).key)) (hiOf f.entries j qhi)
            (f.nodesF j) (f.fringeF j))
        (fun j h1 h2 hle hp hlt => SubT.mono _ _ _ _ _ _ _ (hp hlt) _ hle)
        (fun j hj => by
          obtain ⟨htj, hsubj⟩ := hflank j hj
          refine ⟨htj, fun hlt => SubT.stable s ST _ _ _ _ _ _ hsubj
            (fun n hn => hSTo n (fun hc => hfpFlank ?_))⟩
          simp only [TFrame.flankNodes, hsl]
          exact (mem_flatten_range _ _ _).mpr ⟨j, hj, hc ▸ hn⟩)
      have hchTD : ∀ j (hj : j < (f.entries.take 0 ++
          (⟨pk, np⟩ : InternalEntry) :: f.entries.drop 0).length),
          SubT ST ((htA ⊔ htB) ⊔ H0)
            (((f.entries.take 0 ++ ⟨pk, np⟩ :: f.entries.drop 0).get
              ⟨j, hj⟩).childPageNum)
            (some (((f.entries.take 0 ++ ⟨pk, np⟩ ::
              f.entries.drop 0).get ⟨j, hj⟩).key))
            (hiOf (f.entries.take 0 ++ ⟨pk, np⟩ :: f.entries.drop 0)
              j qhi)
            ((fun t => if t = 0 then nodesB else f.nodesF (t - 1)) j)
            ((fun t => if t = 0 then fringeB else f.fringeF (t - 1)) j) := by
        intro j hj
        cases j with
        | zero =>
          rw [get_insertAt_eq f.entries ⟨pk, np⟩ 0 (by omega) hj,
            hiOf_insertAt_zero]
          exact SubT.mono _ _ _ _ _ _ _ hB1 _
            (le_trans (le_max_right _ _) (le_max_left _ _))
        | succ j2 =>
          have hje : j2 < f.entries.length := by
            rw [hlenTD] at hj
            omega
          rw [get_insertAt_gt f.entries ⟨pk, np⟩ 0 (by omega) (j2 + 1)
              (by omega) hj (by omega),
            hiOf_insertAt_ge1 f.entries ⟨pk, np⟩ 0 (by omega) (j2 + 1)
              (by omega) (by omega)]
          exact SubT.mono _ _ _ _ _ _ _ (hH0 j2 hje hje) _
            (le_max_right _ _)
      have hlmQ : SubT ST ((htA ⊔ htB) ⊔ H0) f.lm qlo
          (lmHi (f.entries.take 0 ++ (⟨pk, np⟩ : InternalEntry) ::
            f.entries.drop 0) qhi) nodesA fringeA := by
        have hbnd : lmHi (f.entries.take 0 ++
            (⟨pk, np⟩ : InternalEntry) :: f.entries.drop 0) qhi =
            some pk := rfl
        rw [hbnd]
        exact SubT.mono _ _ _ _ _ _ _ hA1 _
          (le_trans (le_max_left _ _) (le_max_left _ _))
      have hsubQ := SubT.internalT ((htA ⊔ htB) ⊔ H0) f.page f.lm
        (f.entries.take 0 ++ ⟨pk, np⟩ :: f.entries.drop 0) qlo qhi
        nodesA fringeA
        (fun t => if t = 0 then nodesB else f.nodesF (t - 1))
        (fun t => if t = 0 then fringeB else f.fringeF (t - 1))
        hreadST hchainTD hkeysTD hlmQ hchTD
      have hflatN : ((List.range (f.entries.take 0 ++
          (⟨pk, np⟩ : InternalEntry) :: f.entries.drop 0).length).map
          (fun t => if t = 0 then nodesB else f.nodesF (t - 1))).flatten =
          nodesB ++ ((List.range f.entries.length).map f.nodesF).flatten := by
        rw [hlenTD, flatten_map_range_succ_left]
        have hfun : (fun t => if t + 1 = 0 then nodesB else
            f.nodesF (t + 1 - 1)) = f.nodesF := by
          funext t
          simp
        rw [hfun, if_pos rfl]
      have hflatF : ((List.range (f.entries.take 0 ++
          (⟨pk, np⟩ : InternalEntry) :: f.entries.drop 0).length).map
          (fun t => if t = 0 then fringeB else f.fringeF (t - 1))).flatten =
          fringeB ++
            ((List.range f.entries.length).map f.fringeF).flatten := by
        rw [hlenTD, flatten_map_range_succ_left]
        have hfun : (fun t => if t + 1 = 0 then fringeB else
            f.fringeF (t + 1 - 1)) = f.fringeF := by
          funext t
          simp
        rw [hfun, if_pos rfl]
      rw [hflatN, hflatF] at hsubQ
      have hfrQ : fringeA ++ (fringeB ++
          ((List.range f.entries.length).map f.fringeF).flatten) =
          f.leftFringe ++ (fringeA ++ fringeB) ++ f.rightFringe := by
        simp only [TFrame.leftFringe, TFrame.rightFringe, hsl]
        simp [List.append_assoc]
      rw [hfrQ] at hsubQ
      rw [hSTdef] at hsubQ
      rw [← hNE] at hsubQ
      have hpermQ : (f.page :: (nodesA ++ (nodesB ++
          ((List.range f.entries.length).map f.nodesF).flatten))).Perm
          (f.page :: (f.flankNodes ++ (nodesA ++ nodesB))) := by
        simp only [TFrame.flankNodes, hsl]
        refine List.Perm.cons _ ?_
        have heq : nodesA ++ (nodesB ++
            ((List.range f.entries.length).map f.nodesF).flatten) =
            (nodesA ++ nodesB) ++
            ((List.range f.entries.length).map f.nodesF).flatten := by
          simp [List.append_assoc]
        rw [heq]
        exact List.perm_append_comm
      exact propagateSplit_snoc_aux fs f ih s root qlo qhi pk np _ _
        nodesA nodesB fringeA fringeB hfsOK hreadq hsubQ hpermQ hnd
    · -- descended into the child behind entry `i`
      rw [hsl] at hslot
      obtain ⟨hilen, hlmEx, hflank, hlmc, hcloE, hchiE⟩ := hslot
      subst hlmc
      subst hcloE
      subst hchiE
      have hstricti : (f.entries.get ⟨i, hilen⟩).key < pk := hslo _ rfl
      have hleftm : ∀ j (hj : j < i + 1),
          (f.entries.get ⟨j, by omega⟩).key < pk := by
        intro j hj
        by_cases hji : j = i
        · subst hji
          exact hstricti
        · exact lt_trans (hpwg ⟨j, by omega⟩ ⟨i, hilen⟩
            (Fin.mk_lt_mk.mpr (by omega))) hstricti
      have hrightm : ∀ h : i + 1 < f.entries.length,
          pk < (f.entries.get ⟨i + 1, h⟩).key := by
        intro h
        apply hshi
        show hiOf f.entries i qhi = some ((f.entries.get ⟨i + 1, h⟩).key)
        unfold hiOf
        rw [List.get?_eq_get h]
      have hNE : BTree.insertEntrySorted ⟨pk, np⟩ f.entries =
          f.entries.take (i + 1) ++ ⟨pk, np⟩ :: f.entries.drop (i + 1) :=
        insertEntrySorted_at f.entries pk np (i + 1) (by omega)
          hleftm hrightm
      have hlenTD : (f.entries.take (i + 1) ++
          (⟨pk, np⟩ : InternalEntry) :: f.entries.drop (i + 1)).length =
          f.entries.length + 1 :=
        length_insertAt f.entries ⟨pk, np⟩ (i + 1) (by omega)
      have hchainTD : (f.entries.take (i + 1) ++
          (⟨pk, np⟩ : InternalEntry) :: f.entries.drop (i + 1)).Chain'
          (fun a b => a.key < b.key) :=
        chain_insertAt f.entries pk np (i + 1) (by omega) hchain
          hleftm hrightm
      have hkeysTD : ∀ e ∈ f.entries.take (i + 1) ++
          (⟨pk, np⟩ : InternalEntry) :: f.entries.drop (i + 1),
          keyInBounds qlo qhi e.key := by
        intro e he
        rcases List.mem_append.mp he with he1 | he2
        · exact hkeys e (List.mem_of_mem_take he1)
        · rcases List.mem_cons.mp he2 with rfl | he3
          · constructor
            · intro l hl
              have h1 := (hkeys (f.entries.get ⟨i, hilen⟩)
                (f.entries.get_mem _ _)).1 l hl
              show l ≤ pk
              omega
            · intro h hh
              show pk < h
              by_cases hc : i + 1 < f.entries.length
              · have h1 := hrightm hc
                have h2 := (hkeys (f.entries.get ⟨i + 1, hc⟩)
                  (f.entries.get_mem _ _)).2 h hh
                omega
              · apply hshi
                show hiOf f.entries i qhi = some h
                unfold hiOf
                rw [show f.entries.get? (i + 1) = none from
                  List.get?_eq_none.mpr (by omega)]
                exact hh
          · exact hkeys e (List.mem_of_mem_drop he3)
      set ST : PagerState := PagerState.mk (s.pages.set f.page
        (Page.internal f.lm (f.entries.take (i + 1) ++
          (⟨pk, np⟩ : InternalEntry) :: f.entries.drop (i + 1))))
        s.schemaPage with hSTdef
      have hSTo : ∀ n, n ≠ f.page → ST.readPage n = s.readPage n := by
        intro n hne
        have h2 := readPage_write_other s f.page n (Page.internal f.lm
          (f.entries.take (i + 1) ++ ⟨pk, np⟩ ::
            f.entries.drop (i + 1))) hne
        rw [PagerState.writePage_lt _ _ _ hqlt] at h2
        exact h2
      have hreadST : ST.readPage f.page = .ok (.internal f.lm
          (f.entries.take (i + 1) ++ ⟨pk, np⟩ ::
            f.entries.drop (i + 1))) := by
        have h2 := readPage_write_self s f.page (Page.internal f.lm
          (f.entries.take (i + 1) ++ ⟨pk, np⟩ ::
            f.entries.drop (i + 1))) hqlt
        rw [PagerState.writePage_lt _ _ _ hqlt] at h2
        exact h2
      have hA1 : SubT ST htA
          (f.entries.get ⟨i, hilen⟩).childPageNum
          (some ((f.entries.get ⟨i, hilen⟩).key)) (some pk)
          nodesA fringeA :=
        SubT.stable s ST _ _ _ _ _ _ hA
          (fun n hn => hSTo n (fun hc => hfpA (hc ▸ hn)))
      have hB1 : SubT ST htB np (some pk) (hiOf f.entries i qhi)
          nodesB fringeB :=
        SubT.stable s ST _ _ _ _ _ _ hB
          (fun n hn => hSTo n (fun hc => hfpB (hc ▸ hn)))
      obtain ⟨htL, hsubL0⟩ := hlmEx
      have hlmST : SubT ST htL f.lm qlo (lmHi f.entries qhi)
          f.nodesL f.fringeL :=
        SubT.stable s ST _ _ _ _ _ _ hsubL0
          (fun n hn => hSTo n (fun hc => hfpFlank (by
            simp only [TFrame.flankNodes, hsl]
            exact List.mem_append_left _ (hc ▸ hn))))
      obtain ⟨H0, hH0⟩ := exists_uniform_nat f.entries.length
        (fun j ht => ∀ (hj : j < f.entries.length), j ≠ i →
          SubT ST ht (f.entries.get ⟨j, hj⟩).childPageNum
            (some ((f.entries.get ⟨j, hj⟩).key)) (hiOf f.entries j qhi)
            (f.nodesF j) (f.fringeF j))
        (fun j h1 h2 hle hp hlt hne =>
          SubT.mono _ _ _ _ _ _ _ (hp hlt hne) _ hle)
        (fun j hj => by
          by_cases hne : j = i
          · exact ⟨0, fun hlt hne2 => absurd hne hne2⟩
          · obtain ⟨htj, hsubj⟩ := hflank j hj hne
            refine ⟨htj, fun hlt hne2 => SubT.stable s ST _ _ _ _ _ _ hsubj
              (fun n hn => hSTo n (fun hc => hfpFlank ?_))⟩
            simp only [TFrame.flankNodes, hsl]
            refine List.mem_append_right _
              ((mem_flatten_range _ _ _).mpr ⟨j, hj, ?_⟩)
            rw [if_neg hne]
            exact hc ▸ hn)
      have hchTD : ∀ j (hj : j < (f.entries.take (i + 1) ++
          (⟨pk, np⟩ : InternalEntry) :: f.entries.drop (i + 1)).length),
          SubT ST ((htA ⊔ htB) ⊔ (htL ⊔ H0))
            (((f.entries.take (i + 1) ++ ⟨pk, np⟩ ::
              f.entries.drop (i + 1)).get ⟨j, hj⟩).childPageNum)
            (some (((f.entries.take (i + 1) ++ ⟨pk, np⟩ ::
              f.entries.drop (i + 1)).get ⟨j, hj⟩).key))
            (hiOf (f.entries.take (i + 1) ++ ⟨pk, np⟩ ::
              f.entries.drop (i + 1)) j qhi)
            ((fun t => if t < i then f.nodesF t else if t = i then nodesA
              else if t = i + 1 then nodesB else f.nodesF (t - 1)) j)
            ((fun t => if t < i then f.fringeF t else if t = i
              then fringeA else if t = i + 1 then fringeB
              else f.fringeF (t - 1)) j) := by
        intro j hj
        have hjlen1 : j < f.entries.length + 1 := by
          rw [hlenTD] at hj
          exact hj
        rcases lt_trichotomy j i with hji | hji | hji
        · have hje : j < f.entries.length := by omega
          rw [get_insertAt_lt f.entries ⟨pk, np⟩ (i + 1) (by omega) j
              (by omega) hj hje,
            hiOf_insertAt_lt f.entries ⟨pk, np⟩ (i + 1) (by omega) j
              (by omega)]
          have e1 : (fun t => if t < i then f.nodesF t else
              if t = i then nodesA else if t = i + 1 then nodesB
              else f.nodesF (t - 1)) j = f.nodesF j := if_pos hji
          have e2 : (fun t => if t < i then f.fringeF t else
              if t = i then fringeA else if t = i + 1 then fringeB
              else f.fringeF (t - 1)) j = f.fringeF j := if_pos hji
          rw [e1, e2]
          exact SubT.mono _ _ _ _ _ _ _ (hH0 j hje hje (by omega)) _
            (le_trans (le_max_right _ _) (le_max_right _ _))
        · subst hji
          rw [get_insertAt_lt f.entries ⟨pk, np⟩ (j + 1) (by omega) j
              (by omega) hj hilen,
            hiOf_insertAt_eq f.entries ⟨pk, np⟩ (j + 1) (by omega) j rfl]
          have e1 : (fun t => if t < j then f.nodesF t else
              if t = j then nodesA else if t = j + 1 then nodesB
              else f.nodesF (t - 1)) j = nodesA :=
            (if_neg (lt_irrefl j)).trans (if_pos rfl)
          have e2 : (fun t => if t < j then f.fringeF t else
              if t = j then fringeA else if t = j + 1 then fringeB
              else f.fringeF (t - 1)) j = fringeA :=
            (if_neg (lt_irrefl j)).trans (if_pos rfl)
          rw [e1, e2]
          exact SubT.mono _ _ _ _ _ _ _ hA1 _
            (le_trans (le_max_left _ _) (le_max_left _ _))
        · by_cases hj1 : j = i + 1
          · subst hj1
            rw [get_insertAt_eq f.entries ⟨pk, np⟩ (i + 1) (by omega) hj,
              hiOf_insertAt_ge1 f.entries ⟨pk, np⟩ (i + 1) (by omega)
                (i + 1) (by omega) (by omega)]
            have e1 : (fun t => if t < i then f.nodesF t else
                if t = i then nodesA else if t = i + 1 then nodesB
                else f.nodesF (t - 1)) (i + 1) = nodesB :=
              (if_neg (by omega)).trans
                ((if_neg (by omega)).trans (if_pos rfl))
            have e2 : (fun t => if t < i then f.fringeF t else
                if t = i then fringeA else if t = i + 1 then fringeB
                else f.fringeF (t - 1)) (i + 1) = fringeB :=
              (if_neg (by omega)).trans
                ((if_neg (by omega)).trans (if_pos rfl))
            rw [e1, e2]
            exact SubT.mono _ _ _ _ _ _ _ hB1 _
              (le_trans (le_max_right _ _) (le_max_left _ _))
          · have hje : j - 1 < f.entries.length := by omega
            rw [get_insertAt_gt f.entries ⟨pk, np⟩ (i + 1) (by omega) j
                (by omega) hj hje,
              hiOf_insertAt_ge1 f.entries ⟨pk, np⟩ (i + 1) (by omega) j
                (by omega) (by omega)]
            have e1 : (fun t => if t < i then f.nodesF t else
                if t = i then nodesA else if t = i + 1 then nodesB
                else f.nodesF (t - 1)) j = f.nodesF (j - 1) :=
              (if_neg (by omega)).trans
                ((if_neg (by omega)).trans (if_neg hj1))
            have e2 : (fun t => if t < i then f.fringeF t else
                if t = i then fringeA else if t = i + 1 then fringeB
                else f.fringeF (t - 1)) j = f.fringeF (j - 1) :=
              (if_neg (by omega)).trans
                ((if_neg (by omega)).trans (if_neg hj1))
            rw [e1, e2]
            exact SubT.mono _ _ _ _ _ _ _
              (hH0 (j - 1) hje hje (by omega)) _
              (le_trans (le_max_right _ _) (le_max_right _ _))
      have hlmQ : SubT ST ((htA ⊔ htB) ⊔ (htL ⊔ H0)) f.lm qlo
          (lmHi (f.entries.take (i + 1) ++
            (⟨pk, np⟩ : InternalEntry) :: f.entries.drop (i + 1)) qhi)
          f.nodesL f.fringeL := by
        rw [lmHi_insertAt_pos f.entries ⟨pk, np⟩ (i + 1) (by omega)
          (by omega)]
        exact SubT.mono _ _ _ _ _ _ _ hlmST _
          (le_trans (le_max_left _ _) (le_max_right _ _))
      have hsubQ := SubT.internalT ((htA ⊔ htB) ⊔ (htL ⊔ H0)) f.page f.lm
        (f.entries.take (i + 1) ++ ⟨pk, np⟩ :: f.entries.drop (i + 1))
        qlo qhi f.nodesL f.fringeL
        (fun t => if t < i then f.nodesF t else if t = i then nodesA
          else if t = i + 1 then nodesB else f.nodesF (t - 1))
        (fun t => if t < i then f.fringeF t else if t = i then fringeA
          else if t = i + 1 then fringeB else f.fringeF (t - 1))
        hreadST hchainTD hkeysTD hlmQ hchTD
      have hflatN : ((List.range (f.entries.take (i + 1) ++
          (⟨pk, np⟩ : InternalEntry) :: f.entries.drop (i + 1)).length).map
          (fun t => if t < i then f.nodesF t else if t = i then nodesA
            else if t = i + 1 then nodesB else f.nodesF (t - 1))).flatten =
          ((List.range i).map f.nodesF).flatten ++ nodesA ++ nodesB ++
            ((List.range (f.entries.length - i - 1)).map
              (fun t => f.nodesF (i + 1 + t))).flatten := by
        rw [hlenTD, flatten_range_split _ (f.entries.length + 1) i
          (by omega)]
        have hpart1 : (List.range i).map
            (fun t => if t < i then f.nodesF t else if t = i then nodesA
              else if t = i + 1 then nodesB else f.nodesF (t - 1)) =
            (List.range i).map f.nodesF :=
          List.map_congr_left (fun j hj => by
            rw [if_pos (List.mem_range.mp hj)])
        have hlen2 : f.entries.length + 1 - i - 1 =
            (f.entries.length - i - 1) + 1 := by omega
        rw [hpart1, if_neg (lt_irrefl i), if_pos rfl, hlen2,
          flatten_map_range_succ_left]
        have hF20 : (if i + 1 + 0 < i then f.nodesF (i + 1 + 0) else
            if i + 1 + 0 = i then nodesA else if i + 1 + 0 = i + 1
            then nodesB else f.nodesF (i + 1 + 0 - 1)) = nodesB := by
          rw [if_neg (by omega), if_neg (by omega), if_pos (by omega)]
        have hFfun : (fun t => if i + 1 + (t + 1) < i then
            f.nodesF (i + 1 + (t + 1)) else if i + 1 + (t + 1) = i
            then nodesA else if i + 1 + (t + 1) = i + 1 then nodesB
            else f.nodesF (i + 1 + (t + 1) - 1)) =
            (fun t => f.nodesF (i + 1 + t)) := by
          funext t
          rw [if_neg (by omega), if_neg (by omega), if_neg (by omega)]
          have hidx : i + 1 + (t + 1) - 1 = i + 1 + t := by omega
          rw [hidx]
        rw [hF20, hFfun]
        simp [List.append_assoc]
      have hflatF : ((List.range (f.entries.take (i + 1) ++
          (⟨pk, np⟩ : InternalEntry) :: f.entries.drop (i + 1)).length).map
          (fun t => if t < i then f.fringeF t else if t = i then fringeA
            else if t = i + 1 then fringeB
            else f.fringeF (t - 1))).flatten =
          ((List.range i).map f.fringeF).flatten ++ fringeA ++ fringeB ++
            ((List.range (f.entries.length - i - 1)).map
              (fun t => f.fringeF (i + 1 + t))).flatten := by
        rw [hlenTD, flatten_range_split _ (f.entries.length + 1) i
          (by omega)]
        have hpart1 : (List.range i).map
            (fun t => if t < i then f.fringeF t else if t = i then fringeA
              else if t = i + 1 then fringeB else f.fringeF (t - 1)) =
            (List.range i).map f.fringeF :=
          List.map_congr_left (fun j hj => by
            rw [if_pos (List.mem_range.mp hj)])
        have hlen2 : f.entries.length + 1 - i - 1 =
            (f.entries.length - i - 1) + 1 := by omega
        rw [hpart1, if_neg (lt_irrefl i), if_pos rfl, hlen2,
          flatten_map_range_succ_left]
        have hF20 : (if i + 1 + 0 < i then f.fringeF (i + 1 + 0) else
            if i + 1 + 0 = i then fringeA else if i + 1 + 0 = i + 1
            then fringeB else f.fringeF (i + 1 + 0 - 1)) = fringeB := by
          rw [if_neg (by omega), if_neg (by omega), if_pos (by omega)]
        have hFfun : (fun t => if i + 1 + (t + 1) < i then
            f.fringeF (i + 1 + (t + 1)) else if i + 1 + (t + 1) = i
            then fringeA else if i + 1 + (t + 1) = i + 1 then fringeB
            else f.fringeF (i + 1 + (t + 1) - 1)) =
            (fun t => f.fringeF (i + 1 + t)) := by
          funext t
          rw [if_neg (by omega), if_neg (by omega), if_neg (by omega)]
          have hidx : i + 1 + (t + 1) - 1 = i + 1 + t := by omega
          rw [hidx]
        rw [hF20, hFfun]
        simp [List.append_assoc]
      rw [hflatN, hflatF] at hsubQ
      have hfrQ : f.fringeL ++
          (((List.range i).map f.fringeF).flatten ++ fringeA ++ fringeB ++
            ((List.range (f.entries.length - i - 1)).map
              (fun t => f.fringeF (i + 1 + t))).flatten) =
          f.leftFringe ++ (fringeA ++ fringeB) ++ f.rightFringe := by
        simp only [TFrame.leftFringe, TFrame.rightFringe, hsl]
        rw [flatten_if_gt f.fringeF f.entries.length i hilen]
        simp [List.append_assoc]
      rw [hfrQ] at hsubQ
      rw [hSTdef] at hsubQ
      rw [← hNE] at hsubQ
      have hpermQ : (f.page :: (f.nodesL ++
          (((List.range i).map f.nodesF).flatten ++ nodesA ++ nodesB ++
            ((List.range (f.entries.length - i - 1)).map
              (fun t => f.nodesF (i + 1 + t))).flatten))).Perm
          (f.page :: (f.flankNodes ++ (nodesA ++ nodesB))) := by
        simp only [TFrame.flankNodes, hsl]
        rw [flatten_if_ne f.nodesF f.entries.length i hilen]
        refine List.Perm.cons _ ?_
        have h1 : f.nodesL ++
            (((List.range i).map f.nodesF).flatten ++ nodesA ++ nodesB ++
              ((List.range (f.entries.length - i - 1)).map
                (fun t => f.nodesF (i + 1 + t))).flatten) =
            (f.nodesL ++ ((List.range i).map f.nodesF).flatten) ++
              ((nodesA ++ nodesB) ++
                ((List.range (f.entries.length - i - 1)).map
                  (fun t => f.nodesF (i + 1 + t))).flatten) := by
          simp [List.append_assoc]
        have h2 : (f.nodesL ++ (((List.range i).map f.nodesF).flatten ++
              ((List.range (f.entries.length - i - 1)).map
                (fun t => f.nodesF (i + 1 + t))).flatten)) ++
              (nodesA ++ nodesB) =
            (f.nodesL ++ ((List.range i).map f.nodesF).flatten) ++
              (((List.range (f.entries.length - i - 1)).map
                (fun t => f.nodesF (i + 1 + t))).flatten ++
                (nodesA ++ nodesB)) := by
          simp [List.append_assoc]
        rw [h1, h2]
        exact List.Perm.append_left _ List.perm_append_comm
      exact propagateSplit_snoc_aux fs f ih s root qlo qhi pk np _ _
        nodesA nodesB fringeA fringeB hfsOK hreadq hsubQ hpermQ hnd

/-- A successful `BTree.insert` preserves the global tree invariant. -/
theorem insert_TreeWF (s : PagerState) (root : Nat) (record : BTreeRecord)
    (s2 : PagerState) (root2 : Nat)
    (hwf : TreeWF s root)
    (heq : BTree.insert s root record = (s2, .ok root2)) :
    TreeWF s2 root2 := by
  obtain ⟨ht, nodes, fringe, hsub, hnd, hlink⟩ := hwf
  obtain ⟨ht2, hht2, hsub2⟩ :=
    SubT.height_bound s ht root none none nodes fringe hsub
  have hlenN := nodup_lt_length_le nodes s.totalPages hnd
    (SubT.nodes_lt _ _ _ _ _ _ _ hsub)
  obtain ⟨frames, L, sib, cells, clo, chi, hfind, hfo, hreadL, hchainC,
    hboundsC, hkin, hperm, hfr⟩ :=
    findLeafPage_frames s record.key ht2 root none none nodes fringe hsub2
      ⟨fun l hl => (nomatch hl), fun h hh => (nomatch hh)⟩
      (s.totalPages + 1) [] (by omega)
  have hLlt : L < s.pages.length := PagerState.readPage_lt s _ _ hreadL
  rw [insert_step s root record L ([] ++ frames.map (fun f => f.page)) sib
    cells hfind hreadL hLlt] at heq
  by_cases hdup : cells.any (fun cell => cell.key == record.key) = true
  · rw [if_pos hdup] at heq
    injection heq with h1 h2
    cases h2
  · rw [if_neg hdup] at heq
    have hnodupk : ∀ c ∈ cells, c.key ≠ record.key := by
      intro c hc hck
      exact hdup (List.any_eq_true.mpr ⟨c, hc, by simp [hck]⟩)
    have hchainNC : (BTree.insertSorted record cells).Chain'
        (fun a b => a.key < b.key) :=
      insertSorted_sorted record cells hchainC hnodupk
    have hkeysNC : ∀ c ∈ BTree.insertSorted record cells,
        keyInBounds clo chi c.key := by
      intro c hc
      rcases insertSorted_mem record cells c hc with rfl | hc2
      · exact hkin
      · exact hboundsC c hc2
    have hnd2 : (ctxNodes frames ++ [L]).Nodup := (hperm.nodup_iff).mp hnd
    have hLctx : L ∉ ctxNodes frames := by
      intro hmem
      exact (List.disjoint_of_nodup_append hnd2) hmem (by simp)
    have hS1o : ∀ n, n ≠ L → (PagerState.mk (s.pages.set L
        (Page.leaf sib (BTree.insertSorted record cells)))
        s.schemaPage).readPage n = s.readPage n := by
      intro n hne
      have h2 := readPage_write_other s L n
        (Page.leaf sib (BTree.insertSorted record cells)) hne
      rw [PagerState.writePage_lt _ _ _ hLlt] at h2
      exact h2
    have hreadS1 : (PagerState.mk (s.pages.set L
        (Page.leaf sib (BTree.insertSorted record cells)))
        s.schemaPage).readPage L =
        .ok (.leaf sib (BTree.insertSorted record cells)) := by
      have h2 := readPage_write_self s L
        (Page.leaf sib (BTree.insertSorted record cells)) hLlt
      rw [PagerState.writePage_lt _ _ _ hLlt] at h2
      exact h2
    have hagree : ∀ n ∈ ctxNodes frames, (PagerState.mk (s.pages.set L
        (Page.leaf sib (BTree.insertSorted record cells)))
        s.schemaPage).readPage n = s.readPage n :=
      fun n hn => hS1o n (fun hc => hLctx (hc ▸ hn))
    have hS1tot : (PagerState.mk (s.pages.set L
        (Page.leaf sib (BTree.insertSorted record cells)))
        s.schemaPage).totalPages = s.totalPages := by
      simp [PagerState.totalPages]
    by_cases hfit : (BTree.insertSorted record cells).length ≤ maxLeafCells
    · rw [if_pos hfit] at heq
      injection heq with h1 h2
      injection h2 with h2
      subst h1
      subst h2
      have hleaf : SubT (PagerState.mk (s.pages.set L (Page.leaf sib
          (BTree.insertSorted record cells))) s.schemaPage) 0 L clo chi
          [L] [(L, sib, BTree.insertSorted record cells)] :=
        SubT.leafT 0 L sib _ clo chi hreadS1 hchainNC hkeysNC
      obtain ⟨ht3, nodes3, hsub3, hperm3⟩ :=
        frames_plug s _ frames root none none L clo chi hfo hagree
          0 [L] _ hleaf
      refine ⟨ht3, nodes3, _, hsub3, ?_, ?_⟩
      · exact (hperm3.nodup_iff).mpr hnd2
      · have heqf : ctxPre frames ++
            [(L, sib, BTree.insertSorted record cells)] ++
            ctxSuf frames = ctxPre frames ++
            (L, sib, BTree.insertSorted record cells) ::
              ctxSuf frames := by
          simp
        rw [heqf]
        exact linked_cells _ _ _ _ _ _ (hfr ▸ hlink)
    · rw [if_neg hfit] at heq
      have hfit5 : 4 < (BTree.insertSorted record cells).length := by
        simp only [maxLeafCells] at hfit
        omega
      obtain ⟨r0, hmainSp, hsubA, hsubB, hstrictL2, hstrictR2, hrdO2,
        htot2⟩ :=
        splitLeaf_pair (PagerState.mk (s.pages.set L (Page.leaf sib
          (BTree.insertSorted record cells))) s.schemaPage) L sib
          (BTree.insertSorted record cells) clo chi hreadS1 hchainNC
          hkeysNC hfit5
      rw [hmainSp] at heq
      have heqP : BTree.propagateSplit (BTree.splitLeafNode
          (PagerState.mk (s.pages.set L (Page.leaf sib
            (BTree.insertSorted record cells))) s.schemaPage) L
          (BTree.insertSorted record cells)).1 root
          (frames.map (fun g => g.page)) r0.key
          (PagerState.mk (s.pages.set L (Page.leaf sib
            (BTree.insertSorted record cells)))
            s.schemaPage).totalPages = (s2, .ok root2) := heq
      have hfsOK2 : FramesOK (BTree.splitLeafNode
          (PagerState.mk (s.pages.set L (Page.leaf sib
            (BTree.insertSorted record cells))) s.schemaPage) L
          (BTree.insertSorted record cells)).1 frames root none none
          L clo chi := by
        refine FramesOK_stable _ _ frames root none none L clo chi
          (FramesOK_stable s _ frames root none none L clo chi hfo
            hagree) ?_
        intro n hn
        refine hrdO2 n ?_ (fun hc => hLctx (hc ▸ hn))
        rw [hS1tot]
        exact FramesOK_ctx_lt s frames root none none L clo chi hfo n hn
      have htpfresh : ∀ n ∈ ctxNodes frames ++ [L], n < s.totalPages := by
        intro n hn
        rcases List.mem_append.mp hn with hn | hn
        · exact FramesOK_ctx_lt s frames root none none L clo chi hfo n hn
        · simp at hn
          subst hn
          exact hLlt
      have hndSpec : (ctxNodes frames ++ ([L] ++
          [(PagerState.mk (s.pages.set L (Page.leaf sib
            (BTree.insertSorted record cells)))
            s.schemaPage).totalPages])).Nodup := by
        have h1 : ((ctxNodes frames ++ [L]) ++
            [(PagerState.mk (s.pages.set L (Page.leaf sib
              (BTree.insertSorted record cells)))
              s.schemaPage).totalPages]).Nodup := by
          refine List.Nodup.append hnd2 (by simp) ?_
          intro a ha hb
          simp at hb
          subst hb
          have hlt2 := htpfresh _ ha
          rw [hS1tot] at hlt2
          omega
        have h2 : (ctxNodes frames ++ [L]) ++
            [(PagerState.mk (s.pages.set L (Page.leaf sib
              (BTree.insertSorted record cells)))
              s.schemaPage).totalPages] = ctxNodes frames ++ ([L] ++
            [(PagerState.mk (s.pages.set L (Page.leaf sib
              (BTree.insertSorted record cells)))
              s.schemaPage).totalPages]) := by
          simp
        rw [h2] at h1
        exact h1
      obtain ⟨s2f, root2f, ht2f, nodes2f, heq2, hsub2f, hnd2f⟩ :=
        propagateSplit_spec frames _ root L clo chi r0.key
          _ 0 0 [L] _ _ _ hfsOK2 hsubA hsubB hstrictL2 hstrictR2 hndSpec
      rw [heq2] at heqP
      injection heqP with hh1 hh2
      injection hh2 with hh2
      subst hh1
      subst hh2
      refine ⟨ht2f, nodes2f, _, hsub2f, hnd2f, ?_⟩
      have hl3 := linked_split (ctxPre frames) (ctxSuf frames) L
        (PagerState.mk (s.pages.set L (Page.leaf sib
          (BTree.insertSorted record cells))) s.schemaPage).totalPages
        sib cells
        ((BTree.insertSorted record cells).take
          (((BTree.insertSorted record cells).length + 1) / 2))
        ((BTree.insertSorted record cells).drop
          (((BTree.insertSorted record cells).length + 1) / 2))
        (hfr ▸ hlink)
      have heqf : ctxPre frames ++
          ([(L, (PagerState.mk (s.pages.set L (Page.leaf sib
              (BTree.insertSorted record cells)))
              s.schemaPage).totalPages,
            (BTree.insertSorted record cells).take
              (((BTree.insertSorted record cells).length + 1) / 2))] ++
           [((PagerState.mk (s.pages.set L (Page.leaf sib
              (BTree.insertSorted record cells)))
              s.schemaPage).totalPages, sib,
            (BTree.insertSorted record cells).drop
              (((BTree.insertSorted record cells).length + 1) / 2))]) ++
          ctxSuf frames = ctxPre frames ++
          (L, (PagerState.mk (s.pages.set L (Page.leaf sib
              (BTree.insertSorted record cells)))
              s.schemaPage).totalPages,
            (BTree.insertSorted record cells).take
              (((BTree.insertSorted record cells).length + 1) / 2)) ::
          ((PagerState.mk (s.pages.set L (Page.leaf sib
              (BTree.insertSorted record cells)))
              s.schemaPage).totalPages, sib,
            (BTree.insertSorted record cells).drop
              (((BTree.insertSorted record cells).length + 1) / 2)) ::
          ctxSuf frames := by
        simp
      rw [heqf]
      exact hl3

/-- `BTree.create` establishes the global tree invariant. -/
theorem create_TreeWF (s s1 : PagerState) (root : Nat)
    (heq : BTree.create s = (s1, .ok root)) : TreeWF s1 root := by
  have hmain : BTree.create s =
      (PagerState.mk ((s.pages ++ [Page.unused]).set s.totalPages
        (Page.leaf 0 [])) s.schemaPage, .ok s.totalPages) := by
    unfold BTree.create
    show (match (PagerState.allocatePage s) with
      | (s1, rootPageNum) => _) = _
    simp only [PagerState.allocatePage]
    rw [PagerState.writePage_lt _ _ _ (by simp [PagerState.totalPages])]
    simp only [PagerState.totalPages]
  rw [hmain] at heq
  injection heq with h1 h2
  injection h2 with h2
  subst h1
  subst h2
  refine ⟨0, [s.totalPages], [(s.totalPages, 0, [])], ?_, by simp, ?_⟩
  · refine SubT.leafT 0 s.totalPages 0 [] none none ?_ (by simp) (by simp)
    rw [PagerState.readPage_mk]
    rw [List.getElem?_set_self (h := by simp [PagerState.totalPages])]
  · rfl

/-- Every reachable database state satisfies the tree invariant. -/
theorem reachable_TreeWF (s : PagerState) (root : Nat)
    (h : Reachable s root) : TreeWF s root := by
  induction h with
  | created s0 s1 root0 heq => exact create_TreeWF s0 s1 root0 heq
  | inserted sa sb roota rootb record hreach heq ih =>
    exact insert_TreeWF sa roota record sb rootb ih heq

/-- Every leaf reachable through child pointers from the root of a
well-formed subtree appears, with its sibling field and cells, on the
subtree's fringe. -/
theorem leafReach_mem_fringe (s : PagerState) :
    ∀ (p L : Nat), LeafReach s p L →
    ∀ ht (lo hi : Option Int) nodes fringe,
      SubT s ht p lo hi nodes fringe →
    ∀ sib cells, s.readPage L = .ok (.leaf sib cells) →
    (L, sib, cells) ∈ fringe := by
  intro p L hreach
  induction hreach with
  | here p2 sib2 cells2 hread2 =>
    intro ht lo hi nodes fringe hsub sib cells hread
    cases hsub with
    | leafT ht3 p3 sib3 cells3 lo3 hi3 hread3 hchain hbounds =>
      rw [hread3] at hread
      injection hread with hpg
      injection hpg with h1 h2
      subst h1
      subst h2
      simp
    | internalT ht3 p3 lm3 entries3 lo3 hi3 nodesL fringeL nodesF fringeF
        hread3 hchain hkeys hlm hch =>
      rw [hread2] at hread3
      simp at hread3
  | step p2 lm entries child q hreadI hchild hrec ih =>
    intro ht lo hi nodes fringe hsub sib cells hread
    cases hsub with
    | leafT ht3 p3 sib3 cells3 lo3 hi3 hread3 hchain hbounds =>
      rw [hreadI] at hread3
      simp at hread3
    | internalT ht3 p3 lm3 entries3 lo3 hi3 nodesL fringeL nodesF fringeF
        hread3 hchain hkeys hlm hch =>
      rw [hreadI] at hread3
      injection hread3 with hpg
      injection hpg with h1 h2
      subst h1
      subst h2
      rcases hchild with rfl | ⟨e, he, rfl⟩
      · exact List.mem_append_left _
          (ih _ _ _ _ _ hlm sib cells hread)
      · obtain ⟨⟨iE, hiE⟩, rfl⟩ := List.mem_iff_get.mp he
        exact List.mem_append_right _
          ((mem_flatten_range _ _ _).mpr
            ⟨iE, hiE, ih _ _ _ _ _ (hch iE hiE) sib cells hread⟩)

/-- C1.  In every database state reachable by a successful
`BTree.create` followed by any sequence of successful `BTree.insert`
operations: (1) every reachable leaf holds its keys in strictly
increasing order; (2) keys are unique across the whole tree (two cells
with equal keys in reachable leaves are the same cell of the same
leaf); (3) whenever a leaf's right-sibling pointer is non-zero it
names a leaf all of whose keys are strictly greater. -/
theorem reachable_btree_invariants (s : PagerState) (root : Nat)
    (hreach : Reachable s root) :
    (∀ L sib cells, LeafReach s root L →
      s.readPage L = .ok (.leaf sib cells) →
      cells.Chain' (fun a b => a.key < b.key)) ∧
    (∀ L1 sib1 cells1 L2 sib2 cells2 c1 c2,
      LeafReach s root L1 → s.readPage L1 = .ok (.leaf sib1 cells1) →
      LeafReach s root L2 → s.readPage L2 = .ok (.leaf sib2 cells2) →
      c1 ∈ cells1 → c2 ∈ cells2 → c1.key = c2.key →
      L1 = L2 ∧ c1 = c2) ∧
    (∀ L sib cells, LeafReach s root L →
      s.readPage L = .ok (.leaf sib cells) → sib ≠ 0 →
      ∃ sib2 cells2, s.readPage sib = .ok (.leaf sib2 cells2) ∧
        ∀ c ∈ cells, ∀ d ∈ cells2, c.key < d.key) := by
  obtain ⟨ht, nodes, fringe, hsub, hnd, hlink⟩ :=
    reachable_TreeWF s root hreach
  have hfrd := SubT.fringe_read s ht root none none nodes fringe hsub
  have hks := SubT.keys_sorted s ht root none none nodes fringe hsub
  have hpwK : (fringeKeys fringe).Pairwise (fun a b => a < b) := by
    haveI : IsTrans Int (fun a b : Int => a < b) :=
      ⟨fun a b c hab hbc => lt_trans hab hbc⟩
    exact List.chain'_iff_pairwise.mp hks.1
  refine ⟨?_, ?_, ?_⟩
  · intro L sib cells hLR hread
    have hmem := leafReach_mem_fringe s root L hLR ht none none nodes
      fringe hsub sib cells hread
    exact (hfrd _ hmem).2.1
  · intro L1 sib1 cells1 L2 sib2 cells2 c1 c2 h1 hr1 h2 hr2 hm1 hm2 hkeq
    have hmem1 := leafReach_mem_fringe s root L1 h1 ht none none nodes
      fringe hsub sib1 cells1 hr1
    have hmem2 := leafReach_mem_fringe s root L2 h2 ht none none nodes
      fringe hsub sib2 cells2 hr2
    obtain ⟨hxy, hcd⟩ := fringe_key_unique fringe hpwK _ hmem1 _ hmem2
      c1 hm1 c2 hm2 hkeq
    exact ⟨congrArg Prod.fst hxy, hcd⟩
  · intro L sib cells hLR hread hsibne
    have hmem := leafReach_mem_fringe s root L hLR ht none none nodes
      fringe hsub sib cells hread
    obtain ⟨⟨iF, hiF⟩, hgetF⟩ := List.mem_iff_get.mp hmem
    obtain ⟨hlast, hnext⟩ := linked_next fringe hlink iF hiF
    by_cases hend : iF + 1 = fringe.length
    · have h0 := hlast hend
      rw [hgetF] at h0
      exact absurd h0 hsibne
    · have hj : iF + 1 < fringe.length := by omega
      have hnx := hnext hj
      rw [hgetF] at hnx
      have hymem : fringe.get ⟨iF + 1, hj⟩ ∈ fringe := fringe.get_mem _ _
      obtain ⟨hry, hchy, hby⟩ := hfrd _ hymem
      refine ⟨(fringe.get ⟨iF + 1, hj⟩).2.1,
        (fringe.get ⟨iF + 1, hj⟩).2.2, ?_, ?_⟩
      · rw [show sib = (fringe.get ⟨iF + 1, hj⟩).1 from hnx]
        exact hry
      · intro c hc d hd
        exact fringe_cross_lt fringe hpwK iF (iF + 1) hiF hj (by omega)
          c (by rw [hgetF]; exact hc) d hd

/-- Witness for C1: create the tree on an empty pager, insert key 2;
the single reachable leaf holds its keys in strictly increasing
order. -/
theorem reachable_btree_invariants_witness :
    Reachable (PagerState.mk [Page.leaf 0 [⟨2, []⟩]] 7) 0 ∧
    ([(⟨2, []⟩ : BTreeRecord)].Chain' (fun a b => a.key < b.key)) := by
  have hreach : Reachable (PagerState.mk [Page.leaf 0 [⟨2, []⟩]] 7) 0 :=
    Reachable.inserted (PagerState.mk [Page.leaf 0 []] 7)
      (PagerState.mk [Page.leaf 0 [⟨2, []⟩]] 7) 0 0 ⟨2, []⟩
      (Reachable.created (PagerState.mk [] 7)
        (PagerState.mk [Page.leaf 0 []] 7) 0 rfl) rfl
  refine ⟨hreach, ?_⟩
  exact (reachable_btree_invariants _ _ hreach).1 0 0 [⟨2, []⟩]
    (LeafReach.here 0 0 [⟨2, []⟩] rfl) rfl

end SqlLight
